import Mathlib

/-!
# K&R free-list allocator (`umalloc.c`)

A shallow embedding of `free`, `morecore` and `malloc` from `src/umalloc.c`.

* Addresses are natural numbers counted in units of
  `sizeof(struct freelist_node)`, exactly as C pointer arithmetic on
  `struct freelist_node *` counts them: `node + k` in the source is `node + k` here.
  The null pointer is address `0`.
* Memory is read through two maps, one per field of `struct freelist_node`:
  `next p` is `p->next` and `size p` is `p->hdr.size`.
* `uint` values are natural numbers reduced modulo `2 ^ 32` wherever the source
  computes them with `+` or `*`.
* Pointers are 32 bits wide (the xv6 target): address `p` stands for the byte
  address `p * usz`, where `usz` is `sizeof(struct freelist_node)`, and the pointer
  sums `node + size` and `node + 1` of `malloc` are reduced modulo `2 ^ 32` bytes.
* The pointer sums that `free` compares (`mem + mem->hdr.size`,
  `node + node->hdr.size`) are taken as they stand: in a well-formed state every
  block ends inside the address space, so these sums do not wrap; in the runs
  shown as counterexamples, where a block of `2 ^ 29` units reaches beyond it, the
  wrapped sum and the plain sum compare alike with the node they are tested
  against.
* The growth collaborator `sbrk` is a script of answers consumed one per call
  (`none` is the failure value `(char *)-1`, an exhausted script fails too); every
  request is appended to a log, as the `int` that `sbrk(int)` receives.
* The two `while` loops take fuel; `none` means the fuel ran out.
-/

namespace Umalloc

/-- Number of values of the C type `uint` (32-bit unsigned). -/
def UINT_MOD : Nat := 2 ^ 32

/-- The process-wide allocator state together with its environment:
`freelist` is the cursor (`0` while uninitialised), `next` and `size` read the two
fields of the `struct freelist_node` stored at an address, `script` holds the
answers the growth collaborator will give, `requests` logs the byte counts it was
asked for. -/
structure State where
  freelist : Nat
  next : Nat → Nat
  size : Nat → Nat
  script : List (Option Nat)
  requests : List Int

/-- The assignment `p->next = v`. -/
def State.setNext (st : State) (p v : Nat) : State :=
  { st with next := fun q => if q = p then v else st.next q }

/-- The assignment `p->hdr.size = v`. -/
def State.setSize (st : State) (p v : Nat) : State :=
  { st with size := fun q => if q = p then v else st.size q }

/-- The assignment `freelist = p`. -/
def State.setCursor (st : State) (p : Nat) : State :=
  { st with freelist := p }

/-- The search loop of `free` (lines 37-40): starting at `node`, walk `next` links
until `mem` lies strictly between `node` and `node->next`, or `node` is the wrap
edge and `mem` is above `node` or below `node->next`. -/
def free_search (st : State) (mem : Nat) : Nat → Nat → Option Nat
  | 0, _ => none
  | fuel + 1, node =>
    if mem > node ∧ mem < st.next node then some node
    else if node ≥ st.next node ∧ (mem > node ∨ mem < st.next node) then some node
    else free_search st mem fuel (st.next node)

/-- Lines 41-47 of `free`: if `mem` borders the node after `node`, `mem` absorbs
it; otherwise `mem` is linked to it. -/
def link_next (st : State) (mem node : Nat) : State :=
  if mem + st.size mem = st.next node then
    let s := st.setSize mem ((st.size mem + st.size (st.next node)) % UINT_MOD)
    s.setNext mem (s.next (s.next node))
  else
    st.setNext mem (st.next node)

/-- Lines 49-55 of `free`: if `node` borders `mem`, `node` absorbs it; otherwise
`node` is linked to `mem`. -/
def link_prev (st : State) (mem node : Nat) : State :=
  if node + st.size node = mem then
    let s := st.setSize node ((st.size node + st.size mem) % UINT_MOD)
    s.setNext node (s.next mem)
  else
    st.setNext node mem

/-- Lines 41-58 of `free`: link `mem` behind `node`, merging with the successor
and with `node` itself where they border `mem`, and leave the cursor on `node`. -/
def free_link (st : State) (mem node : Nat) : State :=
  (link_prev (link_next st mem node) mem node).setCursor node

/-- The function `free(ptr)`. -/
def free (fuel : Nat) (st : State) (ptr : Nat) : Option State :=
  let mem := ptr - 1
  (free_search st mem fuel st.freelist).map (free_link st mem)

/-- The unit count `morecore` asks for: `if (nu < 4096) nu = 4096`. -/
def grant (nu : Nat) : Nat := if nu < 4096 then 4096 else nu

/-- The value of a `uint` converted to `int` (two's complement), as happens when a
`uint` is passed to `sbrk(int)`. -/
def to_int (b : Nat) : Int := if b < 2 ^ 31 then (b : Int) else (b : Int) - 2 ^ 32

/-- The byte count `nu * sizeof(struct freelist_node)` of line 75, computed as a
`uint` and received by `sbrk` as an `int`. -/
def sbrk_bytes (usz nu : Nat) : Int := to_int ((grant nu * usz) % UINT_MOD)

/-- The call `sbrk(bytes)`: the request is logged and the next scripted answer is
consumed; `none` stands for the failure value `(char *)-1`. -/
def sbrk (st : State) (bytes : Int) : State × Option Nat :=
  ({ st with script := st.script.tail, requests := st.requests ++ [bytes] }, st.script.head?.join)

/-- The function `morecore(nu)`; `usz` is `sizeof(struct freelist_node)`.
The result pairs the new state with the returned pointer (`0` on failure). -/
def morecore (usz fuel : Nat) (st : State) (nu : Nat) : Option (State × Nat) :=
  match sbrk st (sbrk_bytes usz nu) with
  | (st0, none) => some (st0, 0)
  | (st0, some ptr) =>
    let st1 := st0.setSize ptr (grant nu)
    (free fuel st1 (ptr + 1)).map (fun st2 => (st2, st2.freelist))

/-- The unit count computed on line 97, in `uint` arithmetic (`usz` is
`sizeof(struct freelist_node)`, which is at least 1, so `nbytes + usz - 1` is the
sum the source forms before it is reduced modulo `2 ^ 32`). -/
def nunits (usz nbytes : Nat) : Nat :=
  ((nbytes + usz - 1) % UINT_MOD / usz + 1) % UINT_MOD

/-- The pointer sum `p + k` on `struct freelist_node *` (line 117): the byte address
`(p + k) * usz` reduced modulo `2 ^ 32`, in units. -/
def ptr_add (usz p k : Nat) : Nat := (p + k) * usz % UINT_MOD / usz

/-- The pointer `p + 1` (line 123), for a pointer `p` (a byte address `p * usz` below
`2 ^ 32`): the next unit, or the null pointer when the byte address reaches
`2 ^ 32`. -/
def ptr_succ (usz p : Nat) : Nat := if (p + 1) * usz < UINT_MOD then p + 1 else 0

/-- Lines 110-123 of `malloc`: hand out `node` (whose size is at least `nunits`),
either whole or by carving its tail, and leave the cursor on `prev_node`. -/
def carve (usz : Nat) (st : State) (nunits node prev_node : Nat) : State × Nat :=
  if st.size node = nunits then
    ((st.setNext prev_node (st.next node)).setCursor prev_node, ptr_succ usz node)
  else
    let st1 := st.setSize node (st.size node - nunits)
    let node1 := ptr_add usz node (st1.size node)
    ((st1.setSize node1 nunits).setCursor prev_node, ptr_succ usz node1)

/-- The `while(1)` loop of `malloc` (lines 108-132). `ffuel` is the fuel given to
each call of `free` made through `morecore`. -/
def malloc_loop (usz nunits ffuel : Nat) : Nat → State → Nat → Nat → Option (State × Nat)
  | 0, _, _, _ => none
  | fuel + 1, st, node, prev_node =>
    if st.size node ≥ nunits then some (carve usz st nunits node prev_node)
    else if node = st.freelist then
      match morecore usz ffuel st nunits with
      | none => none
      | some (st1, r) =>
        if r = 0 then some (st1, 0) else malloc_loop usz nunits ffuel fuel st1 (st1.next r) r
    else malloc_loop usz nunits ffuel fuel st (st.next node) node

/-- Lines 99-103 of `malloc`: the lazy initialisation of the sentinel `base`. -/
def init_base (base : Nat) (st : State) : State :=
  if st.freelist = 0 then ((st.setNext base base).setCursor base).setSize base 0 else st

/-- The function `malloc(nbytes)`; `base` is the address of the static sentinel.
The result pairs the new state with the returned pointer (`0` on failure). -/
def malloc (usz base fuel : Nat) (st : State) (nbytes : Nat) : Option (State × Nat) :=
  let st0 := init_base base st
  malloc_loop usz (nunits usz nbytes) fuel fuel st0 (st0.next st0.freelist) st0.freelist

/-- The allocator before the first call: cursor null, memory arbitrary (zeroed
here), and `sbrk` answering from the given script. -/
def fresh_state (script : List (Option Nat)) : State :=
  { freelist := 0, next := fun _ => 0, size := fun _ => 0, script := script, requests := [] }

/-! ## Specification vocabulary -/

/-- The unit count the specification asks for: `ceil(bytes / unit_size) + 1`,
computed over the rationals. -/
def spec_units (usz nbytes : Nat) : Nat := ⌈(nbytes : ℚ) / (usz : ℚ)⌉₊ + 1

/-- The nodes of `l` are chained by `next` in list order and the last one points
to `e`. -/
def Linked (next : Nat → Nat) : List Nat → Nat → Prop
  | [], _ => True
  | x :: r, e => next x = r.headD e ∧ Linked next r e

/-- The exit condition of the search loop of `free` at `node` (lines 37-38). -/
def FreeStop (st : State) (mem node : Nat) : Prop :=
  (mem > node ∧ mem < st.next node) ∨
    (node ≥ st.next node ∧ (mem > node ∨ mem < st.next node))

/-- Well-formed allocator state. `l` lists the free nodes in address order,
starting with the sentinel `base`; `al` lists the headers of the blocks currently
allocated. The free list is circular through `base`, address-ordered, with a
non-empty gap after every free block (no overlap, no adjacency); allocated blocks
lie above the static sentinel and overlap neither each other nor a free block;
every block ends inside the 32-bit address space (`2 ^ 32` bytes). -/
structure WF (usz base : Nat) (st : State) (l al : List Nat) : Prop where
  unit_pos : 0 < usz
  base_pos : 0 < base
  head : l.head? = some base
  base_size : st.size base = 0
  gap : l.Pairwise (fun x y => x + st.size x < y)
  link : Linked st.next l base
  cursor : st.freelist ∈ l
  fsize : ∀ x ∈ l, x ≠ base → 1 ≤ st.size x
  fbytes : ∀ x ∈ l, (x + st.size x) * usz < UINT_MOD
  asize : ∀ a ∈ al, 1 ≤ st.size a
  abytes : ∀ a ∈ al, (a + st.size a) * usz < UINT_MOD
  alow : ∀ a ∈ al, base < a
  adisj : al.Pairwise (fun a b => a + st.size a ≤ b ∨ b + st.size b ≤ a)
  fdisj : ∀ x ∈ l, ∀ a ∈ al, x + st.size x ≤ a ∨ a + st.size a ≤ x

/-- The state between the two halves of `free`: `l1 ++ pred :: l2` are the free
nodes still chained (the link out of `pred` is stale), `al` the allocated blocks
left, and `a` the block being released, already linked to `l2` and lying in the gap
between `pred` and `l2`. -/
structure Pending (usz base : Nat) (st : State) (l1 : List Nat) (pred : Nat)
    (l2 al : List Nat) (a : Nat) : Prop where
  unit_pos : 0 < usz
  base_pos : 0 < base
  head : (l1 ++ pred :: l2).head? = some base
  base_size : st.size base = 0
  gap : (l1 ++ pred :: l2).Pairwise (fun x y => x + st.size x < y)
  link1 : Linked st.next l1 pred
  link2 : Linked st.next l2 base
  fsize : ∀ x ∈ l1 ++ pred :: l2, x ≠ base → 1 ≤ st.size x
  fbytes : ∀ x ∈ l1 ++ pred :: l2, (x + st.size x) * usz < UINT_MOD
  asize : ∀ b ∈ al, 1 ≤ st.size b
  abytes : ∀ b ∈ al, (b + st.size b) * usz < UINT_MOD
  alow : ∀ b ∈ al, base < b
  adisj : al.Pairwise (fun b c => b + st.size b ≤ c ∨ c + st.size c ≤ b)
  fdisj : ∀ x ∈ l1 ++ pred :: l2, ∀ b ∈ al, x + st.size x ≤ b ∨ b + st.size b ≤ x
  pa_lt : pred < a
  pa_lo : pred + st.size pred ≤ a
  pa_size : 1 ≤ st.size a
  pa_bytes : (a + st.size a) * usz < UINT_MOD
  pa_hi : ∀ y ∈ l2, a + st.size a < y
  pa_next : st.next a = l2.headD base
  pa_disj : ∀ b ∈ al, a + st.size a ≤ b ∨ b + st.size b ≤ a

/-- The span of `nu` units at `p` is fresh: above the sentinel, inside the 32-bit
address space (it ends below byte `2 ^ 32`), and disjoint from every free and every
allocated block. -/
def Fresh (usz base : Nat) (st : State) (l al : List Nat) (p nu : Nat) : Prop :=
  base < p ∧ (p + nu) * usz < UINT_MOD ∧
  (∀ x ∈ l, x + st.size x ≤ p ∨ p + nu ≤ x) ∧
  (∀ a ∈ al, a + st.size a ≤ p ∨ p + nu ≤ a)

/-- The growth collaborator honours its contract for a request of `nu` units: its
next answer is a failure, or the request reached it as a positive `int` (the byte
count is below `2 ^ 31`) and the answer is a fresh span of that many bytes. -/
def SbrkOk (usz base : Nat) (st : State) (l al : List Nat) (nu : Nat) : Prop :=
  ∀ p, st.script.head?.join = some p →
    grant nu * usz < 2 ^ 31 ∧ Fresh usz base st l al p (grant nu)

/-- Node `f` is the first node large enough for `n` units in scan order (after the
cursor, around the list, the cursor last), and `prev` is the node scanned just
before it. -/
def FirstFit (st : State) (l : List Nat) (n f prev : Nat) : Prop :=
  ∃ A B w rest, l = A ++ st.freelist :: B ∧ B ++ A ++ [st.freelist] = w ++ f :: rest ∧
    (∀ x ∈ w, st.size x < n) ∧ n ≤ st.size f ∧ prev = w.getLastD st.freelist ∧
    prev ∈ l ∧ st.next prev = f

/-- A call of the public interface. -/
inductive Call where
  | malloc (nbytes : Nat)
  | free (ptr : Nat)

/-- One call, with the list `al` of allocated block headers kept alongside the
state: a successful `malloc` adds the header before the returned pointer, `free`
removes the header before the released pointer. -/
def step (usz base fuel : Nat) (st : State) (al : List Nat) : Call → Option (State × List Nat)
  | Call.malloc n =>
    (malloc usz base fuel st n).map (fun r => (r.1, if r.2 = 0 then al else (r.2 - 1) :: al))
  | Call.free p => (free fuel st p).map (fun st1 => (st1, al.erase (p - 1)))

/-- A sequence of calls. -/
def run (usz base fuel : Nat) : State → List Nat → List Call → Option (State × List Nat)
  | st, al, [] => some (st, al)
  | st, al, c :: cs => (step usz base fuel st al c).bind (fun r => run usz base fuel r.1 r.2 cs)

/-- The sequence of calls respects the contracts: every `free` is applied to a
pointer currently allocated, and whenever `malloc` is called the next answer of the
growth collaborator is a failure or, the request being below `2 ^ 31` bytes, a fresh
span of that size inside the address space. -/
def Legal (usz base fuel : Nat) : State → List Nat → List Call → Prop
  | _, _, [] => True
  | st, al, c :: cs =>
    (match c with
      | Call.malloc n =>
        ∀ l, WF usz base (init_base base st) l al →
          SbrkOk usz base (init_base base st) l al (nunits usz n)
      | Call.free p => 0 < p ∧ p - 1 ∈ al) ∧
    ∀ r, step usz base fuel st al c = some r → Legal usz base fuel r.1 r.2 cs

/-- Node `x` is on the free list: it is reached from the cursor by following
`next` links. -/
def Reach (st : State) (x : Nat) : Prop := ∃ k, st.next^[k] st.freelist = x

/-- No free node ends exactly where another free node starts. -/
def NoAdjacent (st : State) : Prop :=
  ∀ x y, Reach st x → Reach st y → x ≠ y → x + st.size x ≠ y

/-- Release the pointers `ps` one after the other. -/
def free_all (fuel : Nat) : State → List Nat → Option State
  | st, [] => some st
  | st, p :: ps => (free fuel st p).bind (fun st1 => free_all fuel st1 ps)

/-- Sum of the header sizes of the free nodes `l` and the allocated blocks `al`. -/
def total (st : State) (l al : List Nat) : Nat :=
  (l.map st.size).sum + (al.map st.size).sum

/-- Unit `u` lies in the span of one of the free nodes `l`. -/
def Covered (st : State) (l : List Nat) (u : Nat) : Prop :=
  ∃ x ∈ l, x ≤ u ∧ u < x + st.size x

/-- A sample state: the allocator after three 16-byte requests were served from one
granted span of 4096 units at address 100, with the sentinel at address 10 and
8-byte units. Free list: `10 -> 100 -> 10`; allocated blocks at 4187, 4190, 4193. -/
def sample_state : State :=
  { freelist := 10
    next := fun p => if p = 10 then 100 else 10
    size := fun p => if p = 100 then 4087 else if p = 4187 ∨ p = 4190 ∨ p = 4193 then 3 else 0
    script := []
    requests := [32768] }

/-- A second sample state with two free nodes that both fit small requests: free
list `10 -> 100 -> 200 -> 10` with 50 units at 100 and at 200, cursor at 100, no
allocated block, 8-byte units. -/
def next_fit_state : State :=
  { freelist := 100
    next := fun p => if p = 10 then 100 else if p = 100 then 200 else 10
    size := fun p => if p = 100 ∨ p = 200 then 50 else 0
    script := []
    requests := [] }

/-- A third sample state, in which one granted span is wholly free again: free list
`10 -> 100 -> 10` with 4096 units at 100, cursor at the sentinel, and `sbrk` about
to answer with the span at 4196, right where node 100 ends. -/
def abutting_state : State :=
  { freelist := 10
    next := fun p => if p = 10 then 100 else 10
    size := fun p => if p = 100 then 4096 else 0
    script := [some 4196]
    requests := [32768] }

/-! ## Reading back the assignments -/

@[simp] theorem setNext_next (st : State) (p v q : Nat) :
    (st.setNext p v).next q = if q = p then v else st.next q := rfl
@[simp] theorem setNext_size (st : State) (p v : Nat) : (st.setNext p v).size = st.size := rfl
@[simp] theorem setNext_freelist (st : State) (p v : Nat) :
    (st.setNext p v).freelist = st.freelist := rfl
@[simp] theorem setNext_script (st : State) (p v : Nat) : (st.setNext p v).script = st.script := rfl
@[simp] theorem setNext_requests (st : State) (p v : Nat) :
    (st.setNext p v).requests = st.requests := rfl
@[simp] theorem setSize_size (st : State) (p v q : Nat) :
    (st.setSize p v).size q = if q = p then v else st.size q := rfl
@[simp] theorem setSize_next (st : State) (p v : Nat) : (st.setSize p v).next = st.next := rfl
@[simp] theorem setSize_freelist (st : State) (p v : Nat) :
    (st.setSize p v).freelist = st.freelist := rfl
@[simp] theorem setSize_script (st : State) (p v : Nat) : (st.setSize p v).script = st.script := rfl
@[simp] theorem setSize_requests (st : State) (p v : Nat) :
    (st.setSize p v).requests = st.requests := rfl
@[simp] theorem setCursor_freelist (st : State) (p : Nat) : (st.setCursor p).freelist = p := rfl
@[simp] theorem setCursor_next (st : State) (p : Nat) : (st.setCursor p).next = st.next := rfl
@[simp] theorem setCursor_size (st : State) (p : Nat) : (st.setCursor p).size = st.size := rfl
@[simp] theorem setCursor_script (st : State) (p : Nat) : (st.setCursor p).script = st.script := rfl
@[simp] theorem setCursor_requests (st : State) (p : Nat) :
    (st.setCursor p).requests = st.requests := rfl

/-! ## Unit arithmetic -/

theorem uint_mod_eq : UINT_MOD = 4294967296 := by decide

theorem ceil_div_eq (n u : Nat) (hu : 0 < u) : ⌈(n : ℚ) / (u : ℚ)⌉₊ = (n + u - 1) / u := by
  have hu' : (0 : ℚ) < u := by exact_mod_cast hu
  have hdm := Nat.div_add_mod (n + u - 1) u
  have hlt := Nat.mod_lt (n + u - 1) hu
  generalize hq : (n + u - 1) / u = q at hdm ⊢
  generalize (n + u - 1) % u = r at hdm hlt
  rcases Nat.eq_zero_or_pos n with h0 | hn
  · subst h0
    have : q = 0 := by
      rcases Nat.eq_zero_or_pos q with h | h
      · exact h
      · have : u ≤ u * q := Nat.le_mul_of_pos_right u h
        omega
    simp [this]
  · have hq1 : 1 ≤ q := by
      rcases Nat.eq_zero_or_pos q with h | h
      · subst h; simp at hdm; omega
      · exact h
    rw [Nat.ceil_eq_iff (by omega)]
    have hu1 : u * q = u * (q - 1) + u := by
      obtain ⟨k, rfl⟩ : ∃ k, q = k + 1 := ⟨q - 1, by omega⟩
      simp [Nat.mul_add]
    have e1 : u * (q - 1) < n := by omega
    have e2 : n ≤ u * q := by omega
    constructor
    · rw [lt_div_iff₀ hu']
      have : ((u * (q - 1) : ℕ) : ℚ) < (n : ℚ) := by exact_mod_cast e1
      push_cast at this ⊢
      linarith
    · rw [div_le_iff₀ hu']
      have : ((n : ℕ) : ℚ) ≤ ((u * q : ℕ) : ℚ) := by exact_mod_cast e2
      push_cast at this
      linarith

theorem nunits_of_small (usz nbytes : Nat) (h2 : 2 ≤ usz) (h : nbytes + usz ≤ UINT_MOD) :
    nunits usz nbytes = (nbytes + usz - 1) / usz + 1 := by
  unfold nunits
  rw [uint_mod_eq] at *
  have h1 : (nbytes + usz - 1) % 4294967296 = nbytes + usz - 1 := Nat.mod_eq_of_lt (by omega)
  rw [h1]
  apply Nat.mod_eq_of_lt
  have : (nbytes + usz - 1) / usz ≤ (nbytes + usz - 1) / 2 := Nat.div_le_div_left h2 (by omega)
  omega

theorem bytes_le {usz a b : Nat} (hab : a ≤ b) (hb : b * usz < UINT_MOD) :
    a * usz < UINT_MOD :=
  lt_of_le_of_lt (Nat.mul_le_mul_right usz hab) hb

theorem units_of_bytes {usz a : Nat} (hu : 0 < usz) (h : a * usz < UINT_MOD) :
    a < UINT_MOD :=
  lt_of_le_of_lt (Nat.le_mul_of_pos_right a hu) h

/-- A pointer sum that stays inside the address space is the sum of the units. -/
theorem ptr_add_eq {usz p k : Nat} (hu : 0 < usz) (h : (p + k) * usz < UINT_MOD) :
    ptr_add usz p k = p + k := by
  unfold ptr_add
  rw [Nat.mod_eq_of_lt h, Nat.mul_div_cancel _ hu]

theorem ptr_succ_eq {usz p : Nat} (h : (p + 1) * usz < UINT_MOD) : ptr_succ usz p = p + 1 :=
  if_pos h

theorem ptr_succ_of_ne_zero {usz p : Nat} (h : ptr_succ usz p ≠ 0) : ptr_succ usz p = p + 1 := by
  unfold ptr_succ at h ⊢
  split_ifs at h ⊢ with h1
  · rfl
  · exact absurd rfl h

/-- The result of a pointer sum is a pointer: its byte address is below `2 ^ 32`. -/
theorem ptr_add_bytes (usz p k : Nat) : ptr_add usz p k * usz < UINT_MOD := by
  unfold ptr_add
  exact lt_of_le_of_lt (Nat.div_mul_le_self _ _) (Nat.mod_lt _ (by decide))

/-- For a pointer `p`, the two readings of `p + 1` agree. -/
theorem ptr_succ_eq_ptr_add {usz p : Nat} (hu : 0 < usz) (h : p * usz < UINT_MOD) :
    ptr_succ usz p = ptr_add usz p 1 := by
  by_cases h1 : (p + 1) * usz < UINT_MOD
  · rw [ptr_succ_eq h1, ptr_add_eq hu h1]
  · unfold ptr_succ ptr_add
    rw [if_neg h1]
    rw [uint_mod_eq] at h h1 ⊢
    have e : (p + 1) * usz = p * usz + usz := by rw [Nat.add_mul, Nat.one_mul]
    have h2 : (p + 1) * usz % 4294967296 = ((p + 1) * usz - 4294967296) % 4294967296 :=
      Nat.mod_eq_sub_mod (by omega)
    have h3 : ((p + 1) * usz - 4294967296) % 4294967296 ≤ (p + 1) * usz - 4294967296 :=
      Nat.mod_le _ _
    exact (Nat.div_eq_of_lt (by omega)).symm

/-! ## Linked lists of nodes -/

theorem Linked_append (nx : Nat → Nat) (l1 l2 : List Nat) (e : Nat) :
    Linked nx (l1 ++ l2) e ↔ Linked nx l1 (l2.headD e) ∧ Linked nx l2 e := by
  induction l1 with
  | nil => simp [Linked]
  | cons x r ih =>
    cases r with
    | nil => cases l2 <;> simp [Linked]
    | cons y r' =>
      simp only [List.cons_append, Linked, List.headD_cons] at ih ⊢
      rw [ih]
      tauto

theorem Linked_congr (nx nx' : Nat → Nat) (l : List Nat) (e : Nat)
    (h : ∀ x ∈ l, nx' x = nx x) : Linked nx' l e ↔ Linked nx l e := by
  induction l with
  | nil => simp [Linked]
  | cons x r ih =>
    simp only [Linked]
    rw [h x (List.mem_cons_self _ _), ih (fun y hy => h y (List.mem_cons_of_mem _ hy))]

theorem Linked_next (nx : Nat → Nat) (R : Nat → Nat → Prop) (l : List Nat) (e x : Nat)
    (hl : Linked nx l e) (hs : l.Pairwise R) (hx : x ∈ l) :
    nx x = e ∨ (nx x ∈ l ∧ R x (nx x)) := by
  induction l with
  | nil => simp at hx
  | cons y r ih =>
    rw [List.pairwise_cons] at hs
    rcases List.mem_cons.1 hx with rfl | hx'
    · cases r with
      | nil => left; simpa [Linked] using hl
      | cons z r' =>
        right
        have : nx x = z := by simpa [Linked] using hl.1
        rw [this]
        exact ⟨by simp, hs.1 z (by simp)⟩
    · rcases ih hl.2 hs.2 hx' with h | h
      · exact Or.inl h
      · exact Or.inr ⟨List.mem_cons_of_mem _ h.1, h.2⟩

theorem Linked_rotate (nx : Nat → Nat) (A B : List Nat) (c h : Nat)
    (hl : Linked nx (A ++ c :: B) h) (hh : (A ++ c :: B).head? = some h) :
    Linked nx (c :: B ++ A) c := by
  rw [Linked_append] at hl
  rw [Linked_append]
  cases A with
  | nil =>
    simp at hh
    subst hh
    exact ⟨by simpa using hl.2, trivial⟩
  | cons a A' =>
    simp at hh
    subst hh
    simp only [List.headD_cons] at hl ⊢
    exact ⟨hl.2, hl.1⟩

/-! ## The search loop of `free` -/

theorem free_search_stop (st : State) (mem fuel node : Nat) (h : FreeStop st mem node) :
    free_search st mem (fuel + 1) node = some node := by
  unfold free_search
  rcases h with h | h
  · rw [if_pos h]
  · by_cases h1 : mem > node ∧ mem < st.next node
    · rw [if_pos h1]
    · rw [if_neg h1, if_pos h]

theorem free_search_step (st : State) (mem fuel node : Nat) (h : ¬ FreeStop st mem node) :
    free_search st mem (fuel + 1) node = free_search st mem fuel (st.next node) := by
  have h1 : ¬ (mem > node ∧ mem < st.next node) := fun h' => h (Or.inl h')
  have h2 : ¬ (node ≥ st.next node ∧ (mem > node ∨ mem < st.next node)) := fun h' => h (Or.inr h')
  rw [free_search, if_neg h1, if_neg h2]

theorem free_search_walk (st : State) (mem p : Nat) (hp : FreeStop st mem p) :
    ∀ (w : List Nat) (fuel : Nat), Linked st.next w p → (∀ x ∈ w, ¬ FreeStop st mem x) →
      w.length < fuel → free_search st mem fuel (w.headD p) = some p := by
  intro w
  induction w with
  | nil =>
    intro fuel _ _ hf
    obtain ⟨k, rfl⟩ : ∃ k, fuel = k + 1 := ⟨fuel - 1, by simp at hf; omega⟩
    exact free_search_stop st mem k p hp
  | cons x r ih =>
    intro fuel hl hn hf
    obtain ⟨k, rfl⟩ : ∃ k, fuel = k + 1 := ⟨fuel - 1, by simp at hf; omega⟩
    simp only [List.headD_cons]
    rw [free_search_step st mem k x (hn x (List.mem_cons_self _ _)), hl.1]
    exact ih k hl.2 (fun y hy => hn y (List.mem_cons_of_mem _ hy)) (by simp at hf; omega)

/-- A sorted list whose head lies below `a` splits around `a`. -/
theorem split_around (a : Nat) : ∀ (l : List Nat) (h : Nat), l.head? = some h → h < a →
    l.Pairwise (· < ·) → a ∉ l →
    ∃ l1 pred l2, l = l1 ++ pred :: l2 ∧ (∀ x ∈ l1, x < pred) ∧ pred < a ∧ ∀ y ∈ l2, a < y := by
  intro l
  induction l with
  | nil => intro h hh; simp at hh
  | cons x r ih =>
    intro h hh hlt hs ha
    simp at hh
    subst hh
    rw [List.pairwise_cons] at hs
    cases r with
    | nil => exact ⟨[], x, [], by simp, by simp, hlt, by simp⟩
    | cons y r' =>
      by_cases hy : y < a
      · obtain ⟨l1, pred, l2, e, h1, h2, h3⟩ :=
          ih y (by simp) hy hs.2 (fun hm => ha (List.mem_cons_of_mem _ hm))
        refine ⟨x :: l1, pred, l2, by rw [e]; simp, ?_, h2, h3⟩
        intro z hz
        rcases List.mem_cons.1 hz with rfl | hz
        · exact hs.1 pred (by rw [e]; simp)
        · exact h1 z hz
      · have hya : a < y := by
          have : y ≠ a := fun e => ha (by simp [e])
          omega
        refine ⟨[], x, y :: r', by simp, by simp, hlt, ?_⟩
        intro z hz
        rcases List.mem_cons.1 hz with rfl | hz
        · exact hya
        · have := (List.pairwise_cons.1 hs.2).1 z hz
          omega

theorem head_le_of_sorted (l : List Nat) (b : Nat) (hh : l.head? = some b)
    (hs : l.Pairwise (· < ·)) : ∀ x ∈ l, b ≤ x := by
  cases l with
  | nil => simp at hh
  | cons y r =>
    simp at hh
    subst hh
    intro x hx
    rcases List.mem_cons.1 hx with rfl | hx
    · exact le_refl _
    · exact le_of_lt ((List.pairwise_cons.1 hs).1 x hx)

/-- On a sorted ring the search loop of `free` stops at the node just below `a`. -/
theorem free_search_ring (st : State) (base a : Nat) (l : List Nat)
    (hh : l.head? = some base) (hs : l.Pairwise (· < ·)) (hl : Linked st.next l base)
    (hc : st.freelist ∈ l) (hba : base < a) (ha : a ∉ l) (fuel : Nat) (hf : l.length ≤ fuel) :
    ∃ l1 pred l2, l = l1 ++ pred :: l2 ∧ (∀ x ∈ l1, x < pred) ∧ pred < a ∧ (∀ y ∈ l2, a < y) ∧
      free_search st a fuel st.freelist = some pred := by
  obtain ⟨l1, pred, l2, e, h1, h2, h3⟩ := split_around a l base hh hba hs ha
  refine ⟨l1, pred, l2, e, h1, h2, h3, ?_⟩
  have hle := head_le_of_sorted l base hh hs
  subst e
  have hl' := hl
  rw [Linked_append] at hl'
  simp only [List.headD_cons] at hl'
  obtain ⟨hl1, hl2⟩ := hl'
  have hs' := hs
  rw [List.pairwise_append] at hs'
  obtain ⟨hs1, hs2, hs3⟩ := hs'
  rw [List.pairwise_cons] at hs2
  -- the node below `a` satisfies the exit condition
  have hstop : FreeStop st a pred := by
    have hn : st.next pred = l2.headD base := hl2.1
    cases l2 with
    | nil =>
      right
      simp at hn
      exact ⟨by rw [hn]; exact hle pred (by simp), Or.inl h2⟩
    | cons y r =>
      left
      simp at hn
      exact ⟨h2, by rw [hn]; exact h3 y (by simp)⟩
  -- no other node does
  have hno : ∀ x ∈ l1 ++ pred :: l2, x ≠ pred → ¬ FreeStop st a x := by
    intro x hx hne
    rcases List.mem_append.1 hx with hx1 | hx2
    · have hxp := h1 x hx1
      rcases Linked_next st.next (· < ·) l1 pred x hl1 hs1 hx1 with hn | ⟨hn1, hn2⟩
      · rintro (⟨_, hb⟩ | ⟨hb, _⟩) <;> rw [hn] at hb <;> omega
      · have := h1 _ hn1
        rintro (⟨_, hb⟩ | ⟨hb, _⟩) <;> omega
    · rcases List.mem_cons.1 hx2 with rfl | hx2
      · exact absurd rfl hne
      · have hax := h3 x hx2
        rcases Linked_next st.next (· < ·) l2 base x hl2.2 hs2.2 hx2 with hn | ⟨hn1, hn2⟩
        · rintro (⟨hb, _⟩ | ⟨_, hb⟩)
          · omega
          · rw [hn] at hb; omega
        · rintro (⟨hb, _⟩ | ⟨hb, _⟩) <;> omega
  -- walk from the cursor
  obtain ⟨A, B, eAB⟩ := List.append_of_mem hc
  have hrot : Linked st.next (st.freelist :: B ++ A) st.freelist :=
    Linked_rotate st.next A B st.freelist base (eAB ▸ hl) (eAB ▸ hh)
  have hperm : (st.freelist :: B ++ A).Perm (l1 ++ pred :: l2) := by
    rw [eAB]
    exact List.perm_append_comm
  have hnd : (st.freelist :: B ++ A).Nodup :=
    hperm.nodup_iff.2 (hs.imp (fun h => Nat.ne_of_lt h))
  have hpm : pred ∈ st.freelist :: B ++ A := hperm.mem_iff.2 (by simp)
  obtain ⟨w, rest, ew⟩ := List.append_of_mem hpm
  rw [ew] at hrot hnd
  have hw : Linked st.next w pred := by
    have := (Linked_append st.next w (pred :: rest) st.freelist).1 hrot
    simpa using this.1
  have hwn : ∀ x ∈ w, ¬ FreeStop st a x := by
    intro x hx
    apply hno x
    · apply hperm.mem_iff.1
      rw [ew]
      exact List.mem_append_left _ hx
    · rintro rfl
      have := (List.nodup_append.1 hnd).2.2
      exact this hx (by simp)
  have hlen : w.length < fuel := by
    have h1 := hperm.length_eq
    rw [ew] at h1
    simp at h1 hf
    omega
  have hhead : w.headD pred = st.freelist := by
    cases w with
    | nil => simp at ew ⊢; exact ew.1.symm
    | cons z w' => simp at ew ⊢; exact ew.1.symm
  have := free_search_walk st a pred hstop w fuel hw hwn hlen
  rwa [hhead] at this

/-! ## Releasing a block in a well-formed state -/

theorem WF.nodup_al {usz base : Nat} {st : State} {l al : List Nat} (h : WF usz base st l al) :
    al.Nodup := by
  have := h.adisj
  rw [List.pairwise_iff_forall_sublist] at this
  rw [List.Nodup, List.pairwise_iff_forall_sublist]
  intro x y hxy e
  subst e
  have h1 := this hxy
  have h2 := h.asize x (hxy.subset (by simp))
  omega

theorem WF.disj_of_mem {usz base : Nat} {st : State} {l al : List Nat} (h : WF usz base st l al)
    {a b : Nat} (ha : a ∈ al) (hb : b ∈ al) (hne : a ≠ b) :
    a + st.size a ≤ b ∨ b + st.size b ≤ a := by
  have hsym : Symmetric (fun a b => a + st.size a ≤ b ∨ b + st.size b ≤ a) := by
    intro x y hxy
    exact hxy.symm
  exact h.adisj.forall hsym ha hb hne

theorem WF.not_mem {usz base : Nat} {st : State} {l al : List Nat} (h : WF usz base st l al)
    {a : Nat} (ha : a ∈ al) : a ∉ l := by
  intro hl
  have h1 := h.fdisj a hl a ha
  have h2 := h.asize a ha
  omega

theorem WF.fbound {usz base : Nat} {st : State} {l al : List Nat} (h : WF usz base st l al) :
    ∀ x ∈ l, x + st.size x < UINT_MOD :=
  fun x hx => units_of_bytes h.unit_pos (h.fbytes x hx)

theorem WF.abound {usz base : Nat} {st : State} {l al : List Nat} (h : WF usz base st l al) :
    ∀ a ∈ al, a + st.size a < UINT_MOD :=
  fun a ha => units_of_bytes h.unit_pos (h.abytes a ha)

theorem Pending.pa_bound {usz base : Nat} {st : State} {l1 l2 al : List Nat} {pred a : Nat}
    (h : Pending usz base st l1 pred l2 al a) : a + st.size a < UINT_MOD :=
  units_of_bytes h.unit_pos h.pa_bytes

theorem pending_of_wf {usz base : Nat} {st st1 : State} {l1 l2 l2' al : List Nat} {pred a : Nat}
    (h : WF usz base st (l1 ++ pred :: l2) al) (ha : a ∈ al) (hpa : pred < a)
    (hsub : l2'.Sublist l2) (hlk : Linked st.next l2' base)
    (hsz : ∀ x, x ≠ a → st1.size x = st.size x) (hnx : ∀ x, x ≠ a → st1.next x = st.next x)
    (p_size : 1 ≤ st1.size a) (p_bytes : (a + st1.size a) * usz < UINT_MOD)
    (p_hi : ∀ y ∈ l2', a + st1.size a < y) (p_next : st1.next a = l2'.headD base)
    (p_disj : ∀ b ∈ al.erase a, a + st1.size a ≤ b ∨ b + st1.size b ≤ a) :
    Pending usz base st1 l1 pred l2' (al.erase a) a := by
  have hna := h.not_mem ha
  have hsubl : (l1 ++ pred :: l2').Sublist (l1 ++ pred :: l2) :=
    List.Sublist.append_left (hsub.cons₂ pred) l1
  have hmem : ∀ x ∈ l1 ++ pred :: l2', x ∈ l1 ++ pred :: l2 := fun x hx => hsubl.subset hx
  have hne : ∀ x ∈ l1 ++ pred :: l2', x ≠ a := fun x hx e => hna (e ▸ hmem x hx)
  have hmemal : ∀ b ∈ al.erase a, b ∈ al ∧ b ≠ a := by
    intro b hb
    have := (h.nodup_al.mem_erase_iff).1 hb
    exact ⟨this.2, this.1⟩
  have hlk' := h.link
  rw [Linked_append] at hlk'
  refine
    { unit_pos := h.unit_pos
      base_pos := h.base_pos
      head := ?_
      base_size := ?_
      gap := ?_
      link1 := ?_
      link2 := ?_
      fsize := ?_
      fbytes := ?_
      asize := ?_
      abytes := ?_
      alow := ?_
      adisj := ?_
      fdisj := ?_
      pa_lt := hpa
      pa_lo := ?_
      pa_size := p_size
      pa_bytes := p_bytes
      pa_hi := p_hi
      pa_next := p_next
      pa_disj := p_disj }
  · have := h.head
    cases l1 <;> simpa using this
  · rw [hsz base (by have := h.alow a ha; omega)]
    exact h.base_size
  · refine (h.gap.sublist hsubl).imp_of_mem ?_
    intro x y hx _ hxy
    rw [hsz x (hne x hx)]
    exact hxy
  · rw [Linked_congr st.next st1.next l1 pred
      (fun x hx => hnx x (hne x (List.mem_append_left _ hx)))]
    simpa using hlk'.1
  · rw [Linked_congr st.next st1.next l2' base
      (fun x hx => hnx x (hne x (List.mem_append_right _ (List.mem_cons_of_mem _ hx))))]
    exact hlk
  · intro x hx hb
    rw [hsz x (hne x hx)]
    exact h.fsize x (hmem x hx) hb
  · intro x hx
    rw [hsz x (hne x hx)]
    exact h.fbytes x (hmem x hx)
  · intro b hb
    rw [hsz b (hmemal b hb).2]
    exact h.asize b (hmemal b hb).1
  · intro b hb
    rw [hsz b (hmemal b hb).2]
    exact h.abytes b (hmemal b hb).1
  · intro b hb
    exact h.alow b (hmemal b hb).1
  · refine (h.adisj.sublist (List.erase_sublist a al)).imp_of_mem ?_
    intro x y hx hy hxy
    rw [hsz x (hmemal x hx).2, hsz y (hmemal y hy).2]
    exact hxy
  · intro x hx b hb
    rw [hsz x (hne x hx), hsz b (hmemal b hb).2]
    exact h.fdisj x (hmem x hx) b (hmemal b hb).1
  · rw [hsz pred (by omega)]
    have := h.fdisj pred (by simp) a ha
    have := h.asize a ha
    omega

theorem WF.next_pred {usz base : Nat} {st : State} {l1 l2 al : List Nat} {pred : Nat}
    (h : WF usz base st (l1 ++ pred :: l2) al) : st.next pred = l2.headD base := by
  have := h.link
  rw [Linked_append] at this
  exact this.2.1

/-- First half of the release (lines 41-47) in a well-formed state. -/
theorem link_next_pending {usz base : Nat} {st : State} {l1 l2 al : List Nat} {pred a : Nat}
    (h : WF usz base st (l1 ++ pred :: l2) al) (ha : a ∈ al) (hpa : pred < a)
    (h3 : ∀ y ∈ l2, a < y) :
    ∃ l2', Pending usz base (link_next st a pred) l1 pred l2' (al.erase a) a ∧
      (∀ x, x ≠ a → (link_next st a pred).size x = st.size x) ∧
      (∀ x, x ≠ a → (link_next st a pred).next x = st.next x) ∧
      ((l2' = l2 ∧ (link_next st a pred).size a = st.size a ∧ a + st.size a ≠ st.next pred) ∨
        (l2 = st.next pred :: l2' ∧ a + st.size a = st.next pred ∧
          (link_next st a pred).size a = st.size a + st.size (st.next pred))) := by
  have hn := h.next_pred
  have hsa := h.asize a ha
  have hba := h.alow a ha
  have hlk := h.link
  rw [Linked_append] at hlk
  have hlk2 : Linked st.next l2 base := hlk.2.2
  have hmemal : ∀ b ∈ al.erase a, b ∈ al ∧ b ≠ a := by
    intro b hb
    have := (h.nodup_al.mem_erase_iff).1 hb
    exact ⟨this.2, this.1⟩
  have hfd : ∀ y ∈ l2, a + st.size a ≤ y := by
    intro y hy
    have := h.fdisj y (by simp [hy]) a ha
    have := h3 y hy
    omega
  by_cases hm : a + st.size a = st.next pred
  · -- `a` absorbs its successor
    cases l2 with
    | nil => simp at hn; omega
    | cons y r =>
      simp only [List.headD_cons] at hn
      rw [hn] at hm
      have hya : y ≠ a := by omega
      have hyb := h.fbound y (by simp)
      have hmod : (st.size a + st.size y) % UINT_MOD = st.size a + st.size y :=
        Nat.mod_eq_of_lt (by omega)
      have e : link_next st a pred =
          (st.setSize a (st.size a + st.size y)).setNext a (st.next y) := by
        simp [link_next, hn, hm, hmod]
      have hgap := h.gap
      rw [List.pairwise_append, List.pairwise_cons, List.pairwise_cons] at hgap
      refine ⟨r, ?_, ?_, ?_, Or.inr ⟨by rw [hn], by rw [hn]; exact hm, ?_⟩⟩
      · rw [e]
        refine pending_of_wf h ha hpa (List.sublist_cons_self y r) hlk2.2 ?_ ?_ ?_ ?_ ?_ ?_ ?_
        · intro x hx; simp [hx]
        · intro x hx; simp [hx]
        · simp; omega
        · have e1 : a + (st.size a + st.size y) = y + st.size y := by omega
          simp only [setNext_size, setSize_size, if_true]
          rw [e1]
          exact h.fbytes y (by simp)
        · intro z hz
          have := hgap.2.1.2.1 z hz
          simp; omega
        · simpa using hlk2.1
        · intro b hb
          obtain ⟨hb1, hb2⟩ := hmemal b hb
          have h1 := h.disj_of_mem ha hb1 (Ne.symm hb2)
          have h2 := h.fdisj y (by simp) b hb1
          have h4 := h.asize b hb1
          simp [hb2]
          omega
      · intro x hx; rw [e]; simp [hx]
      · intro x hx; rw [e]; simp [hx]
      · rw [e, hn]; simp
  · -- `a` is linked to its successor
    have e : link_next st a pred = st.setNext a (st.next pred) := by
      simp [link_next, hm]
    refine ⟨l2, ?_, ?_, ?_, Or.inl ⟨rfl, by rw [e]; simp, hm⟩⟩
    · rw [e]
      refine pending_of_wf h ha hpa (List.Sublist.refl l2) hlk2 ?_ ?_ ?_ ?_ ?_ ?_ ?_
      · intro x _; simp
      · intro x hx; simp [hx]
      · simpa using hsa
      · simpa using h.abytes a ha
      · intro z hz
        have hgap := h.gap
        rw [List.pairwise_append, List.pairwise_cons] at hgap
        have h1 := hfd z hz
        simp only [setNext_size]
        cases l2 with
        | nil => simp at hz
        | cons y r =>
          simp only [List.headD_cons] at hn
          rcases List.mem_cons.1 hz with rfl | hz'
          · rw [hn] at hm; omega
          · have := (List.pairwise_cons.1 hgap.2.1.2).1 z hz'
            have := hfd y (by simp)
            omega
      · simp [hn]
      · intro b hb
        obtain ⟨hb1, hb2⟩ := hmemal b hb
        simpa using h.disj_of_mem ha hb1 (Ne.symm hb2)
    · intro x _; rw [e]; simp
    · intro x hx; rw [e]; simp [hx]

/-- Second half of the release (lines 49-58). -/
theorem link_prev_wf {usz base : Nat} {st : State} {l1 l2 al : List Nat} {pred a : Nat}
    (h : Pending usz base st l1 pred l2 al a) :
    ∃ l', WF usz base ((link_prev st a pred).setCursor pred) l' al ∧
      (∀ x, x ≠ pred → (link_prev st a pred).size x = st.size x) ∧
      ((l' = l1 ++ pred :: a :: l2 ∧ pred + st.size pred ≠ a ∧
          (link_prev st a pred).size pred = st.size pred) ∨
        (l' = l1 ++ pred :: l2 ∧ pred + st.size pred = a ∧
          (link_prev st a pred).size pred = st.size pred + st.size a)) := by
  have hgap := h.gap
  rw [List.pairwise_append, List.pairwise_cons] at hgap
  obtain ⟨hg1, ⟨hg2, hg3⟩, hg4⟩ := hgap
  have hp1 : pred ∉ l1 := fun hx => by
    have := hg4 pred hx pred (by simp)
    omega
  have hp2 : pred ∉ l2 := fun hx => by
    have := hg2 pred hx
    omega
  have ha1 : a ∉ l1 := fun hx => by
    have := hg4 a hx pred (by simp)
    have := h.pa_lt
    omega
  have ha2 : a ∉ l2 := fun hx => by
    have := h.pa_hi a hx
    omega
  have hpa := h.pa_lt
  have hpl := h.pa_lo
  have hbp : ∀ b ∈ al, b ≠ pred := by
    intro b hb e
    subst e
    have h1 := h.alow b hb
    have h2 := h.fsize b (by simp) (by omega)
    have h3 := h.fdisj b (by simp) b hb
    omega
  by_cases hm : pred + st.size pred = a
  · -- `pred` absorbs `a`
    have hpb : pred ≠ base := by
      intro e
      rw [e, h.base_size] at hm
      rw [e] at hpa
      omega
    have hmod : (st.size pred + st.size a) % UINT_MOD = st.size pred + st.size a :=
      Nat.mod_eq_of_lt (by have := h.pa_bound; omega)
    have e : link_prev st a pred =
        (st.setSize pred (st.size pred + st.size a)).setNext pred (st.next a) := by
      simp [link_prev, hm, hmod]
    have hsz : ∀ x, x ≠ pred → (link_prev st a pred).size x = st.size x := by
      intro x hx; rw [e]; simp [hx]
    refine ⟨l1 ++ pred :: l2, ?_, hsz, Or.inr ⟨rfl, hm, by rw [e]; simp⟩⟩
    rw [e]
    refine
      { unit_pos := h.unit_pos
        base_pos := h.base_pos
        head := h.head
        base_size := by simp [Ne.symm hpb, h.base_size]
        gap := ?_
        link := ?_
        cursor := by simp
        fsize := ?_
        fbytes := ?_
        asize := ?_
        abytes := ?_
        alow := h.alow
        adisj := ?_
        fdisj := ?_ }
    · rw [List.pairwise_append, List.pairwise_cons]
      refine ⟨hg1.imp_of_mem ?_, ⟨?_, hg3.imp_of_mem ?_⟩, ?_⟩
      · intro x y hx _ hxy
        have : x ≠ pred := fun e => hp1 (e ▸ hx)
        simpa [this] using hxy
      · intro y hy
        have := h.pa_hi y hy
        simp; omega
      · intro x y hx _ hxy
        have : x ≠ pred := fun e => hp2 (e ▸ hx)
        simpa [this] using hxy
      · intro x hx y hy
        have : x ≠ pred := fun e => hp1 (e ▸ hx)
        simpa [this] using hg4 x hx y hy
    · rw [Linked_append]
      refine ⟨?_, ?_, ?_⟩
      · rw [Linked_congr st.next _ l1 _ (fun x hx => by
          have : x ≠ pred := fun e => hp1 (e ▸ hx)
          simp [this])]
        simpa using h.link1
      · simpa using h.pa_next
      · rw [Linked_congr st.next _ l2 _ (fun x hx => by
          have : x ≠ pred := fun e => hp2 (e ▸ hx)
          simp [this])]
        exact h.link2
    · intro x hx hxb
      have := h.fsize x hx hxb
      by_cases hxp : x = pred
      · simp [hxp]; have := h.pa_size; omega
      · simpa [hxp] using this
    · intro x hx
      have := h.fbytes x hx
      by_cases hxp : x = pred
      · have e1 : pred + (st.size pred + st.size a) = a + st.size a := by omega
        subst hxp
        simp only [setCursor_size, setNext_size, setSize_size, if_true]
        rw [e1]
        exact h.pa_bytes
      · simpa [hxp] using this
    · intro b hb
      simpa [hbp b hb] using h.asize b hb
    · intro b hb
      simpa [hbp b hb] using h.abytes b hb
    · refine h.adisj.imp_of_mem ?_
      intro x y hx hy hxy
      simpa [hbp x hx, hbp y hy] using hxy
    · intro x hx b hb
      have h1 := h.fdisj x hx b hb
      by_cases hxp : x = pred
      · subst hxp
        have h2 := h.pa_disj b hb
        have h3 := h.asize b hb
        simp [hbp b hb]
        omega
      · simpa [hxp, hbp b hb] using h1
  · -- `pred` is linked to `a`
    have e : link_prev st a pred = st.setNext pred a := by
      simp [link_prev, hm]
    have hsz : ∀ x, (link_prev st a pred).size x = st.size x := by
      intro x; rw [e]; simp
    refine ⟨l1 ++ pred :: a :: l2, ?_, fun x _ => hsz x, Or.inl ⟨rfl, hm, hsz pred⟩⟩
    rw [e]
    refine
      { unit_pos := h.unit_pos
        base_pos := h.base_pos
        head := ?_
        base_size := by simpa using h.base_size
        gap := ?_
        link := ?_
        cursor := by simp
        fsize := ?_
        fbytes := ?_
        asize := by simpa using h.asize
        abytes := by simpa using h.abytes
        alow := h.alow
        adisj := by simpa using h.adisj
        fdisj := ?_ }
    · have := h.head
      cases l1 <;> simpa using this
    · simp only [setCursor_size, setNext_size]
      rw [List.pairwise_append, List.pairwise_cons, List.pairwise_cons]
      refine ⟨hg1, ⟨?_, h.pa_hi, hg3⟩, ?_⟩
      · intro y hy
        rcases List.mem_cons.1 hy with rfl | hy
        · omega
        · exact hg2 y hy
      · intro x hx y hy
        rcases List.mem_cons.1 hy with rfl | hy
        · exact hg4 x hx y (by simp)
        · rcases List.mem_cons.1 hy with rfl | hy
          · have := hg4 x hx pred (by simp)
            omega
          · exact hg4 x hx y (by simp [hy])
    · rw [Linked_append]
      refine ⟨?_, ?_, ?_, ?_⟩
      · rw [Linked_congr st.next _ l1 _ (fun x hx => by
          have : x ≠ pred := fun e => hp1 (e ▸ hx)
          simp [this])]
        simpa using h.link1
      · simp
      · have : a ≠ pred := by omega
        simpa [this] using h.pa_next
      · rw [Linked_congr st.next _ l2 _ (fun x hx => by
          have : x ≠ pred := fun e => hp2 (e ▸ hx)
          simp [this])]
        exact h.link2
    · intro x hx hxb
      simp only [setCursor_size, setNext_size]
      simp only [List.mem_append, List.mem_cons] at hx
      rcases hx with hx | rfl | rfl | hx
      · exact h.fsize x (by simp [hx]) hxb
      · exact h.fsize x (by simp) hxb
      · exact h.pa_size
      · exact h.fsize x (by simp [hx]) hxb
    · intro x hx
      simp only [setCursor_size, setNext_size]
      simp only [List.mem_append, List.mem_cons] at hx
      rcases hx with hx | rfl | rfl | hx
      · exact h.fbytes x (by simp [hx])
      · exact h.fbytes x (by simp)
      · exact h.pa_bytes
      · exact h.fbytes x (by simp [hx])
    · intro x hx b hb
      simp only [setCursor_size, setNext_size]
      simp only [List.mem_append, List.mem_cons] at hx
      rcases hx with hx | rfl | rfl | hx
      · exact h.fdisj x (by simp [hx]) b hb
      · exact h.fdisj x (by simp) b hb
      · exact h.pa_disj b hb
      · exact h.fdisj x (by simp [hx]) b hb

theorem WF.sorted {usz base : Nat} {st : State} {l al : List Nat} (h : WF usz base st l al) :
    l.Pairwise (· < ·) :=
  h.gap.imp (fun {x y} (hxy : x + st.size x < y) => by
    show x < y
    omega)

/-- The shape of a release in a well-formed state: where the block goes and what
each half of `free` does to it. -/
theorem free_shape {usz base : Nat} {st : State} {l al : List Nat} {a : Nat}
    (h : WF usz base st l al) (ha : a ∈ al) (fuel : Nat) (hf : l.length ≤ fuel) :
    ∃ l1 pred l2 l2' l',
      l = l1 ++ pred :: l2 ∧ (∀ x ∈ l1, x < pred) ∧ pred < a ∧ (∀ y ∈ l2, a < y) ∧
      free fuel st (a + 1) = some (free_link st a pred) ∧
      WF usz base (free_link st a pred) l' (al.erase a) ∧
      (∀ x, x ≠ a → x ≠ pred → (free_link st a pred).size x = st.size x) ∧
      (∀ x, x ≠ a → x ≠ pred → (free_link st a pred).next x = st.next x) ∧
      ((l2' = l2 ∧ a + st.size a ≠ st.next pred ∧ (link_next st a pred).size a = st.size a) ∨
        (l2 = st.next pred :: l2' ∧ a + st.size a = st.next pred ∧
          (link_next st a pred).size a = st.size a + st.size (st.next pred))) ∧
      ((l' = l1 ++ pred :: a :: l2' ∧ pred + st.size pred ≠ a ∧
          (free_link st a pred).size pred = st.size pred ∧
          (free_link st a pred).size a = (link_next st a pred).size a) ∨
        (l' = l1 ++ pred :: l2' ∧ pred + st.size pred = a ∧
          (free_link st a pred).size pred = st.size pred + (link_next st a pred).size a)) := by
  obtain ⟨l1, pred, l2, e, h1, h2, h3, hs⟩ :=
    free_search_ring st base a l h.head h.sorted h.link h.cursor (h.alow a ha) (h.not_mem ha)
      fuel hf
  subst e
  obtain ⟨l2', hp, hsz1, hnx1, hc1⟩ := link_next_pending h ha h2 h3
  obtain ⟨l', hw, hsz2, hc2⟩ := link_prev_wf hp
  have hap : a ≠ pred := by omega
  refine ⟨l1, pred, l2, l2', l', rfl, h1, h2, h3, ?_, hw, ?_, ?_, ?_, ?_⟩
  · simp [free, hs]
  · intro x hxa hxp
    show (link_prev (link_next st a pred) a pred).size x = _
    rw [hsz2 x hxp, hsz1 x hxa]
  · intro x hxa hxp
    show (link_prev (link_next st a pred) a pred).next x = _
    rw [← hnx1 x hxa]
    unfold link_prev
    split_ifs <;> simp [hxp]
  · rcases hc1 with ⟨e1, e2, e3⟩ | ⟨e1, e2, e3⟩
    · exact Or.inl ⟨e1, e3, e2⟩
    · exact Or.inr ⟨e1, e2, e3⟩
  · have hps : (link_next st a pred).size pred = st.size pred := hsz1 pred (Ne.symm hap)
    rcases hc2 with ⟨e1, e2, e3⟩ | ⟨e1, e2, e3⟩
    · refine Or.inl ⟨e1, by rw [← hps]; exact e2, ?_, ?_⟩
      · show (link_prev (link_next st a pred) a pred).size pred = _
        rw [e3, hps]
      · show (link_prev (link_next st a pred) a pred).size a = _
        rw [hsz2 a hap]
    · refine Or.inr ⟨e1, by rw [← hps]; exact e2, ?_⟩
      show (link_prev (link_next st a pred) a pred).size pred = _
      rw [e3, hps]

@[simp] theorem free_link_freelist (st : State) (a pred : Nat) :
    (free_link st a pred).freelist = pred := rfl

@[simp] theorem link_next_script (st : State) (a pred : Nat) :
    (link_next st a pred).script = st.script := by
  unfold link_next; split_ifs <;> rfl

@[simp] theorem link_next_requests (st : State) (a pred : Nat) :
    (link_next st a pred).requests = st.requests := by
  unfold link_next; split_ifs <;> rfl

@[simp] theorem link_prev_script (st : State) (a pred : Nat) :
    (link_prev st a pred).script = st.script := by
  unfold link_prev; split_ifs <;> rfl

@[simp] theorem link_prev_requests (st : State) (a pred : Nat) :
    (link_prev st a pred).requests = st.requests := by
  unfold link_prev; split_ifs <;> rfl

@[simp] theorem free_link_script (st : State) (a pred : Nat) :
    (free_link st a pred).script = st.script := by
  simp [free_link]

@[simp] theorem free_link_requests (st : State) (a pred : Nat) :
    (free_link st a pred).requests = st.requests := by
  simp [free_link]

theorem sum_map_congr (f g : Nat → Nat) (l : List Nat) (h : ∀ x ∈ l, f x = g x) :
    (l.map f).sum = (l.map g).sum := by
  rw [List.map_congr_left h]

theorem Covered_append (st : State) (l1 l2 : List Nat) (u : Nat) :
    Covered st (l1 ++ l2) u ↔ Covered st l1 u ∨ Covered st l2 u := by
  simp only [Covered, List.mem_append]
  constructor
  · rintro ⟨x, hx | hx, h⟩
    · exact Or.inl ⟨x, hx, h⟩
    · exact Or.inr ⟨x, hx, h⟩
  · rintro (⟨x, hx, h⟩ | ⟨x, hx, h⟩)
    · exact ⟨x, Or.inl hx, h⟩
    · exact ⟨x, Or.inr hx, h⟩

theorem Covered_cons (st : State) (x : Nat) (l : List Nat) (u : Nat) :
    Covered st (x :: l) u ↔ (x ≤ u ∧ u < x + st.size x) ∨ Covered st l u := by
  simp only [Covered, List.mem_cons]
  constructor
  · rintro ⟨y, rfl | hy, h⟩
    · exact Or.inl h
    · exact Or.inr ⟨y, hy, h⟩
  · rintro (h | ⟨y, hy, h⟩)
    · exact ⟨x, Or.inl rfl, h⟩
    · exact ⟨y, Or.inr hy, h⟩

theorem Covered_congr (st st' : State) (l : List Nat) (u : Nat)
    (h : ∀ x ∈ l, st'.size x = st.size x) : Covered st' l u ↔ Covered st l u := by
  simp only [Covered]
  constructor
  · rintro ⟨x, hx, hu⟩
    exact ⟨x, hx, by rw [← h x hx]; exact hu⟩
  · rintro ⟨x, hx, hu⟩
    exact ⟨x, hx, by rw [h x hx]; exact hu⟩

/-- A release in a well-formed state: it returns, keeps the state well-formed,
conserves the total of header sizes, and adds exactly the released span to the
units covered by free nodes. -/
theorem free_ok {usz base : Nat} {st : State} {l al : List Nat} {a : Nat}
    (h : WF usz base st l al) (ha : a ∈ al) (fuel : Nat) (hf : l.length ≤ fuel) :
    ∃ st' l', free fuel st (a + 1) = some st' ∧ WF usz base st' l' (al.erase a) ∧
      st'.script = st.script ∧ st'.requests = st.requests ∧
      total st' l' (al.erase a) = total st l al ∧
      (∀ u, Covered st' l' u ↔ (Covered st l u ∨ (a ≤ u ∧ u < a + st.size a))) ∧
      l'.length ≤ l.length + 1 ∧
      (∃ x ∈ l', st.size a ≤ st'.size x) ∧
      (∀ b ∈ al.erase a, st'.size b = st.size b) := by
  obtain ⟨l1, pred, l2, l2', l', e, h1, h2, h3, hfree, hw, hsz, _, hc1, hc2⟩ :=
    free_shape h ha fuel hf
  refine ⟨free_link st a pred, l', hfree, hw, by simp, by simp, ?_, ?_, ?_, ?_, ?_⟩
  all_goals subst e
  all_goals have hal : ∀ b ∈ al.erase a, (free_link st a pred).size b = st.size b := by
              intro b hb
              have hb' := (h.nodup_al.mem_erase_iff).1 hb
              refine hsz b hb'.1 ?_
              intro e
              exact h.not_mem hb'.2 (by simp [e])
  all_goals have hl1 : ∀ x ∈ l1, (free_link st a pred).size x = st.size x := by
              intro x hx
              have := h1 x hx
              exact hsz x (by omega) (by omega)
  all_goals have hl2 : ∀ x ∈ l2, x ≠ pred ∧ x ≠ a := by
              intro x hx
              have := h3 x hx
              constructor <;> omega
  · -- total
    have hsum := List.sum_map_erase st.size ha
    simp only [total]
    rw [sum_map_congr _ _ _ hal, ← hsum]
    rcases hc1 with ⟨e1, _, s1⟩ | ⟨e1, _, s1⟩ <;>
      rcases hc2 with ⟨e2, _, s2, s3⟩ | ⟨e2, _, s2⟩
    all_goals subst e2
    all_goals simp only [List.map_append, List.sum_append, List.map_cons, List.sum_cons]
    all_goals rw [sum_map_congr _ _ l1 hl1]
    · subst e1
      rw [sum_map_congr _ _ l2' (fun x hx => hsz x (hl2 x hx).2 (hl2 x hx).1)]
      omega
    · subst e1
      rw [sum_map_congr _ _ l2' (fun x hx => hsz x (hl2 x hx).2 (hl2 x hx).1)]
      omega
    · rw [e1] at hl2 ⊢
      simp only [List.map_cons, List.sum_cons]
      rw [sum_map_congr (free_link st a pred).size st.size l2'
        (fun x hx => hsz x (hl2 x (by simp [hx])).2 (hl2 x (by simp [hx])).1)]
      omega
    · rw [e1] at hl2 ⊢
      simp only [List.map_cons, List.sum_cons]
      rw [sum_map_congr (free_link st a pred).size st.size l2'
        (fun x hx => hsz x (hl2 x (by simp [hx])).2 (hl2 x (by simp [hx])).1)]
      omega
  · -- coverage
    intro u
    rcases hc1 with ⟨e1, m1, s1⟩ | ⟨e1, m1, s1⟩ <;>
      rcases hc2 with ⟨e2, m2, s2, s3⟩ | ⟨e2, m2, s2⟩
    all_goals subst e2
    all_goals simp only [Covered_append, Covered_cons]
    all_goals rw [Covered_congr st _ l1 u hl1]
    · subst e1
      rw [Covered_congr st _ l2' u (fun x hx => hsz x (hl2 x hx).2 (hl2 x hx).1)]
      by_cases c1 : Covered st l1 u <;> by_cases c2 : Covered st l2' u <;>
        first
          | (simp [c1, c2]; omega)
          | simp [c1, c2]
    · subst e1
      rw [Covered_congr st _ l2' u (fun x hx => hsz x (hl2 x hx).2 (hl2 x hx).1)]
      by_cases c1 : Covered st l1 u <;> by_cases c2 : Covered st l2' u <;>
        first
          | (simp [c1, c2]; omega)
          | simp [c1, c2]
    · rw [e1] at hl2 ⊢
      simp only [Covered_cons]
      rw [Covered_congr st (free_link st a pred) l2' u
        (fun x hx => hsz x (hl2 x (by simp [hx])).2 (hl2 x (by simp [hx])).1)]
      by_cases c1 : Covered st l1 u <;> by_cases c2 : Covered st l2' u <;>
        first
          | (simp [c1, c2]; omega)
          | simp [c1, c2]
    · rw [e1] at hl2 ⊢
      simp only [Covered_cons]
      rw [Covered_congr st (free_link st a pred) l2' u
        (fun x hx => hsz x (hl2 x (by simp [hx])).2 (hl2 x (by simp [hx])).1)]
      by_cases c1 : Covered st l1 u <;> by_cases c2 : Covered st l2' u <;>
        first
          | (simp [c1, c2]; omega)
          | simp [c1, c2]
  · rcases hc1 with ⟨e1, _, s1⟩ | ⟨e1, _, s1⟩ <;>
      rcases hc2 with ⟨e2, _, s2, s3⟩ | ⟨e2, _, s2⟩
    all_goals subst e2
    all_goals subst e1
    all_goals simp
    all_goals omega
  · rcases hc2 with ⟨e2, _, s2, s3⟩ | ⟨e2, _, s2⟩
    · refine ⟨a, by simp [e2], ?_⟩
      rcases hc1 with ⟨e1, _, s1⟩ | ⟨e1, _, s1⟩ <;> omega
    · refine ⟨pred, by simp [e2], ?_⟩
      rcases hc1 with ⟨e1, _, s1⟩ | ⟨e1, _, s1⟩ <;> omega
  · exact hal

/-! ## Serving a request from a free node -/

theorem WF.gap_of_mem {usz base : Nat} {st : State} {l al : List Nat} (h : WF usz base st l al)
    {x y : Nat} (hx : x ∈ l) (hy : y ∈ l) (hne : x ≠ y) :
    x + st.size x < y ∨ y + st.size y < x := by
  have hsym : Symmetric (fun x y => x + st.size x < y ∨ y + st.size y < x) := by
    intro x y hxy
    exact hxy.symm
  have hp : l.Pairwise (fun x y => x + st.size x < y ∨ y + st.size y < x) :=
    h.gap.imp (fun hxy => Or.inl hxy)
  exact hp.forall hsym hx hy hne

theorem WF.base_le {usz base : Nat} {st : State} {l al : List Nat} (h : WF usz base st l al)
    {x : Nat} (hx : x ∈ l) : base ≤ x :=
  head_le_of_sorted l base h.head h.sorted x hx

theorem WF.base_mem {usz base : Nat} {st : State} {l al : List Nat} (h : WF usz base st l al) :
    base ∈ l := by
  have := h.head
  cases l with
  | nil => simp at this
  | cons x r => simp at this; simp [this]

/-- A node whose link does not lead back to the sentinel is directly followed by
its successor in the address-ordered list. -/
theorem WF.split_at_next {usz base : Nat} {st : State} {l al : List Nat} (h : WF usz base st l al)
    {p : Nat} (hp : p ∈ l) (hnb : st.next p ≠ base) :
    ∃ P Q, l = P ++ p :: st.next p :: Q := by
  obtain ⟨P, R, e⟩ := List.append_of_mem hp
  have hl := h.link
  rw [e, Linked_append] at hl
  have hn : st.next p = R.headD base := hl.2.1
  cases R with
  | nil => simp at hn; exact absurd hn hnb
  | cons y Q =>
    simp at hn
    exact ⟨P, Q, by rw [e, hn]⟩

theorem WF.congr {usz base : Nat} {st st' : State} {l al : List Nat} (h : WF usz base st l al)
    (h1 : st'.freelist = st.freelist) (h2 : st'.next = st.next) (h3 : st'.size = st.size) :
    WF usz base st' l al := by
  refine
    { unit_pos := h.unit_pos
      base_pos := h.base_pos
      head := h.head
      base_size := by rw [h3]; exact h.base_size
      gap := by rw [h3]; exact h.gap
      link := by rw [h2]; exact h.link
      cursor := by rw [h1]; exact h.cursor
      fsize := by rw [h3]; exact h.fsize
      fbytes := by rw [h3]; exact h.fbytes
      asize := by rw [h3]; exact h.asize
      abytes := by rw [h3]; exact h.abytes
      alow := h.alow
      adisj := by rw [h3]; exact h.adisj
      fdisj := by rw [h3]; exact h.fdisj }

/-- Exact fit (lines 110-112, 121): the node is unlinked and becomes allocated. -/
theorem carve_exact_wf {usz base : Nat} {st : State} {l al : List Nat} {n p : Nat}
    (h : WF usz base st l al) (hn : 1 ≤ n) (hp : p ∈ l) (hf : st.size (st.next p) = n) :
    ∃ P Q, l = P ++ p :: st.next p :: Q ∧
      WF usz base ((st.setNext p (st.next (st.next p))).setCursor p) (P ++ p :: Q)
        (st.next p :: al) := by
  have hnb : st.next p ≠ base := by
    intro e
    rw [e, h.base_size] at hf
    omega
  obtain ⟨P, Q, e⟩ := h.split_at_next hp hnb
  refine ⟨P, Q, e, ?_⟩
  generalize hfd : st.next p = f at *
  subst e
  have hfm : f ∈ P ++ p :: f :: Q := by simp
  have hsub : (P ++ p :: Q).Sublist (P ++ p :: f :: Q) :=
    List.Sublist.append_left ((List.sublist_cons_self f Q).cons₂ p) P
  have hmem : ∀ x ∈ P ++ p :: Q, x ∈ P ++ p :: f :: Q := fun x hx => hsub.subset hx
  have hnd : (P ++ p :: f :: Q).Nodup := h.sorted.imp (fun hxy => Nat.ne_of_lt hxy)
  have hfn : ∀ x ∈ P ++ p :: Q, x ≠ f := by
    intro x hx e
    subst e
    rw [List.nodup_append] at hnd
    simp only [List.mem_append, List.mem_cons] at hx
    rcases hx with hx | rfl | hx
    · exact hnd.2.2 hx (by simp)
    · simp at hnd
    · simp at hnd
      exact hnd.2.1.2.1 hx
  have hlk := h.link
  rw [Linked_append] at hlk
  have hgap := h.gap
  rw [List.pairwise_append, List.pairwise_cons] at hgap
  have hpP : p ∉ P := fun hx => by
    have := hgap.2.2 p hx p (by simp)
    omega
  have hpQ : p ∉ Q := fun hx => by
    have := hgap.2.1.1 p (by simp [hx])
    omega
  refine
    { unit_pos := h.unit_pos
      base_pos := h.base_pos
      head := ?_
      base_size := by simpa using h.base_size
      gap := by simpa using h.gap.sublist hsub
      link := ?_
      cursor := by simp
      fsize := by simpa using fun x hx => h.fsize x (hmem x hx)
      fbytes := fun x hx => h.fbytes x (hmem x hx)
      asize := ?_
      abytes := ?_
      alow := ?_
      adisj := ?_
      fdisj := ?_ }
  · have := h.head
    cases P <;> simpa using this
  · rw [Linked_append]
    refine ⟨?_, ?_, ?_⟩
    · rw [Linked_congr st.next _ P _ (fun x hx => by
        have : x ≠ p := fun e => hpP (e ▸ hx)
        simp [this])]
      simpa using hlk.1
    · have : st.next f = Q.headD base := hlk.2.2.1
      simpa using this
    · rw [Linked_congr st.next _ Q _ (fun x hx => by
        have : x ≠ p := fun e => hpQ (e ▸ hx)
        simp [this])]
      exact hlk.2.2.2
  · intro b hb
    simp only [setCursor_size, setNext_size]
    rcases List.mem_cons.1 hb with rfl | hb
    · omega
    · exact h.asize b hb
  · intro b hb
    simp only [setCursor_size, setNext_size]
    rcases List.mem_cons.1 hb with rfl | hb
    · exact h.fbytes b hfm
    · exact h.abytes b hb
  · intro b hb
    rcases List.mem_cons.1 hb with rfl | hb
    · have := h.base_le hfm
      omega
    · exact h.alow b hb
  · simp only [setCursor_size, setNext_size]
    rw [List.pairwise_cons]
    exact ⟨fun b hb => h.fdisj f hfm b hb, h.adisj⟩
  · intro x hx b hb
    simp only [setCursor_size, setNext_size]
    rcases List.mem_cons.1 hb with rfl | hb
    · rcases h.gap_of_mem (hmem x hx) hfm (hfn x hx) with h1 | h1 <;> omega
    · exact h.fdisj x (hmem x hx) b hb

/-- Split (lines 114-119, 121): the node shrinks and its tail becomes allocated. -/
theorem carve_split_wf {usz base : Nat} {st : State} {l al : List Nat} {n f p : Nat}
    (h : WF usz base st l al) (hn : 1 ≤ n) (hp : p ∈ l) (hfm : f ∈ l) (hf : n < st.size f) :
    WF usz base (((st.setSize f (st.size f - n)).setSize (f + (st.size f - n)) n).setCursor p) l
      ((f + (st.size f - n)) :: al) := by
  have hfb : f ≠ base := by
    intro e
    rw [e, h.base_size] at hf
    omega
  have hbf := h.base_le hfm
  have hfbd := h.fbound f hfm
  -- the carved block is neither a free node nor an allocated block
  have hkl : ∀ x ∈ l, x ≠ f + (st.size f - n) := by
    intro x hx e
    by_cases hxf : x = f
    · omega
    · rcases h.gap_of_mem hx hfm hxf with h1 | h1 <;> omega
  have hka : ∀ b ∈ al, b ≠ f + (st.size f - n) := by
    intro b hb e
    have := h.fdisj f hfm b hb
    have := h.asize b hb
    omega
  have hfa : ∀ b ∈ al, b ≠ f := fun b hb e => h.not_mem hb (e ▸ hfm)
  have hsz : ∀ x, x ≠ f → x ≠ f + (st.size f - n) →
      (((st.setSize f (st.size f - n)).setSize (f + (st.size f - n)) n).setCursor p).size x
        = st.size x := by
    intro x h1 h2
    simp [h1, h2]
  have hszf : (((st.setSize f (st.size f - n)).setSize (f + (st.size f - n)) n).setCursor p).size
      f = st.size f - n := by
    have : f ≠ f + (st.size f - n) := by omega
    simp [this]
  have hszk : (((st.setSize f (st.size f - n)).setSize (f + (st.size f - n)) n).setCursor p).size
      (f + (st.size f - n)) = n := by
    simp
  have hle : ∀ x ∈ l,
      (((st.setSize f (st.size f - n)).setSize (f + (st.size f - n)) n).setCursor p).size x
        ≤ st.size x := by
    intro x hx
    by_cases hxf : x = f
    · rw [hxf, hszf]; omega
    · rw [hsz x hxf (hkl x hx)]
  have hc : (((st.setSize f (st.size f - n)).setSize (f + (st.size f - n)) n).setCursor
      p).freelist = p := rfl
  have hnx : (((st.setSize f (st.size f - n)).setSize (f + (st.size f - n)) n).setCursor
      p).next = st.next := rfl
  generalize ((st.setSize f (st.size f - n)).setSize (f + (st.size f - n)) n).setCursor p = st'
    at hsz hszf hszk hle hc hnx ⊢
  refine
    { unit_pos := h.unit_pos
      base_pos := h.base_pos
      head := h.head
      base_size := ?_
      gap := ?_
      link := by rw [hnx]; exact h.link
      cursor := by rw [hc]; exact hp
      fsize := ?_
      fbytes := ?_
      asize := ?_
      abytes := ?_
      alow := ?_
      adisj := ?_
      fdisj := ?_ }
  · rw [hsz base (Ne.symm hfb) (by omega)]
    exact h.base_size
  · refine h.gap.imp_of_mem ?_
    intro x y hx _ hxy
    have := hle x hx
    omega
  · intro x hx hxb
    by_cases hxf : x = f
    · rw [hxf, hszf]; omega
    · rw [hsz x hxf (hkl x hx)]
      exact h.fsize x hx hxb
  · intro x hx
    exact bytes_le (Nat.add_le_add_left (hle x hx) x) (h.fbytes x hx)
  · intro b hb
    rcases List.mem_cons.1 hb with rfl | hb
    · rw [hszk]; exact hn
    · rw [hsz b (hfa b hb) (hka b hb)]
      exact h.asize b hb
  · intro b hb
    rcases List.mem_cons.1 hb with rfl | hb
    · rw [hszk]
      exact bytes_le (by omega) (h.fbytes f hfm)
    · rw [hsz b (hfa b hb) (hka b hb)]
      exact h.abytes b hb
  · intro b hb
    rcases List.mem_cons.1 hb with rfl | hb
    · omega
    · exact h.alow b hb
  · rw [List.pairwise_cons]
    refine ⟨?_, h.adisj.imp_of_mem ?_⟩
    · intro b hb
      rw [hszk, hsz b (hfa b hb) (hka b hb)]
      have := h.fdisj f hfm b hb
      omega
    · intro x y hx hy hxy
      rw [hsz x (hfa x hx) (hka x hx), hsz y (hfa y hy) (hka y hy)]
      exact hxy
  · intro x hx b hb
    have hxl := hle x hx
    rcases List.mem_cons.1 hb with rfl | hb
    · rw [hszk]
      by_cases hxf : x = f
      · rw [hxf, hszf]; omega
      · rw [hsz x hxf (hkl x hx)]
        rcases h.gap_of_mem hx hfm hxf with h1 | h1 <;> omega
    · rw [hsz b (hfa b hb) (hka b hb)]
      by_cases hxf : x = f
      · rw [hxf, hszf]
        have := h.fdisj f hfm b hb
        omega
      · rw [hsz x hxf (hkl x hx)]
        exact h.fdisj x hx b hb

theorem WF.next_mem {usz base : Nat} {st : State} {l al : List Nat} (h : WF usz base st l al)
    {p : Nat} (hp : p ∈ l) : st.next p ∈ l := by
  rcases Linked_next st.next (· < ·) l base p h.link h.sorted hp with e | ⟨e, _⟩
  · rw [e]; exact h.base_mem
  · exact e

theorem WF.nodup {usz base : Nat} {st : State} {l al : List Nat} (h : WF usz base st l al) :
    l.Nodup := h.sorted.imp (fun hxy => Nat.ne_of_lt hxy)

@[simp] theorem carve_script (usz : Nat) (st : State) (n f p : Nat) :
    (carve usz st n f p).1.script = st.script := by
  unfold carve; split_ifs <;> rfl

@[simp] theorem carve_requests (usz : Nat) (st : State) (n f p : Nat) :
    (carve usz st n f p).1.requests = st.requests := by
  unfold carve; split_ifs <;> rfl

@[simp] theorem carve_next_of_ne (usz : Nat) (st : State) (n f p x : Nat) (hx : x ≠ p) :
    (carve usz st n f p).1.next x = st.next x := by
  unfold carve; split_ifs <;> simp [hx]

/-- Exact fit when the pointer past the header stays inside the address space. -/
theorem carve_exact_eq (usz : Nat) (st : State) (n f p : Nat) (he : st.size f = n)
    (hb : (f + 1) * usz < UINT_MOD) :
    carve usz st n f p = ((st.setNext p (st.next f)).setCursor p, f + 1) := by
  unfold carve
  rw [if_pos he, ptr_succ_eq hb]

/-- Split when the node ends inside the address space: no pointer sum wraps. -/
theorem carve_split_eq (usz : Nat) (st : State) (n f p : Nat) (hu : 0 < usz) (hn : 1 ≤ n)
    (hlt : n < st.size f) (hb : (f + st.size f) * usz < UINT_MOD) :
    carve usz st n f p
      = (((st.setSize f (st.size f - n)).setSize (f + (st.size f - n)) n).setCursor p,
          f + (st.size f - n) + 1) := by
  have h1 : (st.setSize f (st.size f - n)).size f = st.size f - n := by simp
  have h2 : ptr_add usz f (st.size f - n) = f + (st.size f - n) :=
    ptr_add_eq hu (bytes_le (by omega) hb)
  have h3 : ptr_succ usz (f + (st.size f - n)) = f + (st.size f - n) + 1 :=
    ptr_succ_eq (bytes_le (by omega) hb)
  unfold carve
  rw [if_neg (by omega)]
  simp only [h1, h2, h3]

theorem WF.carve_exact {usz base : Nat} {st : State} {l al : List Nat}
    (h : WF usz base st l al) {n f : Nat} (p : Nat) (hfm : f ∈ l) (hn : 1 ≤ n)
    (he : st.size f = n) :
    carve usz st n f p = ((st.setNext p (st.next f)).setCursor p, f + 1) :=
  Umalloc.carve_exact_eq usz st n f p he (bytes_le (by omega) (h.fbytes f hfm))

theorem WF.carve_split {usz base : Nat} {st : State} {l al : List Nat}
    (h : WF usz base st l al) {n f : Nat} (p : Nat) (hfm : f ∈ l) (hn : 1 ≤ n)
    (hlt : n < st.size f) :
    carve usz st n f p
      = (((st.setSize f (st.size f - n)).setSize (f + (st.size f - n)) n).setCursor p,
          f + (st.size f - n) + 1) :=
  Umalloc.carve_split_eq usz st n f p h.unit_pos hn hlt (h.fbytes f hfm)

/-- In a well-formed state the pointer handed out is not null. -/
theorem carve_ptr_ne_zero {usz base : Nat} {st : State} {l al : List Nat}
    (h : WF usz base st l al) {n f : Nat} (p : Nat) (hfm : f ∈ l) (hn : 1 ≤ n)
    (hf : n ≤ st.size f) : (carve usz st n f p).2 ≠ 0 := by
  by_cases he : st.size f = n
  · rw [h.carve_exact p hfm hn he]
    simp
  · rw [h.carve_split p hfm hn (by omega)]
    simp

/-- A non-null pointer handed out by `carve` follows a header holding the
requested units. -/
theorem carve_header (usz : Nat) (st : State) (n f p : Nat)
    (hp : (carve usz st n f p).2 ≠ 0) :
    (carve usz st n f p).1.size ((carve usz st n f p).2 - 1) = n := by
  unfold carve at hp ⊢
  split_ifs at hp ⊢ with h
  · simp only at hp ⊢
    rw [ptr_succ_of_ne_zero hp]
    simpa using h
  · simp only at hp ⊢
    rw [ptr_succ_of_ne_zero hp]
    simp

/-- Serving a request from the node after `p` in a well-formed state keeps the
state well-formed, with the returned block added to the allocated ones, and
conserves the total of header sizes. -/
theorem carve_ok {usz base : Nat} {st : State} {l al : List Nat} {n p : Nat}
    (h : WF usz base st l al) (hn : 1 ≤ n) (hp : p ∈ l) (hf : n ≤ st.size (st.next p)) :
    ∃ l', WF usz base (carve usz st n (st.next p) p).1 l' (((carve usz st n (st.next p) p).2 - 1) :: al) ∧
      total (carve usz st n (st.next p) p).1 l' (((carve usz st n (st.next p) p).2 - 1) :: al)
        = total st l al ∧
      l'.length ≤ l.length := by
  have hfm := h.next_mem hp
  by_cases he : st.size (st.next p) = n
  · obtain ⟨P, Q, e, hw⟩ := carve_exact_wf h hn hp he
    have ec : carve usz st n (st.next p) p =
        ((st.setNext p (st.next (st.next p))).setCursor p, st.next p + 1) :=
      h.carve_exact p hfm hn he
    rw [ec]
    refine ⟨P ++ p :: Q, by simpa using hw, ?_, ?_⟩
    · rw [e]
      simp [total]
      omega
    · rw [e]; simp
  · have hlt : n < st.size (st.next p) := by omega
    have hw := carve_split_wf h hn hp hfm hlt
    have ec : carve usz st n (st.next p) p =
        (((st.setSize (st.next p) (st.size (st.next p) - n)).setSize
          (st.next p + (st.size (st.next p) - n)) n).setCursor p,
          st.next p + (st.size (st.next p) - n) + 1) :=
      h.carve_split p hfm hn hlt
    rw [ec]
    refine ⟨l, by simpa using hw, ?_, le_refl _⟩
    generalize st.next p = f at *
    have hkl : ∀ x ∈ l, x ≠ f + (st.size f - n) := by
      intro x hx e
      by_cases hxf : x = f
      · omega
      · rcases h.gap_of_mem hx hfm hxf with h1 | h1 <;> omega
    have hka : ∀ b ∈ al, b ≠ f + (st.size f - n) := by
      intro b hb e
      have := h.fdisj f hfm b hb
      have := h.asize b hb
      omega
    have hfa : ∀ b ∈ al, b ≠ f := fun b hb e => h.not_mem hb (e ▸ hfm)
    have hff : f ≠ f + (st.size f - n) := by omega
    simp only [total, Nat.add_sub_cancel, List.map_cons, List.sum_cons, setCursor_size]
    rw [← List.sum_map_erase _ hfm, ← List.sum_map_erase st.size hfm]
    rw [sum_map_congr _ st.size (l.erase f) (fun x hx => by
      have hx' := (h.nodup.mem_erase_iff).1 hx
      simp [hx'.1, hkl x hx'.2])]
    rw [sum_map_congr _ st.size al (fun x hx => by simp [hfa x hx, hka x hx])]
    simp [hff]
    omega

/-! ## The scan of `malloc` -/

theorem malloc_loop_fit (usz n ffuel fuel : Nat) (st : State) (node prev : Nat)
    (h : n ≤ st.size node) :
    malloc_loop usz n ffuel (fuel + 1) st node prev = some (carve usz st n node prev) := by
  rw [malloc_loop, if_pos h]

theorem malloc_loop_next (usz n ffuel fuel : Nat) (st : State) (node prev : Nat)
    (h : st.size node < n) (hc : node ≠ st.freelist) :
    malloc_loop usz n ffuel (fuel + 1) st node prev
      = malloc_loop usz n ffuel fuel st (st.next node) node := by
  rw [malloc_loop, if_neg (by omega), if_neg hc]

theorem malloc_loop_grow (usz n ffuel fuel : Nat) (st st1 : State) (prev r : Nat)
    (h : st.size st.freelist < n) (hm : morecore usz ffuel st n = some (st1, r)) :
    malloc_loop usz n ffuel (fuel + 1) st st.freelist prev
      = if r = 0 then some (st1, 0) else malloc_loop usz n ffuel fuel st1 (st1.next r) r := by
  rw [malloc_loop, if_neg (by omega), if_pos rfl, hm]

/-- The scan passes over nodes that are too small and are not the cursor. -/
theorem malloc_loop_skip (usz n ffuel : Nat) (st : State) (e : Nat) :
    ∀ (w : List Nat) (fuel prev : Nat), Linked st.next w e →
      (∀ x ∈ w, st.size x < n ∧ x ≠ st.freelist) →
      malloc_loop usz n ffuel (fuel + w.length) st (w.headD e) prev
        = malloc_loop usz n ffuel fuel st e (w.getLastD prev) := by
  intro w
  induction w with
  | nil => intro fuel prev _ _; simp
  | cons x r ih =>
    intro fuel prev hl hw
    have hx := hw x (List.mem_cons_self _ _)
    simp only [List.headD_cons, List.length_cons, List.getLastD_cons]
    rw [← Nat.add_assoc, malloc_loop_next usz n ffuel _ st x prev hx.1 hx.2, hl.1]
    exact ih fuel x hl.2 (fun y hy => hw y (List.mem_cons_of_mem _ hy))

theorem Linked_last (nx : Nat → Nat) (e : Nat) :
    ∀ (w : List Nat) (d : Nat), Linked nx w e → w ≠ [] → nx (w.getLastD d) = e := by
  intro w
  induction w with
  | nil => intro d _ h; exact absurd rfl h
  | cons x r ih =>
    intro d hl _
    cases r with
    | nil => simpa [Linked] using hl.1
    | cons y r' =>
      rw [List.getLastD_cons]
      exact ih x hl.2 (by simp)

theorem getLastD_mem : ∀ (w : List Nat) (d : Nat), w ≠ [] → w.getLastD d ∈ w := by
  intro w
  induction w with
  | nil => intro d h; exact absurd rfl h
  | cons x r ih =>
    intro d _
    rw [List.getLastD_cons]
    cases r with
    | nil => simp
    | cons y r' => exact List.mem_cons_of_mem _ (ih x (by simp))

theorem first_split (P : Nat → Prop) [DecidablePred P] :
    ∀ (W : List Nat), (∃ x ∈ W, P x) →
      ∃ w f rest, W = w ++ f :: rest ∧ (∀ x ∈ w, ¬ P x) ∧ P f := by
  intro W
  induction W with
  | nil => rintro ⟨x, hx, _⟩; simp at hx
  | cons y r ih =>
    rintro ⟨x, hx, hP⟩
    by_cases hy : P y
    · exact ⟨[], y, r, rfl, by simp, hy⟩
    · rcases List.mem_cons.1 hx with rfl | hx
      · exact absurd hP hy
      · obtain ⟨w, f, rest, e, h1, h2⟩ := ih ⟨x, hx, hP⟩
        refine ⟨y :: w, f, rest, by rw [e]; rfl, ?_, h2⟩
        intro z hz
        rcases List.mem_cons.1 hz with rfl | hz
        · exact hy
        · exact h1 z hz

/-- The nodes of a well-formed free list in scan order: those after the cursor,
then those before it; the cursor itself comes last. -/
theorem WF.scan_order {usz base : Nat} {st : State} {l al : List Nat} (h : WF usz base st l al) :
    ∃ A B, l = A ++ st.freelist :: B ∧
      Linked st.next (B ++ A) st.freelist ∧
      (B ++ A).headD st.freelist = st.next st.freelist ∧
      st.freelist ∉ B ++ A ∧ (∀ x ∈ B ++ A, x ∈ l) ∧ (B ++ A).length + 1 = l.length := by
  obtain ⟨A, B, e⟩ := List.append_of_mem h.cursor
  have hrot := Linked_rotate st.next A B st.freelist base (e ▸ h.link) (e ▸ h.head)
  rw [List.cons_append] at hrot
  refine ⟨A, B, e, hrot.2, hrot.1.symm, ?_, ?_, ?_⟩
  · have hnd := h.nodup
    rw [e] at hnd
    have hperm : (st.freelist :: (B ++ A)).Perm (A ++ st.freelist :: B) := by
      rw [← List.cons_append]
      exact List.perm_append_comm
    have := hperm.nodup_iff.2 hnd
    exact (List.nodup_cons.1 this).1
  · intro x hx
    rw [e]
    simp only [List.mem_append, List.mem_cons] at hx ⊢
    tauto
  · rw [e]; simp; omega

/-- When some free node is large enough, the scan serves the request from the
first such node in scan order, without asking for more memory. -/
theorem scan_fit {usz base : Nat} {st : State} {l al : List Nat} (h : WF usz base st l al)
    (n ffuel fuel : Nat) (hfit : ∃ x ∈ l, n ≤ st.size x) (hf : l.length ≤ fuel) :
    ∃ A B w f rest, l = A ++ st.freelist :: B ∧ B ++ A ++ [st.freelist] = w ++ f :: rest ∧
      (∀ x ∈ w, st.size x < n) ∧ n ≤ st.size f ∧
      w.getLastD st.freelist ∈ l ∧ st.next (w.getLastD st.freelist) = f ∧
      malloc_loop usz n ffuel fuel st (st.next st.freelist) st.freelist
        = some (carve usz st n f (w.getLastD st.freelist)) := by
  obtain ⟨A, B, e, hlk, hhd, hc, hmem, hlen⟩ := h.scan_order
  have key : ∀ (w : List Nat) (f : Nat), Linked st.next w f → w.headD f = st.next st.freelist →
      (∀ x ∈ w, st.size x < n ∧ x ≠ st.freelist ∧ x ∈ l) → n ≤ st.size f →
      w.length < l.length →
      (∀ x ∈ w, st.size x < n) ∧ n ≤ st.size f ∧
      w.getLastD st.freelist ∈ l ∧ st.next (w.getLastD st.freelist) = f ∧
      malloc_loop usz n ffuel fuel st (st.next st.freelist) st.freelist
        = some (carve usz st n f (w.getLastD st.freelist)) := by
    intro w f hl hh hw hf' hwl
    refine ⟨fun x hx => (hw x hx).1, hf', ?_, ?_, ?_⟩
    · cases w with
      | nil => exact h.cursor
      | cons y r =>
        exact (hw _ (getLastD_mem (y :: r) st.freelist (by simp))).2.2
    · cases w with
      | nil => simpa using hh.symm
      | cons y r => exact Linked_last st.next f (y :: r) _ hl (by simp)
    · obtain ⟨k, rfl⟩ : ∃ k, fuel = (k + 1) + w.length := ⟨fuel - w.length - 1, by omega⟩
      rw [← hh, malloc_loop_skip usz n ffuel st f w (k + 1) st.freelist hl
        (fun x hx => ⟨(hw x hx).1, (hw x hx).2.1⟩)]
      exact malloc_loop_fit usz n ffuel k st f _ hf'
  by_cases hBA : ∃ x ∈ B ++ A, n ≤ st.size x
  · obtain ⟨w, f, rest, e1, h1, h2⟩ := first_split (fun x => n ≤ st.size x) (B ++ A) hBA
    have hl1 : Linked st.next w f := by
      have := hlk
      rw [e1, Linked_append] at this
      simpa using this.1
    have hh1 : w.headD f = st.next st.freelist := by
      rw [← hhd, e1]
      cases w <;> simp
    have hw1 : ∀ x ∈ w, st.size x < n ∧ x ≠ st.freelist ∧ x ∈ l := by
      intro x hx
      have hxm : x ∈ B ++ A := by rw [e1]; exact List.mem_append_left _ hx
      refine ⟨by have := h1 x hx; omega, ?_, hmem x hxm⟩
      rintro rfl
      exact hc hxm
    have hlen1 : w.length < l.length := by
      rw [← hlen, e1]; simp; omega
    exact ⟨A, B, w, f, rest ++ [st.freelist], e, by rw [e1]; simp,
      key w f hl1 hh1 hw1 h2 hlen1⟩
  · push_neg at hBA
    obtain ⟨x, hx, hxn⟩ := hfit
    have hcf : n ≤ st.size st.freelist := by
      rw [e] at hx
      simp only [List.mem_append, List.mem_cons] at hx
      rcases hx with hx | rfl | hx
      · have := hBA x (by simp [hx]); omega
      · exact hxn
      · have := hBA x (by simp [hx]); omega
    have hw1 : ∀ x ∈ B ++ A, st.size x < n ∧ x ≠ st.freelist ∧ x ∈ l := by
      intro x hx
      refine ⟨hBA x hx, ?_, hmem x hx⟩
      rintro rfl
      exact hc hx
    exact ⟨A, B, B ++ A, st.freelist, [], e, rfl,
      key (B ++ A) st.freelist hlk hhd hw1 hcf (by omega)⟩

/-- When no free node is large enough, the scan walks the whole list once and
reaches the cursor. -/
theorem scan_nofit {usz base : Nat} {st : State} {l al : List Nat} (h : WF usz base st l al)
    (n ffuel fuel : Nat) (hno : ∀ x ∈ l, st.size x < n) :
    ∃ prev, malloc_loop usz n ffuel (fuel + l.length) st (st.next st.freelist) st.freelist
      = malloc_loop usz n ffuel (fuel + 1) st st.freelist prev := by
  obtain ⟨A, B, e, hlk, hhd, hc, hmem, hlen⟩ := h.scan_order
  refine ⟨(B ++ A).getLastD st.freelist, ?_⟩
  rw [← hlen, ← hhd, ← Nat.add_assoc, Nat.add_right_comm]
  refine malloc_loop_skip usz n ffuel st st.freelist (B ++ A) (fuel + 1) st.freelist hlk ?_
  intro x hx
  refine ⟨hno x (hmem x hx), ?_⟩
  rintro rfl
  exact hc hx

/-! ## Growing the region -/

theorem grant_ge (nu : Nat) : nu ≤ grant nu ∧ 4096 ≤ grant nu := by
  unfold grant; split_ifs <;> omega

@[simp] theorem sbrk_freelist (st : State) (b : Int) : (sbrk st b).1.freelist = st.freelist :=
  rfl
@[simp] theorem sbrk_next (st : State) (b : Int) : (sbrk st b).1.next = st.next := rfl
@[simp] theorem sbrk_size (st : State) (b : Int) : (sbrk st b).1.size = st.size := rfl
@[simp] theorem sbrk_script (st : State) (b : Int) : (sbrk st b).1.script = st.script.tail :=
  rfl
@[simp] theorem sbrk_requests (st : State) (b : Int) :
    (sbrk st b).1.requests = st.requests ++ [b] := rfl
theorem sbrk_answer (st : State) (b : Int) : (sbrk st b).2 = st.script.head?.join := rfl

theorem morecore_fail (usz ffuel : Nat) (st : State) (nu : Nat)
    (h : st.script.head?.join = none) :
    morecore usz ffuel st nu = some ((sbrk st (sbrk_bytes usz nu)).1, 0) := by
  have e : sbrk st (sbrk_bytes usz nu) = ((sbrk st (sbrk_bytes usz nu)).1, none) := by
    rw [← h]; rfl
  unfold morecore
  rw [e]

theorem morecore_some (usz ffuel : Nat) (st : State) (nu p : Nat)
    (h : st.script.head?.join = some p) :
    morecore usz ffuel st nu
      = (free ffuel ((sbrk st (sbrk_bytes usz nu)).1.setSize p (grant nu)) (p + 1)).map
          (fun st2 => (st2, st2.freelist)) := by
  have e : sbrk st (sbrk_bytes usz nu) = ((sbrk st (sbrk_bytes usz nu)).1, some p) := by
    rw [← h]; rfl
  unfold morecore
  rw [e]

/-- Stamping the header of a fresh span makes it an allocated block. -/
theorem stamp_wf {usz base : Nat} {st st0 : State} {l al : List Nat} {p nu : Nat}
    (h : WF usz base st l al) (hfr : Fresh usz base st l al p nu) (hnu : 1 ≤ nu)
    (h1 : st0.freelist = st.freelist) (h2 : st0.next = st.next) (h3 : st0.size = st.size) :
    WF usz base (st0.setSize p nu) l (p :: al) ∧ p ∉ l ∧ p ∉ al := by
  obtain ⟨f1, f2, f3, f4⟩ := hfr
  have hpl : p ∉ l := by
    intro hp
    have := f3 p hp
    have := h.fsize p hp (by omega)
    omega
  have hpa : p ∉ al := by
    intro hp
    have := f4 p hp
    have := h.asize p hp
    omega
  have hl : ∀ x ∈ l, x ≠ p := fun x hx e => hpl (e ▸ hx)
  have ha : ∀ x ∈ al, x ≠ p := fun x hx e => hpa (e ▸ hx)
  refine ⟨?_, hpl, hpa⟩
  refine
    { unit_pos := h.unit_pos
      base_pos := h.base_pos
      head := h.head
      base_size := by
        have : base ≠ p := by omega
        simp [this, h3, h.base_size]
      gap := ?_
      link := by simp [h2, h.link]
      cursor := by simp [h1, h.cursor]
      fsize := ?_
      fbytes := ?_
      asize := ?_
      abytes := ?_
      alow := ?_
      adisj := ?_
      fdisj := ?_ }
  · refine h.gap.imp_of_mem ?_
    intro x y hx _ hxy
    simpa [hl x hx, h3] using hxy
  · intro x hx hb
    simpa [hl x hx, h3] using h.fsize x hx hb
  · intro x hx
    simpa [hl x hx, h3] using h.fbytes x hx
  · intro b hb
    rcases List.mem_cons.1 hb with rfl | hb
    · simpa using hnu
    · simpa [ha b hb, h3] using h.asize b hb
  · intro b hb
    rcases List.mem_cons.1 hb with rfl | hb
    · simpa using f2
    · simpa [ha b hb, h3] using h.abytes b hb
  · intro b hb
    rcases List.mem_cons.1 hb with rfl | hb
    · exact f1
    · exact h.alow b hb
  · rw [List.pairwise_cons]
    refine ⟨?_, h.adisj.imp_of_mem ?_⟩
    · intro b hb
      have := f4 b hb
      simp [ha b hb, h3]
      omega
    · intro x y hx hy hxy
      simpa [ha x hx, ha y hy, h3] using hxy
  · intro x hx b hb
    rcases List.mem_cons.1 hb with rfl | hb
    · have := f3 x hx
      simp [hl x hx, h3]
      omega
    · simpa [hl x hx, ha b hb, h3] using h.fdisj x hx b hb

/-- A successful growth in a well-formed state: the fresh span joins the free
list through `free`, and the total of header sizes grows by the granted units. -/
theorem morecore_ok {usz base : Nat} {st : State} {l al : List Nat} {p : Nat}
    (h : WF usz base st l al) (ffuel nu : Nat) (hs : st.script.head?.join = some p)
    (hfr : Fresh usz base st l al p (grant nu)) (hff : l.length ≤ ffuel) :
    ∃ st1 l1, morecore usz ffuel st nu = some (st1, st1.freelist) ∧ WF usz base st1 l1 al ∧
      st1.requests = st.requests ++ [sbrk_bytes usz nu] ∧ st1.script = st.script.tail ∧
      total st1 l1 al = total st l al + grant nu ∧
      (∀ u, Covered st1 l1 u ↔ (Covered st l u ∨ (p ≤ u ∧ u < p + grant nu))) ∧
      (∃ x ∈ l1, grant nu ≤ st1.size x) ∧ l1.length ≤ l.length + 1 ∧
      (∀ b ∈ al, st1.size b = st.size b) := by
  have hg := grant_ge nu
  obtain ⟨hw, hpl, hpa⟩ :=
    @stamp_wf usz base st (sbrk st (sbrk_bytes usz nu)).1 l al p (grant nu) h hfr (by omega)
      rfl rfl rfl
  obtain ⟨st1, l1, hfree, hw1, hsc, hrq, htot, hcov, hlen, hbig, hal⟩ :=
    free_ok hw (List.mem_cons_self p al) ffuel hff
  rw [List.erase_cons_head] at hw1 htot hal
  refine ⟨st1, l1, ?_, hw1, ?_, ?_, ?_, ?_, ?_, hlen, ?_⟩
  · rw [morecore_some usz ffuel st nu p hs, hfree]
    rfl
  · rw [hrq]; rfl
  · rw [hsc]; rfl
  · rw [htot]
    simp only [total, List.map_cons, List.sum_cons, setSize_size, if_true]
    rw [sum_map_congr _ st.size l (fun x hx => by
      have : x ≠ p := fun e => hpl (e ▸ hx)
      simp [this])]
    rw [sum_map_congr _ st.size al (fun x hx => by
      have : x ≠ p := fun e => hpa (e ▸ hx)
      simp [this])]
    omega
  · intro u
    rw [hcov u, Covered_congr st _ l u (fun x hx => by
      have : x ≠ p := fun e => hpl (e ▸ hx)
      simp [this])]
    simp
  · obtain ⟨x, hx, hxs⟩ := hbig
    exact ⟨x, hx, by simpa using hxs⟩
  · intro b hb
    rw [hal b hb]
    have : b ≠ p := fun e => hpa (e ▸ hb)
    simp [this]

/-! ## `malloc` in a well-formed state -/

/-- A request that some free node can hold is served without growth. -/
theorem malloc_loop_fit_ok {usz base : Nat} {st : State} {l al : List Nat} (h : WF usz base st l al)
    (n ffuel fuel : Nat) (hn : 1 ≤ n) (hfit : ∃ x ∈ l, n ≤ st.size x)
    (hf : l.length ≤ fuel) :
    ∃ st' p l', malloc_loop usz n ffuel fuel st (st.next st.freelist) st.freelist = some (st', p) ∧
      p ≠ 0 ∧ st'.requests = st.requests ∧ st'.script = st.script ∧
      WF usz base st' l' ((p - 1) :: al) ∧ total st' l' ((p - 1) :: al) = total st l al ∧
      st'.size (p - 1) = n ∧ l'.length ≤ l.length := by
  obtain ⟨A, B, w, f, rest, _, _, _, hfn, hpm, hnx, hloop⟩ := scan_fit h n ffuel fuel hfit hf
  rw [← hnx] at hfn hloop
  obtain ⟨l', hw, htot, hlen⟩ := carve_ok h hn hpm hfn
  have hp0 := carve_ptr_ne_zero h (w.getLastD st.freelist) (h.next_mem hpm) hn hfn
  exact ⟨_, _, l', hloop, hp0, carve_requests _ _ _ _ _,
    carve_script _ _ _ _ _, hw, htot, carve_header _ _ _ _ _ hp0, hlen⟩

/-- A request that no free node can hold, with the growth collaborator failing:
`malloc` reports failure after a single request. -/
theorem malloc_loop_oom {usz base : Nat} {st : State} {l al : List Nat} (h : WF usz base st l al)
    (n ffuel fuel : Nat) (hno : ∀ x ∈ l, st.size x < n)
    (hs : st.script.head?.join = none) (hf : l.length + 1 ≤ fuel) :
    malloc_loop usz n ffuel fuel st (st.next st.freelist) st.freelist
      = some ((sbrk st (sbrk_bytes usz n)).1, 0) := by
  obtain ⟨k, rfl⟩ : ∃ k, fuel = (k + 1) + l.length := ⟨fuel - l.length - 1, by omega⟩
  obtain ⟨prev, e⟩ := scan_nofit h n ffuel (k + 1) hno
  rw [e, malloc_loop_grow usz n ffuel (k + 1) st _ prev 0 (hno _ h.cursor)
    (morecore_fail usz ffuel st n hs)]
  simp

/-- A request that no free node can hold, with the growth collaborator granting a
fresh span: `malloc` grows the region once and serves the request. -/
theorem malloc_loop_grow_ok {usz base : Nat} {st : State} {l al : List Nat} {q : Nat}
    (h : WF usz base st l al) (n ffuel fuel : Nat) (hn : 1 ≤ n)
    (hno : ∀ x ∈ l, st.size x < n) (hs : st.script.head?.join = some q)
    (hfr : Fresh usz base st l al q (grant n)) (hf : 2 * l.length + 2 ≤ fuel)
    (hff : l.length ≤ ffuel) :
    ∃ st' p l', malloc_loop usz n ffuel fuel st (st.next st.freelist) st.freelist = some (st', p) ∧
      p ≠ 0 ∧ st'.requests = st.requests ++ [sbrk_bytes usz n] ∧
      st'.script = st.script.tail ∧
      WF usz base st' l' ((p - 1) :: al) ∧
      total st' l' ((p - 1) :: al) = total st l al + grant n ∧
      st'.size (p - 1) = n ∧ l'.length ≤ l.length + 1 := by
  obtain ⟨k, rfl⟩ : ∃ k, fuel = (k + 1) + l.length := ⟨fuel - l.length - 1, by omega⟩
  obtain ⟨prev, e⟩ := scan_nofit h n ffuel (k + 1) hno
  obtain ⟨st1, l1, hm, hw1, hrq, hsc, htot, _, hbig, hlen, _⟩ :=
    morecore_ok h ffuel n hs hfr hff
  have hr : st1.freelist ≠ 0 := by
    have := hw1.base_le hw1.cursor
    have := hw1.base_pos
    omega
  rw [e, malloc_loop_grow usz n ffuel (k + 1) st st1 prev st1.freelist (hno _ h.cursor) hm,
    if_neg hr]
  have hfit : ∃ x ∈ l1, n ≤ st1.size x := by
    obtain ⟨x, hx, hxs⟩ := hbig
    exact ⟨x, hx, le_trans (grant_ge n).1 hxs⟩
  obtain ⟨st', p, l', hl, hp, hrq', hsc', hw', htot', hsz', hlen'⟩ :=
    malloc_loop_fit_ok hw1 n ffuel (k + 1) hn hfit (by omega)
  exact ⟨st', p, l', hl, hp, by rw [hrq', hrq], by rw [hsc', hsc], hw', by rw [htot', htot],
    hsz', by omega⟩

theorem nunits_pos (usz nbytes : Nat) (h2 : 2 ≤ usz) : 1 ≤ nunits usz nbytes := by
  unfold nunits
  rw [uint_mod_eq]
  have h1 : (nbytes + usz - 1) % 4294967296 < 4294967296 := Nat.mod_lt _ (by norm_num)
  have h3 : (nbytes + usz - 1) % 4294967296 / usz ≤ (nbytes + usz - 1) % 4294967296 / 2 :=
    Nat.div_le_div_left h2 (by omega)
  rw [Nat.mod_eq_of_lt (by omega)]
  exact Nat.le_add_left 1 _

/-- The lazy initialisation turns the untouched allocator into a well-formed
state whose free list is the sentinel alone. -/
theorem init_base_wf (usz base : Nat) (st : State) (hu : 0 < usz) (hb : 0 < base)
    (hb2 : base * usz < UINT_MOD) (h0 : st.freelist = 0) :
    WF usz base (init_base base st) [base] [] := by
  have e : init_base base st = ((st.setNext base base).setCursor base).setSize base 0 := by
    simp [init_base, h0]
  rw [e]
  refine
    { unit_pos := hu
      base_pos := hb
      head := rfl
      base_size := by simp
      gap := by simp
      link := by simp [Linked]
      cursor := by simp
      fsize := by simp
      fbytes := by simpa using hb2
      asize := by simp
      abytes := by simp
      alow := by simp
      adisj := by simp
      fdisj := by simp }

theorem init_base_of_wf {usz base : Nat} {st : State} {l al : List Nat} (h : WF usz base st l al) :
    init_base base st = st := by
  have := h.base_le h.cursor
  have := h.base_pos
  simp [init_base]
  intro h0
  omega

/-! ## The free list as seen from the cursor -/

theorem Linked_iterate (nx : Nat → Nat) (e : Nat) :
    ∀ (w : List Nat), Linked nx w e → nx^[w.length] (w.headD e) = e := by
  intro w
  induction w with
  | nil => intro _; rfl
  | cons y r ih =>
    intro hl
    simp only [List.length_cons, List.headD_cons, Function.iterate_succ_apply]
    rw [hl.1]
    exact ih hl.2

/-- In a well-formed state the nodes reached from the cursor are exactly the
nodes of the address-ordered list. -/
theorem WF.reach_iff {usz base : Nat} {st : State} {l al : List Nat} (h : WF usz base st l al)
    (x : Nat) : Reach st x ↔ x ∈ l := by
  constructor
  · rintro ⟨k, rfl⟩
    induction k with
    | zero => exact h.cursor
    | succ k ih =>
      rw [Function.iterate_succ_apply']
      exact h.next_mem ih
  · intro hx
    obtain ⟨A, B, e, hlk, hhd, hc, hmem, hlen⟩ := h.scan_order
    by_cases hxc : x = st.freelist
    · exact ⟨0, hxc.symm⟩
    · have hxBA : x ∈ B ++ A := by
        rw [e] at hx
        simp only [List.mem_append, List.mem_cons] at hx ⊢
        tauto
      obtain ⟨w, rest, ew⟩ := List.append_of_mem hxBA
      rw [ew, Linked_append] at hlk
      have h1 : Linked st.next w x := by simpa using hlk.1
      have h2 := Linked_iterate st.next x w h1
      have h3 : w.headD x = st.next st.freelist := by
        rw [← hhd, ew]
        cases w <;> simp
      rw [h3] at h2
      exact ⟨w.length + 1, by rw [Function.iterate_succ_apply]; exact h2⟩

theorem WF.noAdjacent {usz base : Nat} {st : State} {l al : List Nat} (h : WF usz base st l al) :
    NoAdjacent st := by
  intro x y hx hy hne
  rw [h.reach_iff] at hx hy
  rcases h.gap_of_mem hx hy hne with h1 | h1 <;> omega

/-- Releasing distinct allocated blocks one after the other keeps the state
well-formed. -/
theorem free_all_ok {usz base : Nat} (fuel : Nat) :
    ∀ (bs : List Nat) (st : State) (l al : List Nat), WF usz base st l al → bs.Nodup →
      (∀ b ∈ bs, b ∈ al) → l.length + bs.length ≤ fuel →
      ∃ st' l' al', free_all fuel st (bs.map (fun b => b + 1)) = some st' ∧
        WF usz base st' l' al' ∧ total st' l' al' = total st l al ∧
        l'.length ≤ l.length + bs.length := by
  intro bs
  induction bs with
  | nil =>
    intro st l al h _ _ _
    exact ⟨st, l, al, rfl, h, rfl, by simp⟩
  | cons b r ih =>
    intro st l al h hnd hsub hf
    rw [List.nodup_cons] at hnd
    simp only [List.length_cons] at hf
    obtain ⟨st1, l1, hfree, hw1, _, _, htot, _, hlen, _, _⟩ :=
      free_ok h (hsub b (by simp)) fuel (by omega)
    have hsub1 : ∀ c ∈ r, c ∈ al.erase b := by
      intro c hc
      refine (h.nodup_al.mem_erase_iff).2 ⟨?_, hsub c (by simp [hc])⟩
      rintro rfl
      exact hnd.1 hc
    obtain ⟨st', l', al', hfa, hw', htot', hlen'⟩ := ih st1 l1 (al.erase b) hw1 hnd.2 hsub1
      (by omega)
    refine ⟨st', l', al', ?_, hw', by rw [htot', htot], by simp only [List.length_cons]; omega⟩
    simp only [List.map_cons, free_all, hfree, Option.some_bind]
    exact hfa

theorem FirstFit.mem {st : State} {l : List Nat} {n f prev : Nat} {usz base : Nat} {al : List Nat}
    (h : FirstFit st l n f prev) (hw : WF usz base st l al) : f ∈ l := by
  obtain ⟨A, B, w, rest, _, _, _, _, _, hp, hn⟩ := h
  rw [← hn]
  exact hw.next_mem hp

/-- How `malloc`'s loop ends in a well-formed state: it serves the first fitting
node; or, when nothing fits, asks `sbrk` once and either fails or serves the first
fitting node of the grown list. -/
theorem malloc_loop_served {usz base : Nat} {st : State} {l al : List Nat} (h : WF usz base st l al)
    (n ffuel fuel : Nat) (hok : SbrkOk usz base st l al n)
    (hf : 2 * l.length + 2 ≤ fuel) (hff : l.length ≤ ffuel) :
    ((∃ x ∈ l, n ≤ st.size x) ∧ ∃ f prev, FirstFit st l n f prev ∧
        malloc_loop usz n ffuel fuel st (st.next st.freelist) st.freelist
          = some (carve usz st n f prev)) ∨
    ((∀ x ∈ l, st.size x < n) ∧ st.script.head?.join = none ∧
        malloc_loop usz n ffuel fuel st (st.next st.freelist) st.freelist
          = some ((sbrk st (sbrk_bytes usz n)).1, 0)) ∨
    ((∀ x ∈ l, st.size x < n) ∧ ∃ q stc lc, st.script.head?.join = some q ∧
        morecore usz ffuel st n = some (stc, stc.freelist) ∧ WF usz base stc lc al ∧
        stc.requests = st.requests ++ [sbrk_bytes usz n] ∧ stc.script = st.script.tail ∧
        total stc lc al = total st l al + grant n ∧
        (∀ u, Covered stc lc u ↔ (Covered st l u ∨ (q ≤ u ∧ u < q + grant n))) ∧
        lc.length ≤ l.length + 1 ∧
        ∃ f prev, FirstFit stc lc n f prev ∧
          malloc_loop usz n ffuel fuel st (st.next st.freelist) st.freelist
            = some (carve usz stc n f prev)) := by
  by_cases hfit : ∃ x ∈ l, n ≤ st.size x
  · left
    obtain ⟨A, B, w, f, rest, e1, e2, h1, h2, h3, h4, h5⟩ :=
      scan_fit h n ffuel fuel hfit (by omega)
    exact ⟨hfit, f, _, ⟨A, B, w, rest, e1, e2, h1, h2, rfl, h3, h4⟩, h5⟩
  · right
    push_neg at hfit
    cases hs : st.script.head?.join with
    | none =>
      left
      exact ⟨hfit, rfl, malloc_loop_oom h n ffuel fuel hfit hs (by omega)⟩
    | some q =>
      right
      refine ⟨hfit, q, ?_⟩
      have hfr := (hok q hs).2
      obtain ⟨k, rfl⟩ : ∃ k, fuel = (k + 1) + l.length := ⟨fuel - l.length - 1, by omega⟩
      obtain ⟨prev, e⟩ := scan_nofit h n ffuel (k + 1) hfit
      obtain ⟨st1, l1, hm, hw1, hrq, hsc, htot, hcov, hbig, hlen, _⟩ :=
        morecore_ok h ffuel n hs hfr hff
      have hr : st1.freelist ≠ 0 := by
        have := hw1.base_le hw1.cursor
        have := hw1.base_pos
        omega
      have hfit1 : ∃ x ∈ l1, n ≤ st1.size x := by
        obtain ⟨x, hx, hxs⟩ := hbig
        exact ⟨x, hx, le_trans (grant_ge n).1 hxs⟩
      obtain ⟨A, B, w, f, rest, e1, e2, h1, h2, h3, h4, h5⟩ :=
        scan_fit hw1 n ffuel (k + 1) hfit1 (by omega)
      refine ⟨st1, l1, rfl, hm, hw1, hrq, hsc, htot, hcov, hlen, f, _,
        ⟨A, B, w, rest, e1, e2, h1, h2, rfl, h3, h4⟩, ?_⟩
      rw [e, malloc_loop_grow usz n ffuel (k + 1) st st1 prev st1.freelist (hfit _ h.cursor) hm,
        if_neg hr]
      exact h5

/-- Serving the first fitting node keeps the state well-formed. -/
theorem FirstFit.serve_ok {usz base : Nat} {st : State} {l al : List Nat} {n f prev : Nat}
    (hff : FirstFit st l n f prev) (h : WF usz base st l al) (hn : 1 ≤ n) :
    (carve usz st n f prev).2 ≠ 0 ∧ (carve usz st n f prev).1.size ((carve usz st n f prev).2 - 1) = n ∧
      (carve usz st n f prev).1.requests = st.requests ∧ (carve usz st n f prev).1.script = st.script ∧
      ∃ l', WF usz base (carve usz st n f prev).1 l' (((carve usz st n f prev).2 - 1) :: al) ∧
        total (carve usz st n f prev).1 l' (((carve usz st n f prev).2 - 1) :: al) = total st l al ∧
        l'.length ≤ l.length := by
  obtain ⟨A, B, w, rest, _, _, _, h2, _, hp, hnx⟩ := hff
  subst hnx
  have hp0 := carve_ptr_ne_zero h prev (h.next_mem hp) hn h2
  exact ⟨hp0, carve_header _ _ _ _ _ hp0, carve_requests _ _ _ _ _,
    carve_script _ _ _ _ _, Umalloc.carve_ok h hn hp h2⟩

@[simp] theorem init_base_requests (base : Nat) (st : State) :
    (init_base base st).requests = st.requests := by
  unfold init_base; split_ifs <;> rfl

@[simp] theorem init_base_script (base : Nat) (st : State) :
    (init_base base st).script = st.script := by
  unfold init_base; split_ifs <;> rfl

theorem nunits_mono (usz s s' : Nat) (h2 : 2 ≤ usz) (hs : s + usz ≤ UINT_MOD) (hle : s' ≤ s) :
    nunits usz s' ≤ nunits usz s := by
  rw [nunits_of_small usz s h2 hs, nunits_of_small usz s' h2 (by omega)]
  have := Nat.div_le_div_right (c := usz) (show s' + usz - 1 ≤ s + usz - 1 by omega)
  omega

/-- A successful `malloc` in a well-formed state leaves a well-formed state in
which the returned block is allocated with exactly the requested units. -/
theorem malloc_block_wf {usz base fuel : Nat} {st : State} {s : Nat} {l al : List Nat}
    {st1 : State} {A : Nat}
    (h : WF usz base (init_base base st) l al) (h2 : 2 ≤ usz)
    (hok : SbrkOk usz base (init_base base st) l al (nunits usz s))
    (hf : 2 * l.length + 2 ≤ fuel)
    (hm : malloc usz base fuel st s = some (st1, A)) (hA : A ≠ 0) :
    ∃ l1, WF usz base st1 l1 ((A - 1) :: al) ∧ st1.size (A - 1) = nunits usz s ∧
      l1.length ≤ l.length + 1 ∧
      (total st1 l1 ((A - 1) :: al) = total (init_base base st) l al ∧
          st1.requests = st.requests ∨
        total st1 l1 ((A - 1) :: al)
            = total (init_base base st) l al + grant (nunits usz s) ∧
          st1.requests = st.requests ++ [sbrk_bytes usz (nunits usz s)]) := by
  have hn := nunits_pos usz s h2
  unfold malloc at hm
  simp only at hm
  rcases malloc_loop_served h (nunits usz s) fuel fuel hok hf (by omega) with
    ⟨hfit, f, prev, hff, hl⟩ | ⟨hno, hs, hl⟩ | ⟨hno, q, stc, lc, hs, _, hw, hrq, _, htot, _, hlen,
      f, prev, hff, hl⟩
  · rw [hl] at hm
    have e := Option.some.inj hm
    obtain ⟨_, h5, h6, _, l1, h7, h8, h9⟩ := hff.serve_ok h hn
    rw [e] at h5 h6 h7 h8
    exact ⟨l1, h7, h5, by omega, Or.inl ⟨h8, by simpa using h6⟩⟩
  · rw [hl] at hm
    have e := Option.some.inj hm
    simp only [Prod.mk.injEq] at e
    exact absurd e.2.symm hA
  · rw [hl] at hm
    have e := Option.some.inj hm
    obtain ⟨_, h5, h6, _, l1, h7, h8, h9⟩ := hff.serve_ok hw hn
    rw [e] at h5 h6 h7 h8
    exact ⟨l1, h7, h5, by omega, Or.inr ⟨by rw [h8, htot], by rw [h6, hrq]; simp⟩⟩

/-! ## The merge rules of `free` -/

theorem link_next_size_of_ne (st : State) (b pred x : Nat) (hx : x ≠ b) :
    (link_next st b pred).size x = st.size x := by
  unfold link_next; split_ifs <;> simp [hx]

theorem link_next_next_of_ne (st : State) (b pred x : Nat) (hx : x ≠ b) :
    (link_next st b pred).next x = st.next x := by
  unfold link_next; split_ifs <;> simp [hx]

theorem link_next_size_mem (st : State) (b pred : Nat) :
    (link_next st b pred).size b
      = if b + st.size b = st.next pred then (st.size b + st.size (st.next pred)) % UINT_MOD
        else st.size b := by
  unfold link_next; split_ifs <;> simp

theorem link_next_next_mem (st : State) (b pred : Nat) :
    (link_next st b pred).next b
      = if b + st.size b = st.next pred then st.next (st.next pred) else st.next pred := by
  unfold link_next; split_ifs <;> simp

theorem free_link_size_mem (st : State) (b pred : Nat) (hne : b ≠ pred) :
    (free_link st b pred).size b
      = if b + st.size b = st.next pred then (st.size b + st.size (st.next pred)) % UINT_MOD
        else st.size b := by
  rw [← link_next_size_mem]
  unfold free_link link_prev
  split_ifs <;> simp [hne]

theorem free_link_next_mem (st : State) (b pred : Nat) (hne : b ≠ pred) :
    (free_link st b pred).next b
      = if b + st.size b = st.next pred then st.next (st.next pred) else st.next pred := by
  rw [← link_next_next_mem]
  unfold free_link link_prev
  split_ifs <;> simp [hne]

theorem free_link_size_pred (st : State) (b pred : Nat) (hne : b ≠ pred) :
    (free_link st b pred).size pred
      = if pred + st.size pred = b then
          (st.size pred + (free_link st b pred).size b) % UINT_MOD
        else st.size pred := by
  have h1 : (link_next st b pred).size pred = st.size pred :=
    link_next_size_of_ne st b pred pred (Ne.symm hne)
  have h2 : (free_link st b pred).size b = (link_next st b pred).size b := by
    unfold free_link link_prev
    split_ifs <;> simp [hne]
  rw [h2]
  unfold free_link link_prev
  rw [h1]
  split_ifs <;> simp [h1]

theorem free_link_next_pred (st : State) (b pred : Nat) (hne : b ≠ pred) :
    (free_link st b pred).next pred
      = if pred + st.size pred = b then (free_link st b pred).next b else b := by
  have h1 : (link_next st b pred).size pred = st.size pred :=
    link_next_size_of_ne st b pred pred (Ne.symm hne)
  have h2 : (free_link st b pred).next b = (link_next st b pred).next b := by
    unfold free_link link_prev
    split_ifs <;> simp [hne]
  rw [h2]
  unfold free_link link_prev
  rw [h1]
  split_ifs <;> simp

/-- The address-ordered list of free nodes of a well-formed state is determined by
the state. -/
theorem WF.list_unique {usz base : Nat} {st : State} {l l' al al' : List Nat}
    (h : WF usz base st l al) (h' : WF usz base st l' al') : l = l' := by
  have hperm : l.Perm l' :=
    (List.perm_ext_iff_of_nodup h.nodup h'.nodup).2
      (fun x => by rw [← h.reach_iff, ← h'.reach_iff])
  exact List.eq_of_perm_of_sorted hperm h.sorted h'.sorted

/-! ## Sequences of calls -/

theorem free_script {fuel : Nat} {st st' : State} {p : Nat} (h : free fuel st p = some st') :
    st'.script = st.script ∧ st'.requests = st.requests := by
  unfold free at h
  simp only [Option.map_eq_some'] at h
  obtain ⟨node, _, e⟩ := h
  rw [← e]
  simp

/-- One call of `malloc` in a well-formed state: it returns, keeps the state
well-formed and changes the total of header sizes only by what `morecore` was
granted. -/
theorem malloc_step_ok {usz base fuel : Nat} {st : State} {l al : List Nat} (n : Nat)
    (h : WF usz base (init_base base st) l al) (h2 : 2 ≤ usz)
    (hok : SbrkOk usz base (init_base base st) l al (nunits usz n))
    (hf : 2 * l.length + 2 ≤ fuel) :
    ∃ st' p, malloc usz base fuel st n = some (st', p) ∧
      (p = 0 → WF usz base st' l al ∧ total st' l al = total (init_base base st) l al ∧
        st'.requests = st.requests ++ [sbrk_bytes usz (nunits usz n)]) ∧
      (p ≠ 0 → ∃ l', WF usz base st' l' ((p - 1) :: al) ∧ l'.length ≤ l.length + 1 ∧
        (total st' l' ((p - 1) :: al) = total (init_base base st) l al ∧
            st'.requests = st.requests ∨
          total st' l' ((p - 1) :: al)
              = total (init_base base st) l al + grant (nunits usz n) ∧
            st'.requests = st.requests ++ [sbrk_bytes usz (nunits usz n)])) := by
  have hex : ∃ st' p, malloc usz base fuel st n = some (st', p) ∧
      (p = 0 → st' = (sbrk (init_base base st) (sbrk_bytes usz (nunits usz n))).1) := by
    unfold malloc
    simp only
    rcases malloc_loop_served h (nunits usz n) fuel fuel hok hf (by omega) with
      ⟨_, f, prev, hff, hl⟩ | ⟨_, _, hl⟩ |
      ⟨_, q, stc, lc, _, _, hw, _, _, _, _, _, f, prev, hff, hl⟩
    · exact ⟨(carve usz (init_base base st) (nunits usz n) f prev).1,
        (carve usz (init_base base st) (nunits usz n) f prev).2, hl,
        fun h0 => absurd h0 (hff.serve_ok h (nunits_pos usz n h2)).1⟩
    · exact ⟨_, 0, hl, fun _ => rfl⟩
    · exact ⟨(carve usz stc (nunits usz n) f prev).1, (carve usz stc (nunits usz n) f prev).2, hl,
        fun h0 => absurd h0 (hff.serve_ok hw (nunits_pos usz n h2)).1⟩
  obtain ⟨st', p, hm, h0⟩ := hex
  refine ⟨st', p, hm, ?_, ?_⟩
  · intro hp
    have e := h0 hp
    subst e
    refine ⟨h.congr rfl rfl rfl, rfl, by simp⟩
  · intro hp
    obtain ⟨l1, hw1, _, hlen, htot⟩ := malloc_block_wf h h2 hok hf hm hp
    exact ⟨l1, hw1, hlen, htot⟩

/-- Along a legal sequence of calls the state stays well-formed and the total of
header sizes never decreases. -/
theorem run_ok {usz base fuel : Nat} (h2 : 2 ≤ usz) :
    ∀ (cs : List Call) (st : State) (l al : List Nat),
      WF usz base (init_base base st) l al → (st.freelist = 0 → al = []) →
      Legal usz base fuel st al cs → 2 * (l.length + cs.length) + 2 ≤ fuel →
      ∃ st' al' l', run usz base fuel st al cs = some (st', al') ∧
        WF usz base (init_base base st') l' al' ∧ (st'.freelist = 0 → al' = []) ∧
        total (init_base base st) l al ≤ total (init_base base st') l' al' := by
  intro cs
  induction cs with
  | nil =>
    intro st l al h hz _ _
    exact ⟨st, al, l, rfl, h, hz, le_refl _⟩
  | cons c cs ih =>
    intro st l al h hz hleg hf
    simp only [List.length_cons] at hf
    obtain ⟨hpre, hnext⟩ := hleg
    cases c with
    | malloc n =>
      obtain ⟨st1, p, hm, hp0, hp1⟩ :=
        @malloc_step_ok usz base fuel st l al n h h2 (hpre l h) (by omega)
      have hstep : step usz base fuel st al (Call.malloc n)
          = some (st1, if p = 0 then al else (p - 1) :: al) := by
        simp [step, hm]
      have hleg1 := hnext _ hstep
      by_cases hp : p = 0
      · obtain ⟨hw1, htot1, _⟩ := hp0 hp
        simp only [hp, if_true] at hstep hleg1
        have hi := init_base_of_wf hw1
        have hnz : st1.freelist = 0 → al = [] := by
          intro e
          have := hw1.base_le hw1.cursor
          have := hw1.base_pos
          omega
        obtain ⟨st', al', l', hr, hw', hz', hle⟩ :=
          ih st1 l al (by rw [hi]; exact hw1) hnz hleg1 (by omega)
        refine ⟨st', al', l', ?_, hw', hz', ?_⟩
        · simp only [run, hstep, Option.some_bind]
          exact hr
        · rw [hi] at hle
          omega
      · obtain ⟨l1, hw1, hlen1, htot1⟩ := hp1 hp
        simp only [hp, if_false] at hstep hleg1
        have hi := init_base_of_wf hw1
        have hnz : st1.freelist = 0 → (p - 1) :: al = [] := by
          intro e
          have := hw1.base_le hw1.cursor
          have := hw1.base_pos
          omega
        obtain ⟨st', al', l', hr, hw', hz', hle⟩ :=
          ih st1 l1 ((p - 1) :: al) (by rw [hi]; exact hw1) hnz hleg1 (by omega)
        refine ⟨st', al', l', ?_, hw', hz', ?_⟩
        · simp only [run, hstep, Option.some_bind]
          exact hr
        · rw [hi] at hle
          rcases htot1 with ⟨e, _⟩ | ⟨e, _⟩ <;> omega
    | free p =>
      obtain ⟨hp, hmem⟩ := hpre
      have hnz : st.freelist ≠ 0 := by
        intro e
        rw [hz e] at hmem
        simp at hmem
      have hi : init_base base st = st := by simp [init_base, hnz]
      rw [hi] at h
      obtain ⟨st1, l1, hfree, hw1, _, _, htot, _, hlen, _, _⟩ := free_ok h hmem fuel (by omega)
      have hp1 : p - 1 + 1 = p := by omega
      rw [hp1] at hfree
      have hstep : step usz base fuel st al (Call.free p) = some (st1, al.erase (p - 1)) := by
        simp [step, hfree]
      have hleg1 := hnext _ hstep
      have hi1 := init_base_of_wf hw1
      have hnz1 : st1.freelist = 0 → al.erase (p - 1) = [] := by
        intro e
        have := hw1.base_le hw1.cursor
        have := hw1.base_pos
        omega
      obtain ⟨st', al', l', hr, hw', hz', hle⟩ :=
        ih st1 l1 (al.erase (p - 1)) (by rw [hi1]; exact hw1) hnz1 hleg1 (by omega)
      refine ⟨st', al', l', ?_, hw', hz', ?_⟩
      · simp only [run, hstep, Option.some_bind]
        exact hr
      · rw [hi1] at hle
        rw [hi]
        omega

theorem free_link_size_of_ne (st : State) (b pred x : Nat) (h1 : x ≠ b) (h2 : x ≠ pred) :
    (free_link st b pred).size x = st.size x := by
  rw [← link_next_size_of_ne st b pred x h1]
  unfold free_link link_prev
  split_ifs <;> simp [h2]

theorem free_link_next_of_ne (st : State) (b pred x : Nat) (h1 : x ≠ b) (h2 : x ≠ pred) :
    (free_link st b pred).next x = st.next x := by
  rw [← link_next_next_of_ne st b pred x h1]
  unfold free_link link_prev
  split_ifs <;> simp [h2]

/-- The loop of `malloc` splitting the node right after the cursor. -/
theorem malloc_loop_split_next (usz n ffuel fuel : Nat) (st : State) (hu : 0 < usz)
    (hn : 1 ≤ n) (hS : n < st.size (st.next st.freelist))
    (hb : (st.next st.freelist + st.size (st.next st.freelist)) * usz < UINT_MOD) :
    malloc_loop usz n ffuel (fuel + 1) st (st.next st.freelist) st.freelist
      = some (((st.setSize (st.next st.freelist) (st.size (st.next st.freelist) - n)).setSize
          (st.next st.freelist + (st.size (st.next st.freelist) - n)) n).setCursor st.freelist,
        st.next st.freelist + (st.size (st.next st.freelist) - n) + 1) := by
  rw [malloc_loop_fit usz _ ffuel fuel st _ _ (le_of_lt hS),
    carve_split_eq usz st n _ _ hu hn hS hb]

/-- The first growth of the untouched allocator links the granted span behind the
sentinel. -/
theorem morecore_first (usz base q ffuel n : Nat) (sc : List (Option Nat))
    (hq : base < q) (hn : n < 4096) :
    ∃ st1, morecore usz (ffuel + 1) (init_base base (fresh_state (some q :: sc))) n
        = some (st1, base) ∧
      st1.freelist = base ∧ st1.next base = q ∧ st1.next q = base ∧ st1.size base = 0 ∧
      st1.size q = 4096 ∧ st1.script = sc := by
  have hg : grant n = 4096 := by simp [grant, hn]
  have hqb : q ≠ base := by omega
  have hbq : base ≠ q := by omega
  have hs : (init_base base (fresh_state (some q :: sc))).script.head?.join = some q := by
    simp [fresh_state]
  rw [morecore_some usz (ffuel + 1) _ n q hs, hg]
  generalize hsx : ((sbrk (init_base base (fresh_state (some q :: sc)))
    (sbrk_bytes usz n)).1.setSize q 4096) = sx
  have f1 : sx.freelist = base := by rw [← hsx]; simp [init_base, fresh_state]
  have f2 : sx.next base = base := by rw [← hsx]; simp [init_base, fresh_state]
  have f3 : sx.size base = 0 := by rw [← hsx]; simp [init_base, fresh_state, hbq]
  have f4 : sx.size q = 4096 := by rw [← hsx]; simp
  have f5 : sx.script = sc := by rw [← hsx]; simp [fresh_state]
  have hstop : FreeStop sx q base := by
    right
    rw [f2]
    exact ⟨le_refl _, Or.inl hq⟩
  have hfree : free (ffuel + 1) sx (q + 1) = some (free_link sx q base) := by
    unfold free
    simp only [Nat.add_sub_cancel, f1]
    rw [free_search_stop sx q ffuel base hstop]
    rfl
  rw [hfree]
  refine ⟨free_link sx q base, rfl, rfl, ?_, ?_, ?_, ?_, by simp [f5]⟩
  · rw [free_link_next_pred sx q base hqb, f3, if_neg (by omega)]
  · rw [free_link_next_mem sx q base hqb, f2, f4, if_neg (by omega)]
  · rw [free_link_size_pred sx q base hqb, f3, if_neg (by omega)]
  · rw [free_link_size_mem sx q base hqb, f2, f4, if_neg (by omega)]

theorem free_at_cursor (st : State) (mem fuel : Nat) (h : FreeStop st mem st.freelist) :
    free (fuel + 1) st (mem + 1) = some (free_link st mem st.freelist) := by
  unfold free
  simp only [Nat.add_sub_cancel]
  rw [free_search_stop st mem fuel _ h]
  rfl

theorem free_at_next (st : State) (mem fuel : Nat) (h0 : ¬ FreeStop st mem st.freelist)
    (h : FreeStop st mem (st.next st.freelist)) :
    free (fuel + 2) st (mem + 1) = some (free_link st mem (st.next st.freelist)) := by
  unfold free
  simp only [Nat.add_sub_cancel]
  rw [free_search_step st mem (fuel + 1) _ h0, free_search_stop st mem fuel _ h]
  rfl

theorem free_at_next2 (st : State) (mem fuel : Nat) (h0 : ¬ FreeStop st mem st.freelist)
    (h1 : ¬ FreeStop st mem (st.next st.freelist))
    (h : FreeStop st mem (st.next (st.next st.freelist))) :
    free (fuel + 3) st (mem + 1) = some (free_link st mem (st.next (st.next st.freelist))) := by
  unfold free
  simp only [Nat.add_sub_cancel]
  rw [free_search_step st mem (fuel + 2) _ h0, free_search_step st mem (fuel + 1) _ h1,
    free_search_stop st mem fuel _ h]
  rfl

theorem free_fuel_mono (st : State) (mem : Nat) :
    ∀ (fuel node r : Nat), free_search st mem fuel node = some r →
      free_search st mem (fuel + 1) node = some r := by
  intro fuel
  induction fuel with
  | zero => intro node r h; simp [free_search] at h
  | succ k ih =>
    intro node r h
    rw [free_search] at h ⊢
    split_ifs at h ⊢ with h1 h2
    · exact h
    · exact h
    · exact ih _ _ h

theorem free_fuel_le (st st' : State) (p : Nat) (f1 f2 : Nat) (hle : f1 ≤ f2)
    (h : free f1 st p = some st') : free f2 st p = some st' := by
  obtain ⟨d, rfl⟩ : ∃ d, f2 = f1 + d := ⟨f2 - f1, by omega⟩
  clear hle
  induction d with
  | zero => exact h
  | succ d ih =>
    unfold free at ih ⊢
    simp only [Option.map_eq_some'] at ih ⊢
    obtain ⟨r, hr, e⟩ := ih
    exact ⟨r, free_fuel_mono st _ _ _ r hr, e⟩

/-- A free list made of the sentinel and one more node. -/
theorem reach_two (st : State) (base q : Nat) (hc : st.freelist = q) (h1 : st.next q = base)
    (h2 : st.next base = q) (x : Nat) : Reach st x ↔ (x = base ∨ x = q) := by
  constructor
  · rintro ⟨k, rfl⟩
    have : ∀ k, st.next^[k] st.freelist = base ∨ st.next^[k] st.freelist = q := by
      intro k
      induction k with
      | zero => exact Or.inr hc
      | succ k ih =>
        rw [Function.iterate_succ_apply']
        rcases ih with e | e <;> rw [e]
        · exact Or.inr h2
        · exact Or.inl h1
    exact this k
  · rintro (rfl | rfl)
    · exact ⟨1, by simp [hc, h1]⟩
    · exact ⟨0, hc⟩

/-- A request served by splitting the node `q` right after the cursor `base`. -/
theorem malloc_split_facts (usz base q fuel : Nat) (st : State) (nbytes : Nat)
    (hu : 0 < usz) (h1 : 1 ≤ nunits usz nbytes)
    (hb : base ≠ 0) (hc : st.freelist = base) (hnb : st.next base = q)
    (hS : nunits usz nbytes < st.size q) (hbq : (q + st.size q) * usz < UINT_MOD) :
    ∃ st', malloc usz base (fuel + 1) st nbytes
        = some (st', q + (st.size q - nunits usz nbytes) + 1) ∧
      st'.freelist = base ∧ st'.next = st.next ∧
      st'.size q = st.size q - nunits usz nbytes ∧
      st'.size (q + (st.size q - nunits usz nbytes)) = nunits usz nbytes ∧
      ∀ x, x ≠ q → x ≠ q + (st.size q - nunits usz nbytes) → st'.size x = st.size x := by
  have hi : init_base base st = st := by simp [init_base, hc, hb]
  have hS' : nunits usz nbytes < st.size (st.next st.freelist) := by rw [hc, hnb]; exact hS
  have hm := malloc_loop_split_next usz (nunits usz nbytes) (fuel + 1) fuel st hu h1 hS'
    (by rw [hc, hnb]; exact hbq)
  rw [hc, hnb] at hm
  refine ⟨((st.setSize q (st.size q - nunits usz nbytes)).setSize
    (q + (st.size q - nunits usz nbytes)) (nunits usz nbytes)).setCursor base,
    ?_, rfl, rfl, ?_, ?_, ?_⟩
  · unfold malloc
    simp only [hi]
    rw [hc, hnb]
    exact hm
  · have : q ≠ q + (st.size q - nunits usz nbytes) := by omega
    simp [this]
  · simp
  · intro x h1 h2
    simp [h1, h2]

/-- The first request on the untouched allocator: the sentinel is initialised, one
span of 4096 units is obtained from `sbrk` and linked behind the sentinel, and the
request is carved from its tail. -/
theorem malloc_first (usz base q fuel : Nat) (sc : List (Option Nat)) (nbytes : Nat)
    (hu : 0 < usz) (hb : 0 < base) (hq : base < q) (hn : nunits usz nbytes < 4096)
    (h1 : 1 ≤ nunits usz nbytes) (hbq : (q + 4096) * usz < UINT_MOD) :
    ∃ st', malloc usz base (fuel + 2) (fresh_state (some q :: sc)) nbytes
        = some (st', q + (4096 - nunits usz nbytes) + 1) ∧
      st'.freelist = base ∧ st'.next base = q ∧ st'.next q = base ∧ st'.size base = 0 ∧
      st'.size q = 4096 - nunits usz nbytes ∧
      st'.size (q + (4096 - nunits usz nbytes)) = nunits usz nbytes := by
  obtain ⟨st1, hm, f1, f2, f3, f4, f5, _⟩ :=
    morecore_first usz base q (fuel + 1) (nunits usz nbytes) sc hq hn
  have hS : nunits usz nbytes < st1.size (st1.next st1.freelist) := by
    rw [f1, f2, f5]; exact hn
  have hl := malloc_loop_split_next usz (nunits usz nbytes) (fuel + 2) fuel st1 hu h1 hS
    (by rw [f1, f2, f5]; exact hbq)
  rw [f1, f2, f5] at hl
  have g1 : (init_base base (fresh_state (some q :: sc))).freelist = base := by
    simp [init_base, fresh_state]
  have g2 : (init_base base (fresh_state (some q :: sc))).next base = base := by
    simp [init_base, fresh_state]
  have g3 : (init_base base (fresh_state (some q :: sc))).size
      (init_base base (fresh_state (some q :: sc))).freelist < nunits usz nbytes := by
    rw [g1]
    simp [init_base, fresh_state]
    omega
  have hb0 : base ≠ 0 := by omega
  have hqb : base ≠ q := by omega
  refine ⟨((st1.setSize q (4096 - nunits usz nbytes)).setSize
    (q + (4096 - nunits usz nbytes)) (nunits usz nbytes)).setCursor base,
    ?_, rfl, ?_, ?_, ?_, ?_, ?_⟩
  · unfold malloc
    simp only
    have hg := malloc_loop_grow usz (nunits usz nbytes) (fuel + 2) (fuel + 1)
      (init_base base (fresh_state (some q :: sc))) st1 base base g3 hm
    rw [g1] at hg
    rw [g1, g2, hg, if_neg hb0, f2]
    exact hl
  · simpa using f2
  · simpa using f3
  · have : base ≠ q + (4096 - nunits usz nbytes) := by omega
    simp [hqb, this, f4]
  · have : q ≠ q + (4096 - nunits usz nbytes) := by omega
    simp [this]
  · simp

/-! ## Three adjacent blocks carved from one node

The node `q` of size `r` is followed by three allocated blocks of `n` units each, at
`q + r`, `q + r + n` and `q + r + n + n`; the free list is `base -> q -> base`. -/

theorem release_middle_first (base q n r k : Nat) (st : State)
    (hq : base < q) (h1 : 1 ≤ n) (hr : 1 ≤ r)
    (F0 : st.freelist = base) (Nb : st.next base = q) (Nq : st.next q = base)
    (Sb : st.size base = 0) (Sq : st.size q = r) (Sc : st.size (q + r) = n)
    (Sm : st.size (q + r + n) = n) (Sa : st.size (q + r + n + n) = n) :
    ∃ s, free (k + 3) st (q + r + n + 1) = some s ∧ s.freelist = q ∧ s.next base = q ∧
      s.next q = q + r + n ∧ s.next (q + r + n) = base ∧ s.size base = 0 ∧ s.size q = r ∧
      s.size (q + r) = n ∧ s.size (q + r + n) = n ∧ s.size (q + r + n + n) = n := by
  have hf : free (k + 3) st (q + r + n + 1) = some (free_link st (q + r + n) q) := by
    have := free_at_next st (q + r + n) (k + 1)
      (by rw [F0]; unfold FreeStop; rw [Nb]; omega)
      (by rw [F0, Nb]; unfold FreeStop; rw [Nq]; omega)
    rw [F0, Nb] at this
    exact this
  refine ⟨_, hf, free_link_freelist _ _ _, ?_, ?_, ?_, ?_, ?_, ?_, ?_, ?_⟩
  · rw [free_link_next_of_ne _ _ _ _ (by omega) (by omega), Nb]
  · rw [free_link_next_pred _ _ _ (by omega), Sq, if_neg (by omega)]
  · rw [free_link_next_mem _ _ _ (by omega), Nq, Sm, if_neg (by omega)]
  · rw [free_link_size_of_ne _ _ _ _ (by omega) (by omega), Sb]
  · rw [free_link_size_pred _ _ _ (by omega), Sq, if_neg (by omega)]
  · rw [free_link_size_of_ne _ _ _ _ (by omega) (by omega), Sc]
  · rw [free_link_size_mem _ _ _ (by omega), Nq, Sm, if_neg (by omega)]
  · rw [free_link_size_of_ne _ _ _ _ (by omega) (by omega), Sa]

theorem release_upper_second (base q n r k : Nat) (st : State)
    (hq : base < q) (h1 : 1 ≤ n) (hr : 1 ≤ r) (h3 : r + n + n + n ≤ 4096)
    (F0 : st.freelist = q) (Nb : st.next base = q) (Nq : st.next q = q + r + n)
    (Nm : st.next (q + r + n) = base)
    (Sb : st.size base = 0) (Sq : st.size q = r) (Sc : st.size (q + r) = n)
    (Sm : st.size (q + r + n) = n) (Sa : st.size (q + r + n + n) = n) :
    ∃ s, free (k + 3) st (q + r + n + n + 1) = some s ∧ s.freelist = q + r + n ∧
      s.next base = q ∧ s.next q = q + r + n ∧ s.next (q + r + n) = base ∧ s.size base = 0 ∧
      s.size q = r ∧ s.size (q + r) = n ∧ s.size (q + r + n) = n + n := by
  have hM := uint_mod_eq
  have hf : free (k + 3) st (q + r + n + n + 1)
      = some (free_link st (q + r + n + n) (q + r + n)) := by
    have := free_at_next st (q + r + n + n) (k + 1)
      (by rw [F0]; unfold FreeStop; rw [Nq]; omega)
      (by rw [F0, Nq]; unfold FreeStop; rw [Nm]; omega)
    rw [F0, Nq] at this
    exact this
  have e1 : (free_link st (q + r + n + n) (q + r + n)).size (q + r + n + n) = n := by
    rw [free_link_size_mem _ _ _ (by omega), Nm, Sa, if_neg (by omega)]
  have e2 : (free_link st (q + r + n + n) (q + r + n)).next (q + r + n + n) = base := by
    rw [free_link_next_mem _ _ _ (by omega), Nm, Sa, if_neg (by omega)]
  refine ⟨_, hf, free_link_freelist _ _ _, ?_, ?_, ?_, ?_, ?_, ?_, ?_⟩
  · rw [free_link_next_of_ne _ _ _ _ (by omega) (by omega), Nb]
  · rw [free_link_next_of_ne _ _ _ _ (by omega) (by omega), Nq]
  · rw [free_link_next_pred _ _ _ (by omega), Sm, if_pos (by omega), e2]
  · rw [free_link_size_of_ne _ _ _ _ (by omega) (by omega), Sb]
  · rw [free_link_size_of_ne _ _ _ _ (by omega) (by omega), Sq]
  · rw [free_link_size_of_ne _ _ _ _ (by omega) (by omega), Sc]
  · rw [free_link_size_pred _ _ _ (by omega), Sm, if_pos (by omega), e1, hM]
    omega

theorem release_lower_third (base q n r k : Nat) (st : State)
    (hq : base < q) (h1 : 1 ≤ n) (hr : 1 ≤ r) (h3 : r + n + n + n ≤ 4096)
    (F0 : st.freelist = q + r + n) (Nb : st.next base = q) (Nq : st.next q = q + r + n)
    (Nm : st.next (q + r + n) = base)
    (Sb : st.size base = 0) (Sq : st.size q = r) (Sc : st.size (q + r) = n)
    (Sm : st.size (q + r + n) = n + n) :
    ∃ s, free (k + 3) st (q + r + 1) = some s ∧ s.freelist = q ∧ s.next base = q ∧
      s.next q = base ∧ s.size base = 0 ∧ s.size q = r + n + n + n := by
  have hM := uint_mod_eq
  have hf : free (k + 3) st (q + r + 1) = some (free_link st (q + r) q) := by
    have := free_at_next2 st (q + r) k
      (by rw [F0]; unfold FreeStop; rw [Nm]; omega)
      (by rw [F0, Nm]; unfold FreeStop; rw [Nb]; omega)
      (by rw [F0, Nm, Nb]; unfold FreeStop; rw [Nq]; omega)
    rw [F0, Nm, Nb] at this
    exact this
  have e1 : (free_link st (q + r) q).size (q + r) = n + n + n := by
    rw [free_link_size_mem _ _ _ (by omega), Nq, Sc, if_pos (by omega), Sm, hM]
    omega
  have e2 : (free_link st (q + r) q).next (q + r) = base := by
    rw [free_link_next_mem _ _ _ (by omega), Nq, Sc, if_pos (by omega), Nm]
  refine ⟨_, hf, free_link_freelist _ _ _, ?_, ?_, ?_, ?_⟩
  · rw [free_link_next_of_ne _ _ _ _ (by omega) (by omega), Nb]
  · rw [free_link_next_pred _ _ _ (by omega), Sq, if_pos (by omega), e2]
  · rw [free_link_size_of_ne _ _ _ _ (by omega) (by omega), Sb]
  · rw [free_link_size_pred _ _ _ (by omega), Sq, if_pos (by omega), e1, hM]
    omega

theorem release_lower_first (base q n r k : Nat) (st : State)
    (hq : base < q) (h1 : 1 ≤ n) (hr : 1 ≤ r) (h3 : r + n + n + n ≤ 4096)
    (F0 : st.freelist = base) (Nb : st.next base = q) (Nq : st.next q = base)
    (Sb : st.size base = 0) (Sq : st.size q = r) (Sc : st.size (q + r) = n)
    (Sm : st.size (q + r + n) = n) (Sa : st.size (q + r + n + n) = n) :
    ∃ s, free (k + 3) st (q + r + 1) = some s ∧ s.freelist = q ∧ s.next base = q ∧
      s.next q = base ∧ s.size base = 0 ∧ s.size q = r + n ∧
      s.size (q + r + n) = n ∧ s.size (q + r + n + n) = n := by
  have hM := uint_mod_eq
  have hf : free (k + 3) st (q + r + 1) = some (free_link st (q + r) q) := by
    have := free_at_next st (q + r) (k + 1)
      (by rw [F0]; unfold FreeStop; rw [Nb]; omega)
      (by rw [F0, Nb]; unfold FreeStop; rw [Nq]; omega)
    rw [F0, Nb] at this
    exact this
  have e1 : (free_link st (q + r) q).size (q + r) = n := by
    rw [free_link_size_mem _ _ _ (by omega), Nq, Sc, if_neg (by omega)]
  have e2 : (free_link st (q + r) q).next (q + r) = base := by
    rw [free_link_next_mem _ _ _ (by omega), Nq, Sc, if_neg (by omega)]
  refine ⟨_, hf, free_link_freelist _ _ _, ?_, ?_, ?_, ?_, ?_, ?_⟩
  · rw [free_link_next_of_ne _ _ _ _ (by omega) (by omega), Nb]
  · rw [free_link_next_pred _ _ _ (by omega), Sq, if_pos (by omega), e2]
  · rw [free_link_size_of_ne _ _ _ _ (by omega) (by omega), Sb]
  · rw [free_link_size_pred _ _ _ (by omega), Sq, if_pos (by omega), e1, hM]
    omega
  · rw [free_link_size_of_ne _ _ _ _ (by omega) (by omega), Sm]
  · rw [free_link_size_of_ne _ _ _ _ (by omega) (by omega), Sa]

theorem release_upper_after_lower (base q n r k : Nat) (st : State)
    (hq : base < q) (h1 : 1 ≤ n) (hr : 1 ≤ r)
    (F0 : st.freelist = q) (Nb : st.next base = q) (Nq : st.next q = base)
    (Sb : st.size base = 0) (Sq : st.size q = r + n)
    (Sm : st.size (q + r + n) = n) (Sa : st.size (q + r + n + n) = n) :
    ∃ s, free (k + 3) st (q + r + n + n + 1) = some s ∧ s.freelist = q ∧ s.next base = q ∧
      s.next q = q + r + n + n ∧ s.next (q + r + n + n) = base ∧ s.size base = 0 ∧
      s.size q = r + n ∧ s.size (q + r + n) = n ∧ s.size (q + r + n + n) = n := by
  have hf : free (k + 3) st (q + r + n + n + 1) = some (free_link st (q + r + n + n) q) := by
    have := free_at_cursor st (q + r + n + n) (k + 2)
      (by rw [F0]; unfold FreeStop; rw [Nq]; omega)
    rw [F0] at this
    exact this
  refine ⟨_, hf, free_link_freelist _ _ _, ?_, ?_, ?_, ?_, ?_, ?_, ?_⟩
  · rw [free_link_next_of_ne _ _ _ _ (by omega) (by omega), Nb]
  · rw [free_link_next_pred _ _ _ (by omega), Sq, if_neg (by omega)]
  · rw [free_link_next_mem _ _ _ (by omega), Nq, Sa, if_neg (by omega)]
  · rw [free_link_size_of_ne _ _ _ _ (by omega) (by omega), Sb]
  · rw [free_link_size_pred _ _ _ (by omega), Sq, if_neg (by omega)]
  · rw [free_link_size_of_ne _ _ _ _ (by omega) (by omega), Sm]
  · rw [free_link_size_mem _ _ _ (by omega), Nq, Sa, if_neg (by omega)]

theorem release_middle_last (base q n r k : Nat) (st : State)
    (hq : base < q) (h1 : 1 ≤ n) (hr : 1 ≤ r) (h3 : r + n + n + n ≤ 4096)
    (F0 : st.freelist = q) (Nb : st.next base = q) (Nq : st.next q = q + r + n + n)
    (Na : st.next (q + r + n + n) = base)
    (Sb : st.size base = 0) (Sq : st.size q = r + n)
    (Sm : st.size (q + r + n) = n) (Sa : st.size (q + r + n + n) = n) :
    ∃ s, free (k + 3) st (q + r + n + 1) = some s ∧ s.freelist = q ∧ s.next base = q ∧
      s.next q = base ∧ s.size base = 0 ∧ s.size q = r + n + n + n := by
  have hM := uint_mod_eq
  have hf : free (k + 3) st (q + r + n + 1) = some (free_link st (q + r + n) q) := by
    have := free_at_cursor st (q + r + n) (k + 2)
      (by rw [F0]; unfold FreeStop; rw [Nq]; omega)
    rw [F0] at this
    exact this
  have e1 : (free_link st (q + r + n) q).size (q + r + n) = n + n := by
    rw [free_link_size_mem _ _ _ (by omega), Nq, Sm, if_pos (by omega), Sa, hM]
    omega
  have e2 : (free_link st (q + r + n) q).next (q + r + n) = base := by
    rw [free_link_next_mem _ _ _ (by omega), Nq, Sm, if_pos (by omega), Na]
  refine ⟨_, hf, free_link_freelist _ _ _, ?_, ?_, ?_, ?_⟩
  · rw [free_link_next_of_ne _ _ _ _ (by omega) (by omega), Nb]
  · rw [free_link_next_pred _ _ _ (by omega), Sq, if_pos (by omega), e2]
  · rw [free_link_size_of_ne _ _ _ _ (by omega) (by omega), Sb]
  · rw [free_link_size_pred _ _ _ (by omega), Sq, if_pos (by omega), e1, hM]
    omega

theorem nunits_sixteen (usz : Nat) (h2 : 2 ≤ usz) : 1 ≤ nunits usz 16 ∧ nunits usz 16 ≤ 9 := by
  refine ⟨nunits_pos usz 16 h2, ?_⟩
  unfold nunits
  rw [uint_mod_eq]
  have h1 : (16 + usz - 1) % 4294967296 ≤ 16 + usz - 1 := Nat.mod_le _ _
  have h3 : (16 + usz - 1) % 4294967296 / usz ≤ (16 + usz - 1) / usz :=
    Nat.div_le_div_right h1
  have h4 : (16 + usz - 1) / usz < 9 := by
    rw [Nat.div_lt_iff_lt_mul (by omega)]
    omega
  have h5 : (16 + usz - 1) % 4294967296 / usz + 1 < 4294967296 := by omega
  rw [Nat.mod_eq_of_lt h5]
  omega

/-- Three equal requests on the untouched allocator are carved, one below the
other, from the tail of the single granted span. -/
theorem three_requests (usz base q k : Nat) (sc : List (Option Nat)) (nbytes n r : Nat)
    (hu : 0 < usz) (hb : 0 < base) (hq : base < q) (hbq : (q + 4096) * usz < UINT_MOD)
    (hn : nunits usz nbytes = n) (h1 : 1 ≤ n) (hr : 1 ≤ r)
    (h3 : r + n + n + n = 4096) :
    ∃ stA stB stC,
      malloc usz base (k + 3) (fresh_state (some q :: sc)) nbytes
        = some (stA, q + r + n + n + 1) ∧
      malloc usz base (k + 3) stA nbytes = some (stB, q + r + n + 1) ∧
      malloc usz base (k + 3) stB nbytes = some (stC, q + r + 1) ∧
      stC.freelist = base ∧ stC.next base = q ∧ stC.next q = base ∧ stC.size base = 0 ∧
      stC.size q = r ∧ stC.size (q + r) = n ∧ stC.size (q + r + n) = n ∧
      stC.size (q + r + n + n) = n := by
  have hb0 : base ≠ 0 := by omega
  obtain ⟨stA, mA, a1, a2, a3, a4, a5, a6⟩ :=
    malloc_first usz base q (k + 1) sc nbytes hu hb hq (by omega) (by omega) hbq
  rw [hn] at mA a5 a6
  have eA : q + (4096 - n) = q + r + n + n := by omega
  have eA' : 4096 - n = r + n + n := by omega
  rw [eA] at mA a6
  rw [eA'] at a5
  obtain ⟨stB, mB, b1, b2, b3, b4, b5⟩ :=
    malloc_split_facts usz base q (k + 2) stA nbytes hu (by omega) hb0 a1 a2
      (by rw [a5, hn]; omega) (by rw [a5]; exact bytes_le (by omega) hbq)
  rw [hn, a5] at mB b3 b4 b5
  have eB : q + (r + n + n - n) = q + r + n := by omega
  have eB' : r + n + n - n = r + n := by omega
  rw [eB] at mB b4 b5
  rw [eB'] at b3
  have b6 : stB.size (q + r + n + n) = n := by
    rw [b5 _ (by omega) (by omega), a6]
  have b7 : stB.size base = 0 := by
    rw [b5 _ (by omega) (by omega), a4]
  have b8 : stB.next base = q := by rw [b2, a2]
  have b9 : stB.next q = base := by rw [b2, a3]
  clear a1 a2 a3 a4 a5 a6 b2 b5
  obtain ⟨stC, mC, c1, c2, c3, c4, c5⟩ :=
    malloc_split_facts usz base q (k + 2) stB nbytes hu (by omega) hb0 b1 b8
      (by rw [b3, hn]; omega) (by rw [b3]; exact bytes_le (by omega) hbq)
  rw [hn, b3] at mC c3 c4 c5
  have eC : q + (r + n - n) = q + r := by omega
  have eC' : r + n - n = r := by omega
  rw [eC] at mC c4 c5
  rw [eC'] at c3
  refine ⟨stA, stB, stC, mA, mB, mC, c1, by rw [c2, b8], by rw [c2, b9], ?_, c3, c4, ?_, ?_⟩
  · rw [c5 _ (by omega) (by omega), b7]
  · rw [c5 _ (by omega) (by omega), b4]
  · rw [c5 _ (by omega) (by omega), b6]

/-! ## Invariants along sequences of calls -/

/-- One legal call from a well-formed state (or from the untouched allocator)
returns and leaves a well-formed, initialised state. -/
theorem step_ok {usz base fuel : Nat} (h2 : 2 ≤ usz) (c : Call) (cs : List Call) (st : State)
    (l al : List Nat) (h : WF usz base (init_base base st) l al) (hz : st.freelist = 0 → al = [])
    (hleg : Legal usz base fuel st al (c :: cs)) (hf : 2 * l.length + 2 ≤ fuel) :
    ∃ st1 al1 l1, step usz base fuel st al c = some (st1, al1) ∧ WF usz base st1 l1 al1 ∧
      l1.length ≤ l.length + 1 ∧ Legal usz base fuel st1 al1 cs ∧
      total (init_base base st) l al ≤ total st1 l1 al1 := by
  obtain ⟨hpre, hnext⟩ := hleg
  cases c with
  | malloc n =>
    obtain ⟨st1, p, hm, hp0, hp1⟩ :=
      @malloc_step_ok usz base fuel st l al n h h2 (hpre l h) hf
    have hstep : step usz base fuel st al (Call.malloc n)
        = some (st1, if p = 0 then al else (p - 1) :: al) := by
      simp [step, hm]
    have hleg1 := hnext _ hstep
    by_cases hp : p = 0
    · obtain ⟨hw1, htot1, _⟩ := hp0 hp
      simp only [hp, if_true] at hstep hleg1
      exact ⟨st1, al, l, hstep, hw1, by omega, hleg1, by omega⟩
    · obtain ⟨l1, hw1, hlen1, htot1⟩ := hp1 hp
      simp only [hp, if_false] at hstep hleg1
      refine ⟨st1, (p - 1) :: al, l1, hstep, hw1, hlen1, hleg1, ?_⟩
      rcases htot1 with ⟨e, _⟩ | ⟨e, _⟩ <;> omega
  | free p =>
    obtain ⟨hp, hmem⟩ := hpre
    have hnz : st.freelist ≠ 0 := by
      intro e
      rw [hz e] at hmem
      simp at hmem
    have hi : init_base base st = st := by simp [init_base, hnz]
    rw [hi] at h ⊢
    obtain ⟨st1, l1, hfree, hw1, _, _, htot, _, hlen, _, _⟩ := free_ok h hmem fuel (by omega)
    have hp1 : p - 1 + 1 = p := by omega
    rw [hp1] at hfree
    have hstep : step usz base fuel st al (Call.free p) = some (st1, al.erase (p - 1)) := by
      simp [step, hfree]
    exact ⟨st1, al.erase (p - 1), l1, hstep, hw1, hlen, hnext _ hstep, by omega⟩

/-- A legal sequence of calls from a well-formed state ends in a well-formed
state. -/
theorem run_wf {usz base fuel : Nat} (h2 : 2 ≤ usz) :
    ∀ (cs : List Call) (st : State) (l al : List Nat), WF usz base st l al →
      Legal usz base fuel st al cs → 2 * (l.length + cs.length) + 2 ≤ fuel →
      ∃ st' al' l', run usz base fuel st al cs = some (st', al') ∧ WF usz base st' l' al' := by
  intro cs
  induction cs with
  | nil =>
    intro st l al h _ _
    exact ⟨st, al, l, rfl, h⟩
  | cons c cs ih =>
    intro st l al h hleg hf
    simp only [List.length_cons] at hf
    have hz : st.freelist = 0 → al = [] := by
      intro e
      have := h.base_le h.cursor
      have := h.base_pos
      omega
    obtain ⟨st1, al1, l1, hstep, hw1, hlen1, hleg1, _⟩ :=
      step_ok h2 c cs st l al (by rw [init_base_of_wf h]; exact h) hz hleg (by omega)
    obtain ⟨st', al', l', hr, hw'⟩ := ih st1 l1 al1 hw1 hleg1 (by omega)
    refine ⟨st', al', l', ?_, hw'⟩
    simp only [run, hstep, Option.some_bind]
    exact hr

/-- A non-empty legal sequence of calls, started in a well-formed state or on the
untouched allocator, ends in a well-formed state. -/
theorem run_wf_init {usz base fuel : Nat} (h2 : 2 ≤ usz) (c : Call) (cs : List Call)
    (st : State) (l al : List Nat) (h : WF usz base (init_base base st) l al)
    (hz : st.freelist = 0 → al = []) (hleg : Legal usz base fuel st al (c :: cs))
    (hf : 2 * (l.length + (c :: cs).length) + 2 ≤ fuel) :
    ∃ st' al' l', run usz base fuel st al (c :: cs) = some (st', al') ∧
      WF usz base st' l' al' := by
  simp only [List.length_cons] at hf
  obtain ⟨st1, al1, l1, hstep, hw1, hlen1, hleg1, _⟩ :=
    step_ok h2 c cs st l al h hz hleg (by omega)
  obtain ⟨st', al', l', hr, hw'⟩ := run_wf h2 cs st1 l1 al1 hw1 hleg1 (by omega)
  refine ⟨st', al', l', ?_, hw'⟩
  simp only [run, hstep, Option.some_bind]
  exact hr

/-- In a well-formed state exactly one node of the free list does not lie below
its successor: the highest one, whose link closes the circle at the sentinel. -/
theorem WF.wrap_edge {usz base : Nat} {st : State} {l al : List Nat} (h : WF usz base st l al) :
    ∃ x, (Reach st x ∧ st.next x ≤ x) ∧ ∀ y, Reach st y ∧ st.next y ≤ y → y = x := by
  have hne : l ≠ [] := by
    intro e
    have := h.head
    rw [e] at this
    simp at this
  obtain ⟨l0, z, e⟩ : ∃ l0 z, l = l0 ++ [z] := by
    refine ⟨l.dropLast, l.getLast hne, ?_⟩
    exact (List.dropLast_append_getLast hne).symm
  have hlk := h.link
  rw [e, Linked_append] at hlk
  have hz : st.next z = base := by simpa [Linked] using hlk.2
  have hzm : z ∈ l := by rw [e]; simp
  refine ⟨z, ⟨(h.reach_iff z).2 hzm, by rw [hz]; exact h.base_le hzm⟩, ?_⟩
  rintro y ⟨hy, hle⟩
  rw [h.reach_iff, e] at hy
  rcases List.mem_append.1 hy with hy0 | hy1
  · have hs := h.sorted
    rw [e, List.pairwise_append] at hs
    have hl0 : Linked st.next l0 z := by simpa using hlk.1
    rcases Linked_next st.next (· < ·) l0 z y hl0 hs.1 hy0 with hn | ⟨_, hn⟩
    · have := hs.2.2 y hy0 z (by simp)
      omega
    · omega
  · simpa using hy1

theorem sample_wf : WF 8 10 sample_state [10, 100] [4187, 4190, 4193] := by
  refine
    { unit_pos := by decide
      base_pos := by decide
      head := rfl
      base_size := by decide
      gap := by simp [sample_state]
      link := by simp [Linked, sample_state]
      cursor := by simp [sample_state]
      fsize := by simp [sample_state]
      fbytes := by simp [sample_state, uint_mod_eq]
      asize := by simp [sample_state]
      abytes := by simp [sample_state, uint_mod_eq]
      alow := by simp
      adisj := by simp [sample_state]
      fdisj := by simp [sample_state] }

/-- Whatever `malloc` returns as a block was produced by `carve` at a node large
enough for the request. -/
theorem malloc_loop_carved (usz n ffuel : Nat) :
    ∀ (fuel : Nat) (st : State) (node prev : Nat) (st' : State) (p : Nat),
      malloc_loop usz n ffuel fuel st node prev = some (st', p) → p ≠ 0 →
      ∃ stc f pv, n ≤ stc.size f ∧ carve usz stc n f pv = (st', p) := by
  intro fuel
  induction fuel with
  | zero => intro st node prev st' p h; simp [malloc_loop] at h
  | succ k ih =>
    intro st node prev st' p h hp
    rw [malloc_loop] at h
    split_ifs at h with h1 h2
    · exact ⟨st, node, prev, h1, Option.some.inj h⟩
    · cases hm : morecore usz ffuel st n with
      | none => rw [hm] at h; simp at h
      | some v =>
        obtain ⟨st1, r⟩ := v
        rw [hm] at h
        simp only at h
        split_ifs at h with h3
        · have := Option.some.inj h
          simp only [Prod.mk.injEq] at this
          exact absurd this.2.symm hp
        · exact ih st1 _ _ st' p h hp
    · exact ih st _ _ st' p h hp

theorem WF.disjoint {usz base : Nat} {st : State} {l al : List Nat} (h : WF usz base st l al)
    (x y : Nat) (hx : Reach st x ∨ x ∈ al) (hy : Reach st y ∨ y ∈ al) (hne : x ≠ y) :
    x + st.size x ≤ y ∨ y + st.size y ≤ x := by
  rw [h.reach_iff] at hx hy
  rcases hx with hx | hx <;> rcases hy with hy | hy
  · rcases h.gap_of_mem hx hy hne with h1 | h1
    · exact Or.inl (le_of_lt h1)
    · exact Or.inr (le_of_lt h1)
  · exact h.fdisj x hx y hy
  · exact (h.fdisj y hy x hx).symm
  · exact h.disj_of_mem hx hy hne

theorem WF.sorted_walk {usz base : Nat} {st : State} {l al : List Nat} (h : WF usz base st l al) :
    l.Pairwise (· < ·) ∧ (∀ x, Reach st x ↔ x ∈ l) ∧ Linked st.next l (l.headD 0) := by
  refine ⟨h.sorted, h.reach_iff, ?_⟩
  have := h.head
  cases l with
  | nil => simp at this
  | cons x r =>
    simp at this
    subst this
    exact h.link

theorem sample_legal :
    Legal 8 10 12 sample_state [4187, 4190, 4193] [Call.free 4191, Call.malloc 16] := by
  refine ⟨⟨by decide, by decide⟩, ?_⟩
  intro r hr
  refine ⟨?_, fun _ _ => trivial⟩
  intro l _ q hq
  simp only [step, Option.map_eq_some'] at hr
  obtain ⟨st1, hfree, e⟩ := hr
  rw [← e] at hq
  simp only [init_base_script] at hq
  rw [(free_script hfree).1] at hq
  simp [sample_state] at hq

theorem sample_inv : WF 8 10 (init_base 10 sample_state) [10, 100] [4187, 4190, 4193] := by
  rw [init_base_of_wf sample_wf]
  exact sample_wf

/-! ## The insertion point on a sorted ring -/

/-- On a sorted ring exactly one node satisfies the exit condition of the search
loop of `free`, whatever the address `mem` outside the ring. -/
theorem stop_unique (st : State) (mem h : Nat) (l : List Nat) (hh : l.head? = some h)
    (hs : l.Pairwise (· < ·)) (hl : Linked st.next l h) (hm : mem ∉ l) :
    ∃ pred, pred ∈ l ∧ FreeStop st mem pred ∧ ∀ x ∈ l, FreeStop st mem x → x = pred := by
  have hle := head_le_of_sorted l h hh hs
  have hhm : h ∈ l := by
    cases l with
    | nil => simp at hh
    | cons y r => simp at hh; simp [hh]
  by_cases hlt : h < mem
  · -- `mem` lies above the lowest node
    obtain ⟨l1, pred, l2, e, h1, h2, h3⟩ := split_around mem l h hh hlt hs hm
    subst e
    have hl' := hl
    rw [Linked_append] at hl'
    simp only [List.headD_cons] at hl'
    obtain ⟨hl1, hl2⟩ := hl'
    have hs' := hs
    rw [List.pairwise_append] at hs'
    obtain ⟨hs1, hs2, hs3⟩ := hs'
    rw [List.pairwise_cons] at hs2
    refine ⟨pred, by simp, ?_, ?_⟩
    · have hn : st.next pred = l2.headD h := hl2.1
      cases l2 with
      | nil =>
        right
        simp at hn
        exact ⟨by rw [hn]; exact hle pred (by simp), Or.inl h2⟩
      | cons y r =>
        left
        simp at hn
        exact ⟨h2, by rw [hn]; exact h3 y (by simp)⟩
    · intro x hx hstop
      by_contra hne
      rcases List.mem_append.1 hx with hx1 | hx2
      · have hxp := h1 x hx1
        rcases Linked_next st.next (· < ·) l1 pred x hl1 hs1 hx1 with hn | ⟨hn1, hn2⟩
        · rcases hstop with ⟨_, hb⟩ | ⟨hb, _⟩ <;> rw [hn] at hb <;> omega
        · have := h1 _ hn1
          rcases hstop with ⟨_, hb⟩ | ⟨hb, _⟩ <;> omega
      · rcases List.mem_cons.1 hx2 with rfl | hx2
        · exact hne rfl
        · have hax := h3 x hx2
          rcases Linked_next st.next (· < ·) l2 h x hl2.2 hs2.2 hx2 with hn | ⟨hn1, hn2⟩
          · rcases hstop with ⟨hb, _⟩ | ⟨_, hb⟩
            · omega
            · rw [hn] at hb; omega
          · rcases hstop with ⟨hb, _⟩ | ⟨hb, _⟩ <;> omega
  · -- `mem` lies below every node: it belongs at the wrap edge
    have hmh : mem < h := by
      have : mem ≠ h := fun e => hm (e ▸ hhm)
      omega
    have hne : l ≠ [] := by
      intro e
      rw [e] at hh
      simp at hh
    obtain ⟨l0, z, e⟩ : ∃ l0 z, l = l0 ++ [z] :=
      ⟨l.dropLast, l.getLast hne, (List.dropLast_append_getLast hne).symm⟩
    have hlk := hl
    rw [e, Linked_append] at hlk
    have hz : st.next z = h := by simpa [Linked] using hlk.2
    have hzm : z ∈ l := by rw [e]; simp
    refine ⟨z, hzm, Or.inr ⟨by rw [hz]; exact hle z hzm, Or.inr (by rw [hz]; exact hmh)⟩, ?_⟩
    intro x hx hstop
    rw [e] at hx
    rcases List.mem_append.1 hx with hx0 | hx1
    · have hs' := hs
      rw [e, List.pairwise_append] at hs'
      have hl0 : Linked st.next l0 z := by simpa using hlk.1
      have hxh := hle x (by rw [e]; exact List.mem_append_left _ hx0)
      rcases Linked_next st.next (· < ·) l0 z x hl0 hs'.1 hx0 with hn | ⟨_, hn⟩
      · have := hs'.2.2 x hx0 z (by simp)
        rcases hstop with ⟨hb, _⟩ | ⟨hb, _⟩
        · omega
        · rw [hn] at hb; omega
      · rcases hstop with ⟨hb, _⟩ | ⟨hb, _⟩ <;> omega
    · simpa using hx1

/-- From any node of a ring the search loop of `free` reaches the one node that
satisfies its exit condition. -/
theorem free_search_from (st : State) (mem h pred c : Nat) (l : List Nat)
    (hh : l.head? = some h) (hnd : l.Nodup) (hl : Linked st.next l h) (hp : pred ∈ l)
    (hstop : FreeStop st mem pred) (huniq : ∀ x ∈ l, FreeStop st mem x → x = pred)
    (hc : c ∈ l) (fuel : Nat) (hf : l.length ≤ fuel) :
    free_search st mem fuel c = some pred := by
  obtain ⟨A, B, eAB⟩ := List.append_of_mem hc
  have hrot : Linked st.next (c :: B ++ A) c :=
    Linked_rotate st.next A B c h (eAB ▸ hl) (eAB ▸ hh)
  have hperm : (c :: B ++ A).Perm l := by
    rw [eAB]
    exact List.perm_append_comm
  have hnd' : (c :: B ++ A).Nodup := hperm.nodup_iff.2 hnd
  have hpm : pred ∈ c :: B ++ A := hperm.mem_iff.2 hp
  obtain ⟨w, rest, ew⟩ := List.append_of_mem hpm
  rw [ew] at hrot hnd'
  have hw : Linked st.next w pred := by
    have := (Linked_append st.next w (pred :: rest) c).1 hrot
    simpa using this.1
  have hwn : ∀ x ∈ w, ¬ FreeStop st mem x := by
    intro x hx hsx
    have hxl : x ∈ l := by
      apply hperm.mem_iff.1
      rw [ew]
      exact List.mem_append_left _ hx
    have := huniq x hxl hsx
    subst this
    exact (List.nodup_append.1 hnd').2.2 hx (by simp)
  have hlen : w.length < fuel := by
    have h1 := hperm.length_eq
    rw [ew] at h1
    simp at h1
    omega
  have hhead : w.headD pred = c := by
    cases w with
    | nil => simp at ew ⊢; exact ew.1.symm
    | cons z w' => simp at ew ⊢; exact ew.1.symm
  have := free_search_walk st mem pred hstop w fuel hw hwn hlen
  rwa [hhead] at this

theorem grant_eq_max (nu : Nat) : grant nu = max nu 4096 := by
  unfold grant
  split_ifs with h
  · exact (Nat.max_eq_right (by omega)).symm
  · exact (Nat.max_eq_left (by omega)).symm

theorem free_search_congr (st st' : State) (mem : Nat) (h : st'.next = st.next) :
    ∀ (fuel node : Nat), free_search st' mem fuel node = free_search st mem fuel node := by
  intro fuel
  induction fuel with
  | zero => intro node; rfl
  | succ k ih =>
    intro node
    simp only [free_search, h, ih]

/-- Following `next` from the first node of a chain for as many steps as there are
nodes before `y` leads to `y`. -/
theorem Linked_nth (nx : Nat → Nat) (e : Nat) (w w1 w2 : List Nat) (y : Nat)
    (hl : Linked nx w e) (hw : w = w1 ++ y :: w2) : nx^[w1.length] (w.headD e) = y := by
  subst hw
  rw [Linked_append] at hl
  have h1 : Linked nx w1 y := by simpa using hl.1
  have h2 := Linked_iterate nx y w1 h1
  have h3 : (w1 ++ y :: w2).headD e = w1.headD y := by cases w1 <;> simp
  rw [h3]
  exact h2

theorem append_singleton_split {α : Type} (L w rest : List α) (c : α) (hc : c ∉ L)
    (e : L ++ [c] = w ++ c :: rest) : rest = [] ∧ w = L := by
  rcases List.eq_nil_or_concat rest with rfl | ⟨r', z, rfl⟩
  · exact ⟨rfl, (List.append_cancel_right e).symm⟩
  · exfalso
    have e2 : L ++ [c] = (w ++ c :: r') ++ [z] := by
      rw [e]; simp
    have := List.append_inj_left' e2 rfl
    apply hc
    rw [this]
    simp

/-- The node that serves a request, by its position in the scan order `w ++ f :: rest`
(the nodes after the cursor, then the cursor): the nodes of `w` are too small and are
passed over first. -/
theorem scan_fit_pos {usz base : Nat} {st : State} {l al : List Nat} (h : WF usz base st l al)
    (n ffuel fuel : Nat) (hfit : ∃ x ∈ l, n ≤ st.size x) (hf : l.length ≤ fuel) :
    ∃ A B w rest, l = A ++ st.freelist :: B ∧
      B ++ A ++ [st.freelist] = w ++ st.next^[w.length + 1] st.freelist :: rest ∧
      (∀ j, j < w.length → st.size (st.next^[j + 1] st.freelist) < n) ∧
      n ≤ st.size (st.next^[w.length + 1] st.freelist) ∧
      malloc_loop usz n ffuel fuel st (st.next st.freelist) st.freelist
        = some (carve usz st n (st.next^[w.length + 1] st.freelist)
            (st.next^[w.length] st.freelist)) := by
  obtain ⟨A, B, w, f, rest, e, ew, hsmall, hbig, _, _, hm⟩ := scan_fit h n ffuel fuel hfit hf
  have hrot := Linked_rotate st.next A B st.freelist base (e ▸ h.link) (e ▸ h.head)
  rw [List.cons_append] at hrot
  have hV : Linked st.next (B ++ A ++ [st.freelist]) (st.next st.freelist) := by
    rw [Linked_append]
    exact ⟨by simpa using hrot.2, rfl, trivial⟩
  have hVh : (B ++ A ++ [st.freelist]).headD (st.next st.freelist) = st.next st.freelist := by
    have := hrot.1
    cases hBA : B ++ A with
    | nil => rw [hBA] at this; simpa using this.symm
    | cons y r => rw [hBA] at this; simpa using this.symm
  have hpos : ∀ (w1 w2 : List Nat) (y : Nat), B ++ A ++ [st.freelist] = w1 ++ y :: w2 →
      st.next^[w1.length + 1] st.freelist = y := by
    intro w1 w2 y hw
    rw [Function.iterate_succ_apply, ← hVh]
    exact Linked_nth st.next _ _ w1 w2 y hV hw
  refine ⟨A, B, w, rest, e, ?_, ?_, ?_, ?_⟩
  · rw [hpos w rest f ew]
    exact ew
  · intro j hj
    have hjw : j < w.length := hj
    have hsplit : w = w.take j ++ w[j] :: w.drop (j + 1) := by
      rw [← List.drop_eq_getElem_cons hjw, List.take_append_drop]
    have hw : B ++ A ++ [st.freelist]
        = w.take j ++ w[j] :: (w.drop (j + 1) ++ f :: rest) := by
      rw [ew]
      exact (congrArg (fun v => v ++ f :: rest) hsplit).trans
        (by simp only [List.append_assoc, List.cons_append])
    have := hpos _ _ _ hw
    rw [List.length_take, Nat.min_eq_left (Nat.le_of_lt hjw)] at this
    rw [this]
    exact hsmall _ (List.getElem_mem _)
  · rw [hpos w rest f ew]
    exact hbig
  · rw [hm, hpos w rest f ew]
    congr 2
    cases hwl : w.reverse with
    | nil =>
      have : w = [] := by simpa using hwl
      subst this
      rfl
    | cons z r =>
      have hw' : w = r.reverse ++ [z] := by
        have := congrArg List.reverse hwl
        simpa using this
      have hw : B ++ A ++ [st.freelist] = r.reverse ++ z :: (f :: rest) := by
        rw [ew, hw']; simp
      have := hpos _ _ _ hw
      rw [hw']
      simp only [List.length_append, List.length_reverse, List.length_singleton]
      rw [List.length_reverse] at this
      rw [this]
      simp [List.getLastD_eq_getLast?]

/-- The node that serves a request, by its position in the scan: `k` nodes too
small are passed over first, starting with the node after the cursor. -/
theorem scan_fit_index {usz base : Nat} {st : State} {l al : List Nat} (h : WF usz base st l al)
    (n ffuel fuel : Nat) (hfit : ∃ x ∈ l, n ≤ st.size x) (hf : l.length ≤ fuel) :
    ∃ k, k < l.length ∧ (∀ j, j < k → st.size (st.next^[j + 1] st.freelist) < n) ∧
      n ≤ st.size (st.next^[k + 1] st.freelist) ∧
      malloc_loop usz n ffuel fuel st (st.next st.freelist) st.freelist
        = some (carve usz st n (st.next^[k + 1] st.freelist) (st.next^[k] st.freelist)) := by
  obtain ⟨A, B, w, rest, e, ew, h1, h2, h3⟩ := scan_fit_pos h n ffuel fuel hfit hf
  have hlen : w.length < l.length := by
    have h1 : (B ++ A ++ [st.freelist]).length = l.length := by
      rw [e]; simp; omega
    rw [ew] at h1
    simp at h1
    omega
  exact ⟨w.length, hlen, h1, h2, h3⟩

/-- When the cursor is the only free node large enough, the scan passes over every
other node of the list and serves the request from the cursor, the last node of
the pass. -/
theorem scan_cursor_last {usz base : Nat} {st : State} {l al : List Nat}
    (h : WF usz base st l al) (n ffuel fuel : Nat)
    (hsmall : ∀ x ∈ l, x ≠ st.freelist → st.size x < n) (hbig : n ≤ st.size st.freelist)
    (hf : l.length ≤ fuel) :
    (∀ j, j + 1 < l.length → st.size (st.next^[j + 1] st.freelist) < n) ∧
      st.next^[l.length] st.freelist = st.freelist ∧
      malloc_loop usz n ffuel fuel st (st.next st.freelist) st.freelist
        = some (carve usz st n st.freelist (st.next^[l.length - 1] st.freelist)) := by
  obtain ⟨A, B, w, rest, e, ew, h1, h2, h3⟩ :=
    scan_fit_pos h n ffuel fuel ⟨st.freelist, h.cursor, hbig⟩ hf
  have hnd := h.nodup
  rw [e] at hnd
  have hcBA : st.freelist ∉ B ++ A := by
    intro hc
    have h3 := List.nodup_middle.1 hnd
    rw [List.nodup_cons] at h3
    apply h3.1
    simp only [List.mem_append] at hc ⊢
    tauto
  have hfc : st.next^[w.length + 1] st.freelist = st.freelist := by
    have hmem : st.next^[w.length + 1] st.freelist ∈ B ++ A ++ [st.freelist] := by
      rw [ew]; simp
    rw [List.mem_append, List.mem_singleton] at hmem
    rcases hmem with hm | hm
    · exfalso
      have hne : st.next^[w.length + 1] st.freelist ≠ st.freelist := by
        intro e2
        rw [e2] at hm
        exact hcBA hm
      have hl : st.next^[w.length + 1] st.freelist ∈ l := by
        rw [e]
        simp only [List.mem_append, List.mem_cons] at hm ⊢
        tauto
      have := hsmall _ hl hne
      omega
    · exact hm
  rw [hfc] at ew
  obtain ⟨_, hw⟩ := append_singleton_split (B ++ A) w rest st.freelist hcBA ew
  have hlen : l.length = w.length + 1 := by
    rw [e, hw]; simp; omega
  rw [hlen]
  refine ⟨fun j hj => h1 j (by omega), hfc, ?_⟩
  rw [h3, hfc]
  rfl

theorem next_fit_wf : WF 8 10 next_fit_state [10, 100, 200] [] := by
  refine
    { unit_pos := by decide
      base_pos := by decide
      head := rfl
      base_size := by decide
      gap := by simp [next_fit_state]
      link := by simp [Linked, next_fit_state]
      cursor := by simp [next_fit_state]
      fsize := by simp [next_fit_state]
      fbytes := by simp [next_fit_state, uint_mod_eq]
      asize := by simp
      abytes := by simp
      alow := by simp
      adisj := by simp
      fdisj := by simp }

/-- When no free node is large enough, the loop of `malloc` calls `morecore` in its
iteration number `l.length`, at the cursor. -/
theorem scan_reaches_morecore {usz base : Nat} {st : State} {l al : List Nat}
    (h : WF usz base st l al) (n ffuel m : Nat) (hno : ∀ x ∈ l, st.size x < n) :
    malloc_loop usz n ffuel (m + l.length) st (st.next st.freelist) st.freelist
      = (morecore usz ffuel st n).bind (fun r =>
          if r.2 = 0 then some (r.1, 0) else malloc_loop usz n ffuel m r.1 (r.1.next r.2) r.2) := by
  obtain ⟨prev, e⟩ := scan_nofit h n ffuel m hno
  rw [e]
  cases hm : morecore usz ffuel st n with
  | none =>
    rw [malloc_loop, if_neg (by have := hno _ h.cursor; omega), if_pos rfl, hm]
    rfl
  | some v =>
    obtain ⟨st1, r⟩ := v
    rw [malloc_loop_grow usz n ffuel m st st1 prev r (hno _ h.cursor) hm]
    rfl

/-- The loop of `malloc` in a well-formed state, iteration by iteration: a fitting
node is found within `l.length` iterations; otherwise `morecore` is called in
iteration `l.length`, and after a successful growth a block is returned within one
pass over the grown list, without a second call. -/
theorem malloc_loop_bounded {usz base : Nat} {st : State} {l al : List Nat}
    (h : WF usz base st l al) (n ffuel : Nat) (hn : 1 ≤ n) (hok : SbrkOk usz base st l al n)
    (hff : l.length ≤ ffuel) :
    ((∃ x ∈ l, n ≤ st.size x) → ∀ m, ∃ st' p,
        malloc_loop usz n ffuel (m + l.length) st (st.next st.freelist) st.freelist
          = some (st', p) ∧ p ≠ 0 ∧ st'.requests = st.requests) ∧
      ((∀ x ∈ l, st.size x < n) → st.script.head?.join = none → ∀ m,
        malloc_loop usz n ffuel (m + l.length) st (st.next st.freelist) st.freelist
          = some ((sbrk st (sbrk_bytes usz n)).1, 0)) ∧
      ((∀ x ∈ l, st.size x < n) → ∀ q, st.script.head?.join = some q →
        ∃ stc lc, morecore usz ffuel st n = some (stc, stc.freelist) ∧ WF usz base stc lc al ∧
          lc.length ≤ l.length + 1 ∧ stc.requests = st.requests ++ [sbrk_bytes usz n] ∧
          ∀ m, ∃ st' p,
            malloc_loop usz n ffuel (m + lc.length) stc (stc.next stc.freelist) stc.freelist
              = some (st', p) ∧
            malloc_loop usz n ffuel (m + lc.length + l.length) st (st.next st.freelist)
              st.freelist = some (st', p) ∧
            p ≠ 0 ∧ st'.requests = st.requests ++ [sbrk_bytes usz n]) := by
  refine ⟨?_, ?_, ?_⟩
  · intro hfit m
    obtain ⟨st', p, l', hl, hp, hrq, _⟩ :=
      malloc_loop_fit_ok h n ffuel (m + l.length) hn hfit (by omega)
    exact ⟨st', p, hl, hp, hrq⟩
  · intro hno hs m
    rw [scan_reaches_morecore h n ffuel m hno, morecore_fail usz ffuel st n hs]
    rfl
  · intro hno q hs
    obtain ⟨st1, l1, hm, hw1, hrq, _, _, _, hbig, hlen, _⟩ :=
      morecore_ok h ffuel n hs (hok q hs).2 hff
    have hr : st1.freelist ≠ 0 := by
      have := hw1.base_le hw1.cursor
      have := hw1.base_pos
      omega
    have hfit : ∃ x ∈ l1, n ≤ st1.size x := by
      obtain ⟨x, hx, hxs⟩ := hbig
      exact ⟨x, hx, le_trans (grant_ge n).1 hxs⟩
    refine ⟨st1, l1, hm, hw1, hlen, hrq, ?_⟩
    intro m
    obtain ⟨st', p, l', hl, hp, hrq', _⟩ :=
      malloc_loop_fit_ok hw1 n ffuel (m + l1.length) hn hfit (by omega)
    refine ⟨st', p, hl, ?_, hp, by rw [hrq', hrq]⟩
    rw [scan_reaches_morecore h n ffuel (m + l1.length) hno, hm]
    simp only [Option.some_bind, if_neg hr]
    exact hl

theorem abutting_wf : WF 8 10 abutting_state [10, 100] [] := by
  refine
    { unit_pos := by decide
      base_pos := by decide
      head := rfl
      base_size := by decide
      gap := by simp [abutting_state]
      link := by simp [Linked, abutting_state]
      cursor := by simp [abutting_state]
      fsize := by simp [abutting_state]
      fbytes := by simp [abutting_state, uint_mod_eq]
      asize := by simp
      abytes := by simp
      alow := by simp
      adisj := by simp
      fdisj := by simp }

theorem mem_insert_aux (P Q l1 l2 : List Nat) (p f x : Nat)
    (el : P ++ p :: Q = l1 ++ p :: l2) :
    x ∈ l1 ++ p :: f :: l2 ↔ x ∈ P ++ p :: f :: Q := by
  have hm1 : x ∈ P ++ p :: Q ↔ x ∈ l1 ++ p :: l2 := by rw [el]
  simp only [List.mem_append, List.mem_cons] at hm1 ⊢
  by_cases hxf : x = f
  · simp [hxf]
  · by_cases hxp : x = p
    · simp [hxp]
    · simp only [hxf, hxp, false_or] at hm1 ⊢
      exact hm1.symm

/-- Releasing a block that was just split off the tail of node `f` gives `f` its
size back and leaves every free node as it was. -/
theorem round_trip_split {usz base : Nat} {st : State} {l al : List Nat} {n f p : Nat}
    (h : WF usz base st l al) (hn : 1 ≤ n) (hp : p ∈ l) (hfm : f ∈ l) (hf : n < st.size f)
    (fuel : Nat) (hfu : l.length ≤ fuel) :
    ∃ st2, free fuel (carve usz st n f p).1 (carve usz st n f p).2 = some st2 ∧
      (∀ x ∈ l, st2.size x = st.size x ∧ st2.next x = st.next x) ∧ WF usz base st2 l al ∧
      st2.requests = st.requests := by
  obtain ⟨d, hd⟩ : ∃ d, st.size f = d + n := ⟨st.size f - n, by omega⟩
  have hd1 : 1 ≤ d := by omega
  have hsub : st.size f - n = d := by omega
  have hne : ¬ st.size f = n := by omega
  have ec : carve usz st n f p
      = (((st.setSize f d).setSize (f + d) n).setCursor p, f + d + 1) := by
    rw [h.carve_split p hfm hn hf, hsub]
  have hw1 := carve_split_wf h hn hp hfm hf
  rw [hsub] at hw1
  rw [ec]
  simp only
  have hbf : f + d ≠ f := by omega
  have s1f : (((st.setSize f d).setSize (f + d) n).setCursor p).size f = d := by
    simp [Ne.symm hbf]
  have s1b : (((st.setSize f d).setSize (f + d) n).setCursor p).size (f + d) = n := by
    simp
  have s1x : ∀ x, x ≠ f → x ≠ f + d →
      (((st.setSize f d).setSize (f + d) n).setCursor p).size x = st.size x := by
    intro x h1 h2
    simp [h1, h2]
  have s1n : (((st.setSize f d).setSize (f + d) n).setCursor p).next = st.next := rfl
  have s1r : (((st.setSize f d).setSize (f + d) n).setCursor p).requests = st.requests := rfl
  have hbl : f + d ∉ l := hw1.not_mem (List.mem_cons_self _ _)
  obtain ⟨l1, pred, l2, l2', l', el, hlow, hpq, hhigh, hfree, hw', hsz, hnx, hsucc, hpredc⟩ :=
    free_shape hw1 (List.mem_cons_self (f + d) al) fuel hfu
  rw [List.erase_cons_head] at hw'
  have hpf : pred = f := by
    have hfm' := hfm
    rw [el] at hfm'
    rcases List.mem_append.1 hfm' with h1 | h1
    · have hlt := hlow f h1
      have hpm : pred ∈ l := by rw [el]; simp
      rcases hw1.gap_of_mem hfm hpm (by omega) with g | g
      · rw [s1f] at g; omega
      · omega
    · rcases List.mem_cons.1 h1 with h1 | h1
      · exact h1.symm
      · have := hhigh f h1
        omega
  have hpf' := hpf.symm
  subst hpf'
  have hnosucc : f + d + n ≠ st.next f := by
    intro e
    have hy := h.next_mem hfm
    by_cases hyf : st.next f = f
    · omega
    · rcases h.gap_of_mem hfm hy (Ne.symm hyf) with g | g <;> omega
  refine ⟨_, hfree, ?_, ?_, ?_⟩
  · intro x hx
    by_cases hxf : x = f
    · subst hxf
      constructor
      · rcases hpredc with ⟨_, e, _⟩ | ⟨_, _, e⟩
        · rw [s1f] at e; exact absurd rfl e
        · rw [e, s1f]
          rcases hsucc with ⟨_, _, e2⟩ | ⟨_, e2, _⟩
          · rw [e2, s1b, hd]
          · rw [s1b, s1n] at e2; exact absurd e2 hnosucc
      · rw [free_link_next_pred _ _ _ hbf, if_pos (by rw [s1f]),
          free_link_next_mem _ _ _ hbf, if_neg (by rw [s1b, s1n]; exact hnosucc), s1n]
    · have hxb : x ≠ f + d := fun e => hbl (e ▸ hx)
      exact ⟨by rw [hsz x hxb hxf, s1x x hxf hxb], by rw [hnx x hxb hxf, s1n]⟩
  · have hl' : l' = l := by
      rcases hpredc with ⟨_, e, _⟩ | ⟨e, _, _⟩
      · rw [s1f] at e; exact absurd rfl e
      · rcases hsucc with ⟨e2, _⟩ | ⟨_, e2, _⟩
        · rw [e, e2, el]
        · rw [s1b, s1n] at e2; exact absurd e2 hnosucc
    rw [hl'] at hw'
    exact hw'
  · rw [(free_script hfree).2]
    rfl

/-- Releasing a block that was just unlinked whole puts it back between its
neighbours and leaves every free node as it was. -/
theorem round_trip_exact {usz base : Nat} {st : State} {l al : List Nat} {n p : Nat}
    (h : WF usz base st l al) (hn : 1 ≤ n) (hp : p ∈ l) (hf : st.size (st.next p) = n)
    (fuel : Nat) (hfu : l.length ≤ fuel) :
    ∃ st2, free fuel (carve usz st n (st.next p) p).1 (carve usz st n (st.next p) p).2 = some st2 ∧
      (∀ x ∈ l, st2.size x = st.size x ∧ st2.next x = st.next x) ∧ WF usz base st2 l al ∧
      st2.requests = st.requests := by
  obtain ⟨P, Q, el0, hw1⟩ := carve_exact_wf h hn hp hf
  have ec : carve usz st n (st.next p) p
      = ((st.setNext p (st.next (st.next p))).setCursor p, st.next p + 1) :=
    h.carve_exact p (h.next_mem hp) hn hf
  rw [ec]
  simp only
  generalize hfdef : st.next p = f at *
  have hfm : f ∈ l := by rw [el0]; simp
  have hsorted := h.sorted
  have hpf : p < f := by
    rw [el0, List.pairwise_append] at hsorted
    have := hsorted.2.1
    rw [List.pairwise_cons] at this
    exact this.1 f (List.mem_cons_self _ _)
  have s1s : ((st.setNext p (st.next f)).setCursor p).size = st.size := rfl
  have s1p : ((st.setNext p (st.next f)).setCursor p).next p = st.next f := by simp
  have s1x : ∀ x, x ≠ p → ((st.setNext p (st.next f)).setCursor p).next x = st.next x := by
    intro x hx
    simp [hx]
  have hlen : (P ++ p :: Q).length ≤ fuel := by
    rw [el0] at hfu
    simp at hfu ⊢
    omega
  obtain ⟨l1, pred, l2, l2', l', el, hlow, hpq, hhigh, hfree, hw', hsz, hnx, hsucc, hpredc⟩ :=
    free_shape hw1 (List.mem_cons_self f al) fuel hlen
  rw [List.erase_cons_head] at hw'
  have hsub : ∀ x ∈ P ++ p :: Q, x ∈ l := by
    intro x hx
    rw [el0]
    simp only [List.mem_append, List.mem_cons] at hx ⊢
    tauto
  have hbetween : ∀ x ∈ l, p < x → x < f → False := by
    intro x hx h1 h2
    rw [el0] at hx hsorted
    rw [List.pairwise_append] at hsorted
    obtain ⟨_, hs2, hs3⟩ := hsorted
    rw [List.pairwise_cons] at hs2
    obtain ⟨hs4, hs5⟩ := hs2
    rw [List.pairwise_cons] at hs5
    rcases List.mem_append.1 hx with hx | hx
    · have := hs3 x hx p (List.mem_cons_self _ _)
      omega
    · rcases List.mem_cons.1 hx with hx | hx
      · omega
      · rcases List.mem_cons.1 hx with hx | hx
        · omega
        · have := hs5.1 x hx
          omega
  have hpp : pred = p := by
    have hpm : p ∈ P ++ p :: Q := by simp
    have hpredm : pred ∈ l := hsub pred (by rw [el]; simp)
    rw [el] at hpm
    rcases List.mem_append.1 hpm with h1 | h1
    · have := hlow p h1
      exact absurd hpq (fun hlt => hbetween pred hpredm this hlt)
    · rcases List.mem_cons.1 h1 with h1 | h1
      · exact h1.symm
      · have := hhigh p h1
        omega
  have hpp' := hpp.symm
  subst hpp'
  have hfne : f ≠ p := by omega
  have hnosucc : f + st.size f ≠ st.next f := by
    intro e
    have hy := h.next_mem hfm
    by_cases hyf : st.next f = f
    · omega
    · rcases h.gap_of_mem hfm hy (Ne.symm hyf) with g | g <;> omega
  have hnopred : p + st.size p ≠ f := by
    rcases h.gap_of_mem hp hfm (Ne.symm hfne) with g | g <;> omega
  refine ⟨_, hfree, ?_, ?_, ?_⟩
  · intro x hx
    by_cases hxp : x = p
    · subst hxp
      constructor
      · rcases hpredc with ⟨_, _, e, _⟩ | ⟨_, e, _⟩
        · rw [e, s1s]
        · rw [s1s] at e; exact absurd e hnopred
      · rw [free_link_next_pred _ _ _ hfne, if_neg (by rw [s1s]; exact hnopred)]
        exact hfdef.symm
    · by_cases hxf : x = f
      · subst hxf
        constructor
        · rw [free_link_size_mem _ _ _ hfne, if_neg (by rw [s1s, s1p]; exact hnosucc), s1s]
        · rw [free_link_next_mem _ _ _ hfne, if_neg (by rw [s1s, s1p]; exact hnosucc), s1p]
      · exact ⟨by rw [hsz x hxf hxp, s1s], by rw [hnx x hxf hxp, s1x x hxp]⟩
  · have hl' : l' = l := by
      have e1 : l' = l1 ++ p :: f :: l2 := by
        rcases hpredc with ⟨e, _⟩ | ⟨_, e, _⟩
        · rcases hsucc with ⟨e2, _⟩ | ⟨_, e2, _⟩
          · rw [e, e2]
          · rw [s1s, s1p] at e2; exact absurd e2 hnosucc
        · rw [s1s] at e; exact absurd e hnopred
      have hperm : l'.Perm l := by
        refine (List.perm_ext_iff_of_nodup hw'.nodup h.nodup).2 ?_
        intro x
        rw [e1, el0]
        exact mem_insert_aux P Q l1 l2 p f x el
      exact List.eq_of_perm_of_sorted hperm hw'.sorted h.sorted
    rw [hl'] at hw'
    exact hw'
  · rw [(free_script hfree).2]
    rfl

/-- A request served without growth, followed by the release of the returned
block. -/
theorem malloc_free_round_trip {usz base : Nat} {st : State} {l al : List Nat}
    (h : WF usz base st l al) (n fuel : Nat) (hn : 1 ≤ n) (hfit : ∃ x ∈ l, n ≤ st.size x)
    (hf : l.length ≤ fuel) :
    ∃ st1 p st2, malloc_loop usz n fuel fuel st (st.next st.freelist) st.freelist
        = some (st1, p) ∧ p ≠ 0 ∧ st1.requests = st.requests ∧
      free fuel st1 p = some st2 ∧
      (∀ x ∈ l, st2.size x = st.size x ∧ st2.next x = st.next x) ∧ WF usz base st2 l al ∧
      st2.requests = st.requests := by
  obtain ⟨A, B, w, f, rest, _, _, _, hfn, hpm, hnx, hloop⟩ := scan_fit h n fuel fuel hfit hf
  subst hnx
  refine ⟨(carve usz st n (st.next (w.getLastD st.freelist)) (w.getLastD st.freelist)).1,
    (carve usz st n (st.next (w.getLastD st.freelist)) (w.getLastD st.freelist)).2, ?_⟩
  by_cases heq : st.size (st.next (w.getLastD st.freelist)) = n
  · obtain ⟨st2, h1, h2, h3, h4⟩ := round_trip_exact h hn hpm heq fuel hf
    exact ⟨st2, hloop, carve_ptr_ne_zero h _ (h.next_mem hpm) hn hfn,
      carve_requests _ _ _ _ _, h1, h2, h3, h4⟩
  · obtain ⟨st2, h1, h2, h3, h4⟩ :=
      round_trip_split h hn hpm (h.next_mem hpm) (by omega) fuel hf
    exact ⟨st2, hloop, carve_ptr_ne_zero h _ (h.next_mem hpm) hn hfn,
      carve_requests _ _ _ _ _, h1, h2, h3, h4⟩

/-! ## Results -/

/-- C1 as stated fails: with 8-byte units, `malloc(4294967295)` on the untouched
allocator returns the pointer 4196 to a block whose header size is 1 unit, so the
block has no payload at all. -/
theorem capacity_counterexample :
    ∃ st' p, malloc 8 10 50 (fresh_state [some 100]) 4294967295 = some (st', p) ∧ p ≠ 0 ∧
      (st'.size (p - 1) - 1) * 8 < 4294967295 := by
  have h : (malloc 8 10 50 (fresh_state [some 100]) 4294967295).map
      (fun r => (r.2, r.1.size (r.2 - 1))) = some (4196, 1) := by decide
  cases hm : malloc 8 10 50 (fresh_state [some 100]) 4294967295 with
  | none => rw [hm] at h; simp at h
  | some v =>
    obtain ⟨st', p⟩ := v
    rw [hm] at h
    simp only [Option.map_some', Option.some.injEq, Prod.mk.injEq] at h
    refine ⟨st', p, rfl, by omega, ?_⟩
    rw [h.2]
    decide

/-- C1 (amended). Capacity contract: for every request size `n` with
`n + unit_size ≤ 2^32` (unit size at least 2), whenever `malloc(n)` returns a
non-failure pointer `p`, the header one unit before `p` has size `nunits n`, and
the payload of `size - 1` units is at least `n` bytes long. -/
theorem capacity_contract (usz base fuel : Nat) (st : State) (n : Nat) (st' : State) (p : Nat)
    (h2 : 2 ≤ usz) (hn : n + usz ≤ UINT_MOD)
    (hm : malloc usz base fuel st n = some (st', p)) (hp : p ≠ 0) :
    st'.size (p - 1) = nunits usz n ∧ n ≤ (st'.size (p - 1) - 1) * usz := by
  obtain ⟨stc, f, pv, _, hc⟩ := malloc_loop_carved usz _ fuel fuel _ _ _ st' p hm hp
  have hh := carve_header usz stc (nunits usz n) f pv (by rw [hc]; exact hp)
  rw [hc] at hh
  refine ⟨hh, ?_⟩
  rw [hh, nunits_of_small usz n h2 hn, Nat.add_sub_cancel]
  have h1 := Nat.div_add_mod (n + usz - 1) usz
  have h3 := Nat.mod_lt (n + usz - 1) (show 0 < usz by omega)
  rw [Nat.mul_comm] at h1
  omega

/-- Witness for C1: a 16-byte request on the untouched allocator. -/
theorem capacity_contract_witness :
    ∃ st' p, malloc 8 10 50 (fresh_state [some 100]) 16 = some (st', p) ∧ p = 4194 ∧
      st'.size (p - 1) = nunits 8 16 ∧ 16 ≤ (st'.size (p - 1) - 1) * 8 := by
  have h : (malloc 8 10 50 (fresh_state [some 100]) 16).map (fun r => r.2) = some 4194 := by
    decide
  cases hm : malloc 8 10 50 (fresh_state [some 100]) 16 with
  | none => rw [hm] at h; simp at h
  | some v =>
    obtain ⟨st', p⟩ := v
    rw [hm] at h
    simp only [Option.map_some', Option.some.injEq] at h
    exact ⟨st', p, rfl, h, capacity_contract 8 10 50 (fresh_state [some 100]) 16 st' p
      (by decide) (by decide) hm (by omega)⟩

/-- C2. Merge completeness: in a well-formed state, after releasing any list of
distinct allocated blocks (a single block included) no free node ends exactly where
another free node starts. -/
theorem merge_completeness (usz base fuel : Nat) (st : State) (l al bs : List Nat)
    (h : WF usz base st l al) (hnd : bs.Nodup) (hsub : ∀ b ∈ bs, b ∈ al)
    (hf : l.length + bs.length ≤ fuel) :
    ∃ st', free_all fuel st (bs.map (fun b => b + 1)) = some st' ∧ NoAdjacent st' := by
  obtain ⟨st', l', al', hfa, hw, _, _⟩ := free_all_ok fuel bs st l al h hnd hsub hf
  exact ⟨st', hfa, hw.noAdjacent⟩

/-- Witness for C2: releasing the middle block and then the lowest one of three
adjacent allocated blocks. -/
theorem merge_completeness_witness :
    ∃ st', free_all 4 sample_state [4191, 4188] = some st' ∧ NoAdjacent st' :=
  merge_completeness 8 10 4 sample_state [10, 100] [4187, 4190, 4193] [4190, 4187] sample_wf
    (by decide) (by decide) (by decide)

/-- C8 as stated fails: with 8-byte units the request size 4294967295 wraps in
`uint` arithmetic and yields 1 unit instead of 536870913. -/
theorem unit_computation_counterexample :
    nunits 8 4294967295 = 1 ∧ spec_units 8 4294967295 = 536870913 := by
  refine ⟨by decide, ?_⟩
  have := ceil_div_eq 4294967295 8 (by norm_num)
  unfold spec_units
  rw [this]

/-- C8 (amended). Unit computation: for every request size with
`nbytes + unit_size ≤ 2^32` (unit size at least 2), the `uint` computation of line
97 equals `ceil(nbytes / unit_size) + 1` over the integers. -/
theorem unit_computation (usz nbytes : Nat) (h2 : 2 ≤ usz) (h : nbytes + usz ≤ UINT_MOD) :
    nunits usz nbytes = spec_units usz nbytes := by
  rw [nunits_of_small usz nbytes h2 h, spec_units, ceil_div_eq nbytes usz (by omega)]

/-- Witness for C8: the largest request size that does not wrap with 8-byte units. -/
theorem unit_computation_witness : nunits 8 4294967288 = spec_units 8 4294967288 :=
  unit_computation 8 4294967288 (by decide) (by decide)

/-- C10. Growth failure is atomic: if `sbrk` signals failure then `morecore`
returns 0 and leaves the cursor and every size and next field unchanged. -/
theorem morecore_failure_atomic (usz fuel : Nat) (st : State) (nu : Nat)
    (h : (sbrk st (sbrk_bytes usz nu)).2 = none) :
    ∃ st', morecore usz fuel st nu = some (st', 0) ∧ st'.freelist = st.freelist ∧
      st'.next = st.next ∧ st'.size = st.size :=
  ⟨(sbrk st (sbrk_bytes usz nu)).1, morecore_fail usz fuel st nu h, rfl, rfl, rfl⟩

/-- Witness for C10: the sample state, whose growth script is exhausted. -/
theorem morecore_failure_atomic_witness :
    ∃ st', morecore 8 4 sample_state 3 = some (st', 0) ∧ st'.freelist = sample_state.freelist ∧
      st'.next = sample_state.next ∧ st'.size = sample_state.size :=
  morecore_failure_atomic 8 4 sample_state 3 rfl

/-- C3 as stated fails: with 8-byte units the request `s = 4294967295` wraps to a
one-unit block; after releasing it, the smaller request `s' = 32768` needs 4097
units, more than the whole free list holds, and `malloc` asks `sbrk` again. -/
theorem no_growth_reuse_counterexample :
    ((malloc 8 10 50 (fresh_state [some 100, some 5000]) 4294967295).bind (fun r1 =>
      (free 50 r1.1 r1.2).bind (fun s2 =>
        (malloc 8 10 50 s2 32768).map (fun r3 => (r1.2, s2.requests, r3.1.requests)))))
      = some (4196, [32768], [32768, 32776]) := by
  decide

/-- C3 (amended). No-growth reuse: in a well-formed state (every block inside the
32-bit address space), for request sizes `s' ≤ s` with `s + unit_size ≤ 2^32`, when
`sbrk` answers the growth request of `malloc(s)` with a failure or, the request
being below `2^31` bytes, with a fresh span of that size inside the address space:
if `malloc(s)` returns block `A` then `free(A)` returns and the following
`malloc(s')` returns a non-failure pointer without any request to `sbrk`. -/
theorem no_growth_reuse (usz base fuel : Nat) (st : State) (s s' : Nat) (l al : List Nat)
    (st1 : State) (A : Nat)
    (h : WF usz base (init_base base st) l al) (h2 : 2 ≤ usz) (hs : s + usz ≤ UINT_MOD)
    (hle : s' ≤ s) (hok : SbrkOk usz base (init_base base st) l al (nunits usz s))
    (hf : 2 * l.length + 2 ≤ fuel)
    (hm : malloc usz base fuel st s = some (st1, A)) (hA : A ≠ 0) :
    ∃ st2 st3 p, free fuel st1 A = some st2 ∧ malloc usz base fuel st2 s' = some (st3, p) ∧
      p ≠ 0 ∧ st3.requests = st2.requests := by
  obtain ⟨l1, hw1, hsz1, hlen1, _⟩ := malloc_block_wf h h2 hok hf hm hA
  obtain ⟨st2, l2, hfree, hw2, _, _, _, _, hlen2, ⟨x, hx, hxs⟩, _⟩ :=
    free_ok hw1 (List.mem_cons_self (A - 1) al) fuel (by omega)
  have hA1 : A - 1 + 1 = A := by omega
  rw [hA1] at hfree
  have hfit : ∃ x ∈ l2, nunits usz s' ≤ st2.size x := by
    refine ⟨x, hx, ?_⟩
    have := nunits_mono usz s s' h2 hs hle
    omega
  obtain ⟨st3, p, l3, hl3, hp, hrq, _⟩ :=
    malloc_loop_fit_ok hw2 (nunits usz s') fuel fuel (nunits_pos usz s' h2) hfit (by omega)
  refine ⟨st2, st3, p, hfree, ?_, hp, hrq⟩
  unfold malloc
  simp only
  rw [init_base_of_wf hw2]
  exact hl3

/-- Witness for C3: a 16-byte block taken from the sample state, released, and an
8-byte request served from the same free list. -/
theorem no_growth_reuse_witness :
    ∃ st1 A, malloc 8 10 6 sample_state 16 = some (st1, A) ∧ A = 4185 ∧
      ∃ st2 st3 p, free 6 st1 A = some st2 ∧ malloc 8 10 6 st2 8 = some (st3, p) ∧
        p ≠ 0 ∧ st3.requests = st2.requests := by
  have h : (malloc 8 10 6 sample_state 16).map (fun r => r.2) = some 4185 := by decide
  cases hm : malloc 8 10 6 sample_state 16 with
  | none => rw [hm] at h; simp at h
  | some v =>
    obtain ⟨st1, A⟩ := v
    rw [hm] at h
    simp only [Option.map_some', Option.some.injEq] at h
    exact ⟨st1, A, rfl, h, no_growth_reuse 8 10 6 sample_state 16 8 [10, 100]
      [4187, 4190, 4193] st1 A (by rw [init_base_of_wf sample_wf]; exact sample_wf)
      (by decide) (by decide) (by decide) (by intro q hq; simp [sample_state] at hq)
      (by decide) hm (by omega)⟩

/-- C5 as stated fails: with 8-byte units and `sbrk` answering 100 and 4196,
`malloc(16)`, `malloc(4294967288)` (which asks `sbrk` for `2^29 * 8 = 0` bytes and
stamps `2^29` units) and the release of both blocks leave the free list
`10 -> 100 -> 10` with `S = 2^29 + 4096` units at node 100. `malloc(32760)` needs
4096 units: the node is shrunk to `2^29` units, the tail address `100 + 2^29` wraps
to 100, the node itself, whose size is overwritten with 4096; the pointer 101 is
returned and node 100, still on the free list, holds 4096 units instead of
`S - 4096`. -/
theorem split_exactness_counterexample :
    nunits 8 32760 = 4096 ∧
      ((malloc 8 10 50 (fresh_state [some 100, some 4196]) 16).bind (fun r1 =>
        (malloc 8 10 50 r1.1 4294967288).bind (fun r2 =>
          (free 50 r2.1 r2.2).bind (fun s3 =>
            (free 50 s3 r1.2).bind (fun s4 =>
              (malloc 8 10 50 s4 32760).map (fun r5 =>
                [r1.2, r2.2, s4.freelist, s4.next 10, s4.next 100, s4.size 100,
                  r5.2, r5.1.size 100, r5.1.next 10, r5.1.next 100]))))))
        = some [4194, 4197, 100, 100, 10, 536875008, 101, 4096, 100, 10] ∧
      100 + (536875008 - 4096) ≠ 100 := by
  decide

/-- C5 (amended). Split exactness: when `malloc(s)` returns a block in a
well-formed state (every block inside the 32-bit address space, `sbrk` answering a
growth request with a failure or, the request being below `2^31` bytes, with a fresh
span of that size inside the address space), it was carved from the first fitting node `f` of the free list (the list as it is,
or as `morecore` left it when nothing fitted); if that node's size `S` exceeds
`units(s)`, then afterwards `f` is still in the free list at the same position with
size `S - units(s)`, the returned header sits at `f + (S - units(s))` with size
`units(s)`, and the returned pointer is one unit past it. -/
theorem split_exactness (usz base fuel : Nat) (st : State) (s : Nat) (l al : List Nat)
    (st' : State) (p : Nat)
    (h : WF usz base (init_base base st) l al) (h2 : 2 ≤ usz)
    (hok : SbrkOk usz base (init_base base st) l al (nunits usz s))
    (hf : 2 * l.length + 2 ≤ fuel)
    (hm : malloc usz base fuel st s = some (st', p)) (hp : p ≠ 0) :
    ∃ stc lc f prev, WF usz base stc lc al ∧
      (((∃ x ∈ l, nunits usz s ≤ (init_base base st).size x) ∧ stc = init_base base st ∧
          lc = l) ∨
        ((∀ x ∈ l, (init_base base st).size x < nunits usz s) ∧
          morecore usz fuel (init_base base st) (nunits usz s) = some (stc, stc.freelist))) ∧
      FirstFit stc lc (nunits usz s) f prev ∧ f ∈ lc ∧
      (nunits usz s < stc.size f →
        st'.size f = stc.size f - nunits usz s ∧
        p = f + (stc.size f - nunits usz s) + 1 ∧
        st'.size (f + (stc.size f - nunits usz s)) = nunits usz s ∧
        st'.next = stc.next ∧
        (∀ x, x ≠ f → x ≠ f + (stc.size f - nunits usz s) → st'.size x = stc.size x) ∧
        WF usz base st' lc ((f + (stc.size f - nunits usz s)) :: al)) := by
  have hn := nunits_pos usz s h2
  have key : ∀ (stc : State) (lc : List Nat) (f prev : Nat), WF usz base stc lc al →
      FirstFit stc lc (nunits usz s) f prev → carve usz stc (nunits usz s) f prev = (st', p) →
      f ∈ lc ∧ (nunits usz s < stc.size f →
        st'.size f = stc.size f - nunits usz s ∧
        p = f + (stc.size f - nunits usz s) + 1 ∧
        st'.size (f + (stc.size f - nunits usz s)) = nunits usz s ∧
        st'.next = stc.next ∧
        (∀ x, x ≠ f → x ≠ f + (stc.size f - nunits usz s) → st'.size x = stc.size x) ∧
        WF usz base st' lc ((f + (stc.size f - nunits usz s)) :: al)) := by
    intro stc lc f prev hw hff hc
    have hfm := hff.mem hw
    refine ⟨hfm, ?_⟩
    intro hlt
    obtain ⟨_, _, _, _, _, _, _, _, _, hpm, _⟩ := hff
    have hne : ¬ stc.size f = nunits usz s := by omega
    have hsplit := carve_split_wf hw hn hpm hfm hlt
    have ec : carve usz stc (nunits usz s) f prev =
        (((stc.setSize f (stc.size f - nunits usz s)).setSize
          (f + (stc.size f - nunits usz s)) (nunits usz s)).setCursor prev,
          f + (stc.size f - nunits usz s) + 1) :=
      hw.carve_split prev hfm hn hlt
    rw [ec] at hc
    simp only [Prod.mk.injEq] at hc
    obtain ⟨hc1, hc2⟩ := hc
    subst hc1
    have hff' : f ≠ f + (stc.size f - nunits usz s) := by omega
    refine ⟨by simp [hff'], hc2.symm, by simp, rfl, ?_, hsplit⟩
    intro x h1 h2
    simp [h1, h2]
  unfold malloc at hm
  simp only at hm
  rcases malloc_loop_served h (nunits usz s) fuel fuel hok hf (by omega) with
    ⟨hfit, f, prev, hff, hl⟩ | ⟨hno, hs, hl⟩ | ⟨hno, q, stc, lc, hs, hmc, hw, _, _, _, _, _,
      f, prev, hff, hl⟩
  · rw [hl] at hm
    have e := Option.some.inj hm
    obtain ⟨k1, k2⟩ := key _ l f prev h hff e
    exact ⟨_, l, f, prev, h, Or.inl ⟨hfit, rfl, rfl⟩, hff, k1, k2⟩
  · rw [hl] at hm
    have e := Option.some.inj hm
    simp only [Prod.mk.injEq] at e
    exact absurd e.2.symm hp
  · rw [hl] at hm
    have e := Option.some.inj hm
    obtain ⟨k1, k2⟩ := key stc lc f prev hw hff e
    exact ⟨stc, lc, f, prev, hw, Or.inr ⟨hno, hmc⟩, hff, k1, k2⟩

/-- C4 as stated fails: with 8-byte units, `malloc(4294967288)` on the untouched
allocator computes `2^29` units, asks `sbrk` for `2^29 * 8 = 0` bytes (the product
wraps) and stamps `2^29` units on the answer 100; after `free(101)` the free list is
`10 -> 100 -> 10` with `2^29` units at node 100. `malloc(800)` needs 101 units and
finds node 100 large enough, but the tail address `100 + (2^29 - 101)` is the last
unit of the address space and the pointer one unit past it wraps to 0: `malloc`
returns 0 although a node fits and `sbrk` was not asked again. -/
theorem oom_only_failure_counterexample :
    nunits 8 4294967288 = 536870912 ∧ nunits 8 800 = 101 ∧
      ((malloc 8 10 50 (fresh_state [some 100]) 4294967288).bind (fun r1 =>
        (free 50 r1.1 r1.2).bind (fun s2 =>
          (malloc 8 10 50 s2 800).map (fun r3 =>
            ([r1.2, s2.freelist, s2.next 10, s2.next 100, s2.size 100, r3.2],
              s2.requests, r3.1.requests)))))
        = some ([101, 10, 100, 10, 536870912, 0], [0], [0]) := by
  decide

/-- C4 (amended). Out-of-memory is the only failure: for unit sizes of at least 2
bytes, in a well-formed state (every block inside the 32-bit address space) whose
growth collaborator answers with a
failure or, the request being below `2^31` bytes, with a fresh span of that size
inside the address space, `malloc` returns; it returns 0
exactly when no node of the free list holds the request and `sbrk` fails; it asks
`sbrk` at most once, and not at all when some free node fits. -/
theorem oom_only_failure (usz base fuel : Nat) (st : State) (nbytes : Nat) (l al : List Nat)
    (h : WF usz base (init_base base st) l al) (h2 : 2 ≤ usz)
    (hok : SbrkOk usz base (init_base base st) l al (nunits usz nbytes))
    (hf : 2 * l.length + 2 ≤ fuel) :
    ∃ st' p, malloc usz base fuel st nbytes = some (st', p) ∧
      (p = 0 ↔ ((∀ x, Reach (init_base base st) x →
            (init_base base st).size x < nunits usz nbytes) ∧
          (sbrk (init_base base st) (sbrk_bytes usz (nunits usz nbytes))).2 = none)) ∧
      ((∃ x, Reach (init_base base st) x ∧ nunits usz nbytes ≤ (init_base base st).size x) →
        st'.requests = st.requests) ∧
      ((∀ x, Reach (init_base base st) x → (init_base base st).size x < nunits usz nbytes) →
        st'.requests = st.requests ++ [sbrk_bytes usz (nunits usz nbytes)]) := by
  have hr : ∀ x, Reach (init_base base st) x ↔ x ∈ l := h.reach_iff
  have hn := nunits_pos usz nbytes h2
  simp only [hr, sbrk_answer]
  rcases malloc_loop_served h (nunits usz nbytes) fuel fuel hok hf (by omega) with
    ⟨hfit, f, prev, hff, hl⟩ | ⟨hno, hs, hl⟩ | ⟨hno, q, stc, lc, hs, hm, hw, hrq, _, _, _, _, f, prev,
      hff, hl⟩
  · refine ⟨(carve usz (init_base base st) (nunits usz nbytes) f prev).1,
      (carve usz (init_base base st) (nunits usz nbytes) f prev).2, hl, ?_, ?_, ?_⟩
    · constructor
      · intro h0
        exact absurd h0 (hff.serve_ok h hn).1
      · rintro ⟨hno, _⟩
        obtain ⟨x, hx, hxs⟩ := hfit
        have := hno x hx
        omega
    · intro _
      rw [carve_requests, init_base_requests]
    · intro hno
      obtain ⟨x, hx, hxs⟩ := hfit
      have := hno x hx
      omega
  · refine ⟨_, _, hl, ?_, ?_, ?_⟩
    · exact ⟨fun _ => ⟨hno, hs⟩, fun _ => rfl⟩
    · rintro ⟨x, hx, hxs⟩
      have := hno x hx
      omega
    · intro _
      simp
  · refine ⟨(carve usz stc (nunits usz nbytes) f prev).1, (carve usz stc (nunits usz nbytes) f prev).2,
      hl, ?_, ?_, ?_⟩
    · constructor
      · intro h0
        exact absurd h0 (hff.serve_ok hw hn).1
      · rintro ⟨_, hs'⟩
        rw [hs] at hs'
        simp at hs'
    · rintro ⟨x, hx, hxs⟩
      have := hno x hx
      omega
    · intro _
      rw [carve_requests, hrq]
      simp

/-- Witness for C4: a request of 40000 bytes in the sample state, where nothing
fits and the growth script is exhausted. -/
theorem oom_only_failure_witness :
    ∃ st' p, malloc 8 10 6 sample_state 40000 = some (st', p) ∧
      (p = 0 ↔ ((∀ x, Reach (init_base 10 sample_state) x →
            (init_base 10 sample_state).size x < nunits 8 40000) ∧
          (sbrk (init_base 10 sample_state) (sbrk_bytes 8 (nunits 8 40000))).2 = none)) ∧
      ((∃ x, Reach (init_base 10 sample_state) x ∧
          nunits 8 40000 ≤ (init_base 10 sample_state).size x) →
        st'.requests = sample_state.requests) ∧
      ((∀ x, Reach (init_base 10 sample_state) x →
          (init_base 10 sample_state).size x < nunits 8 40000) →
        st'.requests = sample_state.requests ++ [sbrk_bytes 8 (nunits 8 40000)]) :=
  oom_only_failure 8 10 6 sample_state 40000 [10, 100] [4187, 4190, 4193]
    (by rw [init_base_of_wf sample_wf]; exact sample_wf) (by decide)
    (by intro q hq; simp [sample_state] at hq)
    (by decide)

/-- C9. Release returns the block to the pool: in a well-formed state, `free` of an
allocated block `b` of size `k` returns; the units covered by free nodes are those
covered before together with `[b, b + k)`; every node other than `pred` and `b` keeps
its size and link; `b` absorbs `pred.next` exactly when `b + k = pred.next`, and
`pred` absorbs `b` exactly when `pred + pred.size = b`, with the sizes and links the
merge rules prescribe. -/
theorem release_returns_block (usz base fuel : Nat) (st : State) (l al : List Nat) (b : Nat)
    (h : WF usz base st l al) (hb : b ∈ al) (hf : l.length ≤ fuel) :
    ∃ st' l' pred, free fuel st (b + 1) = some st' ∧ WF usz base st' l' (al.erase b) ∧
      pred ∈ l ∧ pred < b ∧ (∀ x ∈ l, x ≤ pred ∨ b < x) ∧ st'.freelist = pred ∧
      (∀ u, Covered st' l' u ↔ (Covered st l u ∨ (b ≤ u ∧ u < b + st.size b))) ∧
      (∀ x, x ≠ pred → x ≠ b → st'.size x = st.size x ∧ st'.next x = st.next x) ∧
      (st.next pred ∉ l' ↔ b + st.size b = st.next pred) ∧
      (b ∉ l' ↔ pred + st.size pred = b) ∧
      st'.size b = (if b + st.size b = st.next pred then st.size b + st.size (st.next pred)
        else st.size b) ∧
      st'.next b = (if b + st.size b = st.next pred then st.next (st.next pred)
        else st.next pred) ∧
      st'.size pred = (if pred + st.size pred = b then st.size pred + st'.size b
        else st.size pred) ∧
      st'.next pred = (if pred + st.size pred = b then st'.next b else b) := by
  obtain ⟨st', l', hfree, hw, _, _, _, hcov, _, _, _⟩ := free_ok h hb fuel hf
  obtain ⟨l1, pred, l2, l2', l'', e, h1, h2, h3, hfree', hw'', hsz, hnx, hc1, hc2⟩ :=
    free_shape h hb fuel hf
  rw [hfree'] at hfree
  have est := Option.some.inj hfree
  subst est
  have hne : b ≠ pred := by omega
  have hnd := h.nodup
  have hbl : b ∉ l := h.not_mem hb
  subst e
  have hsucc := h.next_pred
  have hpm : pred ∈ l1 ++ pred :: l2 := by simp
  have hsm := h.next_mem hpm
  -- the successor is not below `b`
  have hmod1 : b + st.size b = st.next pred →
      (st.size b + st.size (st.next pred)) % UINT_MOD = st.size b + st.size (st.next pred) := by
    intro hm
    have := h.fbound _ hsm
    exact Nat.mod_eq_of_lt (by omega)
  have hsb : (free_link st b pred).size b =
      (if b + st.size b = st.next pred then st.size b + st.size (st.next pred)
        else st.size b) := by
    rw [free_link_size_mem st b pred hne]
    split_ifs with hm
    · exact hmod1 hm
    · rfl
  have hbb : b + (free_link st b pred).size b < UINT_MOD := by
    rw [hsb]
    split_ifs with hm
    · have := h.fbound _ hsm
      omega
    · exact h.abound b hb
  have hsp : (free_link st b pred).size pred =
      (if pred + st.size pred = b then st.size pred + (free_link st b pred).size b
        else st.size pred) := by
    rw [free_link_size_pred st b pred hne]
    split_ifs with hm
    · exact Nat.mod_eq_of_lt (by omega)
    · rfl
  -- the address-ordered list after the release
  have hl'' : l' = l'' := hw.list_unique hw''
  subst hl''
  refine ⟨free_link st b pred, l', pred, hfree', hw, hpm, h2, ?_, rfl, hcov,
    fun x hx1 hx2 => ⟨hsz x hx2 hx1, hnx x hx2 hx1⟩, ?_, ?_, hsb,
    free_link_next_mem st b pred hne, hsp, free_link_next_pred st b pred hne⟩
  · intro x hx
    simp only [List.mem_append, List.mem_cons] at hx
    rcases hx with hx | rfl | hx
    · exact Or.inl (le_of_lt (h1 x hx))
    · exact Or.inl (le_refl _)
    · exact Or.inr (h3 x hx)
  · have hsub2 : ∀ x ∈ l2', x ∈ l2 := by
      rcases hc1 with ⟨e1, _, _⟩ | ⟨e1, _, _⟩
      · rw [e1]; exact fun x hx => hx
      · rw [e1]; exact fun x hx => List.mem_cons_of_mem _ hx
    rcases hc1 with ⟨e1, m1, _⟩ | ⟨e1, m1, _⟩
    · refine ⟨fun hnm => absurd ?_ hnm, fun hm => absurd hm m1⟩
      subst e1
      simp only [List.mem_append, List.mem_cons] at hsm
      rcases hc2 with ⟨e2, _⟩ | ⟨e2, _⟩ <;> rw [e2] <;>
        simp only [List.mem_append, List.mem_cons] <;> tauto
    · refine ⟨fun _ => m1, fun _ => ?_⟩
      rw [e1] at hnd
      have hnd' := hnd
      rw [List.nodup_append] at hnd'
      obtain ⟨_, hnd2, hnd3⟩ := hnd'
      simp only [List.nodup_cons, List.mem_cons, not_or] at hnd2
      have hs1 : st.next pred ∉ l1 := fun hx => hnd3 hx (by simp)
      have hsb' : st.next pred ≠ b := by
        have := h.asize b hb
        omega
      rcases hc2 with ⟨e2, _⟩ | ⟨e2, _⟩ <;> rw [e2] <;>
        simp only [List.mem_append, List.mem_cons, not_or]
      · exact ⟨hs1, fun e => hnd2.1.1 e.symm, hsb', hnd2.2.1⟩
      · exact ⟨hs1, fun e => hnd2.1.1 e.symm, hnd2.2.1⟩
  · have hsub2 : ∀ x ∈ l2', x ∈ l2 := by
      rcases hc1 with ⟨e1, _, _⟩ | ⟨e1, _, _⟩
      · rw [e1]; exact fun x hx => hx
      · rw [e1]; exact fun x hx => List.mem_cons_of_mem _ hx
    rcases hc2 with ⟨e2, m2, _⟩ | ⟨e2, m2, _⟩
    · refine ⟨fun hnm => absurd ?_ hnm, fun hm => absurd hm m2⟩
      rw [e2]; simp
    · refine ⟨fun _ => m2, fun _ => ?_⟩
      rw [e2]
      simp only [List.mem_append, List.mem_cons, not_or]
      refine ⟨fun hx => ?_, hne, fun hx => ?_⟩
      · have := h1 b hx; omega
      · have := h3 b (hsub2 b hx); omega

/-- Witness for C5: a 16-byte request served from the 4087-unit node of the sample
state. -/
theorem split_exactness_witness :
    ∃ st' p, malloc 8 10 6 sample_state 16 = some (st', p) ∧ p = 4185 ∧
      ∃ stc lc f prev, WF 8 10 stc lc [4187, 4190, 4193] ∧
        (((∃ x ∈ [10, 100], nunits 8 16 ≤ (init_base 10 sample_state).size x) ∧
            stc = init_base 10 sample_state ∧ lc = [10, 100]) ∨
          ((∀ x ∈ [10, 100], (init_base 10 sample_state).size x < nunits 8 16) ∧
            morecore 8 6 (init_base 10 sample_state) (nunits 8 16)
              = some (stc, stc.freelist))) ∧
        FirstFit stc lc (nunits 8 16) f prev ∧ f ∈ lc ∧
        (nunits 8 16 < stc.size f →
          st'.size f = stc.size f - nunits 8 16 ∧
          p = f + (stc.size f - nunits 8 16) + 1 ∧
          st'.size (f + (stc.size f - nunits 8 16)) = nunits 8 16 ∧
          st'.next = stc.next ∧
          (∀ x, x ≠ f → x ≠ f + (stc.size f - nunits 8 16) → st'.size x = stc.size x) ∧
          WF 8 10 st' lc ((f + (stc.size f - nunits 8 16)) :: [4187, 4190, 4193])) := by
  have h : (malloc 8 10 6 sample_state 16).map (fun r => r.2) = some 4185 := by decide
  cases hm : malloc 8 10 6 sample_state 16 with
  | none => rw [hm] at h; simp at h
  | some v =>
    obtain ⟨st', p⟩ := v
    rw [hm] at h
    simp only [Option.map_some', Option.some.injEq] at h
    exact ⟨st', p, rfl, h, split_exactness 8 10 6 sample_state 16 [10, 100]
      [4187, 4190, 4193] st' p (by rw [init_base_of_wf sample_wf]; exact sample_wf)
      (by decide) (by intro q hq; simp [sample_state] at hq) (by decide) hm (by omega)⟩

/-- Witness for C9: releasing the middle one of the three allocated blocks of the
sample state. -/
theorem release_returns_block_witness :
    ∃ st' l' pred, free 2 sample_state (4190 + 1) = some st' ∧
      WF 8 10 st' l' ([4187, 4190, 4193].erase 4190) ∧
      pred ∈ [10, 100] ∧ pred < 4190 ∧ (∀ x ∈ [10, 100], x ≤ pred ∨ 4190 < x) ∧
      st'.freelist = pred ∧
      (∀ u, Covered st' l' u ↔
        (Covered sample_state [10, 100] u ∨ (4190 ≤ u ∧ u < 4190 + sample_state.size 4190))) ∧
      (∀ x, x ≠ pred → x ≠ 4190 →
        st'.size x = sample_state.size x ∧ st'.next x = sample_state.next x) ∧
      (sample_state.next pred ∉ l' ↔ 4190 + sample_state.size 4190 = sample_state.next pred) ∧
      (4190 ∉ l' ↔ pred + sample_state.size pred = 4190) ∧
      st'.size 4190 = (if 4190 + sample_state.size 4190 = sample_state.next pred then
          sample_state.size 4190 + sample_state.size (sample_state.next pred)
        else sample_state.size 4190) ∧
      st'.next 4190 = (if 4190 + sample_state.size 4190 = sample_state.next pred then
          sample_state.next (sample_state.next pred)
        else sample_state.next pred) ∧
      st'.size pred = (if pred + sample_state.size pred = 4190 then
          sample_state.size pred + st'.size 4190
        else sample_state.size pred) ∧
      st'.next pred = (if pred + sample_state.size pred = 4190 then st'.next 4190 else 4190) :=
  release_returns_block 8 10 2 sample_state [10, 100] [4187, 4190, 4193] 4190 sample_wf
    (by decide) (by decide)

/-- C7 as stated fails: with 8-byte units and `sbrk` answering 100 and 4196, after
`malloc(16)`, `malloc(4294967288)` (which asks `sbrk` for `2^29 * 8 = 0` bytes and
stamps `2^29` units), `free(4197)` and `free(4194)` nothing is allocated and the free
list `10 -> 100 -> 10` totals `2^29 + 4096` units; the call `malloc(32760)` grows
nothing, its tail address `100 + 2^29` wraps to node 100 itself and leaves it with
4096 units, on the free list and handed out as a block at once: counted in both,
the total is 8192. -/
theorem monotonic_region_counterexample :
    (run 8 10 50 (fresh_state [some 100, some 4196]) []
        [Call.malloc 16, Call.malloc 4294967288, Call.free 4197, Call.free 4194]).map
      (fun r => [r.2, [r.1.freelist, r.1.next 10, r.1.next 100, total r.1 [10, 100] r.2]])
        = some [[], [100, 100, 10, 536875008]] ∧
    (run 8 10 50 (fresh_state [some 100, some 4196]) []
        [Call.malloc 16, Call.malloc 4294967288, Call.free 4197, Call.free 4194,
          Call.malloc 32760]).map
      (fun r => [r.2, [r.1.freelist, r.1.next 10, r.1.next 100, total r.1 [10, 100] r.2]])
        = some [[100], [10, 100, 10, 8192]] := by
  decide

/-- C7 (amended). Monotonic region: in well-formed states (every block inside the
32-bit address space), with `sbrk` answering a growth request with a failure or, the
request being below `2^31` bytes, with a fresh span of that size inside the address
space, the total of header sizes over free nodes and allocated blocks is unchanged
by `free`, unchanged by a `malloc` that does not grow the region (or fails), grows by
exactly the granted unit count when `morecore` succeeds, and therefore never
decreases along a legal sequence of calls. -/
theorem monotonic_region (usz base fuel : Nat) (h2 : 2 ≤ usz) :
    (∀ (st : State) (l al : List Nat) (a : Nat), WF usz base st l al → a ∈ al → l.length ≤ fuel →
      ∃ st' l', free fuel st (a + 1) = some st' ∧ WF usz base st' l' (al.erase a) ∧
        total st' l' (al.erase a) = total st l al) ∧
    (∀ (st : State) (l al : List Nat) (n : Nat), WF usz base (init_base base st) l al →
      SbrkOk usz base (init_base base st) l al (nunits usz n) → 2 * l.length + 2 ≤ fuel →
      ∃ st' p, malloc usz base fuel st n = some (st', p) ∧
        (p = 0 → WF usz base st' l al ∧ total st' l al = total (init_base base st) l al) ∧
        (p ≠ 0 → ∃ l', WF usz base st' l' ((p - 1) :: al) ∧
          (total st' l' ((p - 1) :: al) = total (init_base base st) l al ∧
              st'.requests = st.requests ∨
            total st' l' ((p - 1) :: al)
                = total (init_base base st) l al + grant (nunits usz n) ∧
              st'.requests = st.requests ++ [sbrk_bytes usz (nunits usz n)]))) ∧
    (∀ (cs : List Call) (st : State) (l al : List Nat),
      WF usz base (init_base base st) l al → (st.freelist = 0 → al = []) →
      Legal usz base fuel st al cs → 2 * (l.length + cs.length) + 2 ≤ fuel →
      ∃ st' al' l', run usz base fuel st al cs = some (st', al') ∧
        WF usz base (init_base base st') l' al' ∧
        total (init_base base st) l al ≤ total (init_base base st') l' al') := by
  refine ⟨?_, ?_, ?_⟩
  · intro st l al a h ha hf
    obtain ⟨st', l', hfree, hw, _, _, htot, _⟩ := free_ok h ha fuel hf
    exact ⟨st', l', hfree, hw, htot⟩
  · intro st l al n h hok hf
    obtain ⟨st', p, hm, hp0, hp1⟩ := @malloc_step_ok usz base fuel st l al n h h2 hok hf
    refine ⟨st', p, hm, fun hp => ⟨(hp0 hp).1, (hp0 hp).2.1⟩, fun hp => ?_⟩
    obtain ⟨l', hw, _, htot⟩ := hp1 hp
    exact ⟨l', hw, htot⟩
  · intro cs st l al h hz hleg hf
    obtain ⟨st', al', l', hr, hw, _, hle⟩ := run_ok h2 cs st l al h hz hleg hf
    exact ⟨st', al', l', hr, hw, hle⟩

/-- Witness for C7: in the sample state, release the middle block and then ask for
16 bytes. -/
theorem monotonic_region_witness :
    ∃ st' al' l',
      run 8 10 12 sample_state [4187, 4190, 4193] [Call.free 4191, Call.malloc 16]
        = some (st', al') ∧
      WF 8 10 (init_base 10 st') l' al' ∧
      total (init_base 10 sample_state) [10, 100] [4187, 4190, 4193]
        ≤ total (init_base 10 st') l' al' := by
  refine (monotonic_region 8 10 12 (by decide)).2.2 [Call.free 4191, Call.malloc 16]
    sample_state [10, 100] [4187, 4190, 4193]
    (by rw [init_base_of_wf sample_wf]; exact sample_wf) (by decide) ?_ (by decide)
  refine ⟨⟨by decide, by decide⟩, ?_⟩
  intro r hr
  refine ⟨?_, fun _ _ => trivial⟩
  intro l _ q hq
  simp only [step, Option.map_eq_some'] at hr
  obtain ⟨st1, hfree, e⟩ := hr
  rw [← e] at hq
  simp only [init_base_script] at hq
  rw [(free_script hfree).1] at hq
  simp [sample_state] at hq

/-- C6. Scenario: on the untouched allocator with `sbrk` granting a span at `q`
above the sentinel (its 4096 units inside the 32-bit address space), three 16-byte
requests return the blocks `A`, `B`, `C`, each of `units(16)` units and address-adjacent (`C`, then `B`, then `A`). Releasing `B`, `A`,
`C` leaves a free list made of the sentinel and the single node `q` of 4096 units,
which covers the three blocks; releasing `C`, `A`, `B` leaves the same node with the
same size. -/
theorem scenario_three_blocks (usz base q fuel : Nat) (sc : List (Option Nat))
    (h2 : 2 ≤ usz) (hb : 0 < base) (hq : base < q) (hbq : (q + 4096) * usz < UINT_MOD)
    (hf : 3 ≤ fuel) :
    ∃ stA stB stC A B C,
      malloc usz base fuel (fresh_state (some q :: sc)) 16 = some (stA, A) ∧
      malloc usz base fuel stA 16 = some (stB, B) ∧
      malloc usz base fuel stB 16 = some (stC, C) ∧
      stC.size (A - 1) = nunits usz 16 ∧ stC.size (B - 1) = nunits usz 16 ∧
      stC.size (C - 1) = nunits usz 16 ∧
      (C - 1) + nunits usz 16 = B - 1 ∧ (B - 1) + nunits usz 16 = A - 1 ∧
      (∃ s1 s2 s3, free fuel stC B = some s1 ∧ free fuel s1 A = some s2 ∧
        free fuel s2 C = some s3 ∧ (∀ x, Reach s3 x ↔ (x = base ∨ x = q)) ∧
        s3.size base = 0 ∧ s3.size q = 4096 ∧
        q ≤ C - 1 ∧ (A - 1) + nunits usz 16 ≤ q + s3.size q) ∧
      (∃ t1 t2 t3, free fuel stC C = some t1 ∧ free fuel t1 A = some t2 ∧
        free fuel t2 B = some t3 ∧ (∀ x, Reach t3 x ↔ (x = base ∨ x = q)) ∧
        t3.size base = 0 ∧ t3.size q = 4096 ∧
        q ≤ C - 1 ∧ (A - 1) + nunits usz 16 ≤ q + t3.size q) := by
  obtain ⟨k, rfl⟩ : ∃ k, fuel = k + 3 := ⟨fuel - 3, by omega⟩
  obtain ⟨hn1, hn9⟩ := nunits_sixteen usz h2
  generalize hn : nunits usz 16 = n at hn1 hn9
  obtain ⟨r, hr, h3⟩ : ∃ r, 1 ≤ r ∧ r + n + n + n = 4096 := ⟨4096 - n - n - n, by omega, by omega⟩
  obtain ⟨stA, stB, stC, mA, mB, mC, F0, Nb, Nq, Sb, Sq, Sc, Sm, Sa⟩ :=
    three_requests usz base q k sc 16 n r (by omega) hb hq hbq hn hn1 hr h3
  refine ⟨stA, stB, stC, _, _, _, mA, mB, mC, ?_, ?_, ?_, ?_, ?_, ?_, ?_⟩
  · simpa using Sa
  · simpa using Sm
  · simpa using Sc
  · simp
  · simp
  · obtain ⟨s1, f1, p1, p2, p3, p4, p5, p6, p7, p8, p9⟩ :=
      release_middle_first base q n r k stC hq hn1 hr F0 Nb Nq Sb Sq Sc Sm Sa
    obtain ⟨s2, f2, q1, q2, q3, q4, q5, q6, q7, q8⟩ :=
      release_upper_second base q n r k s1 hq hn1 hr (le_of_eq h3) p1 p2 p3 p4 p5 p6 p7 p8 p9
    obtain ⟨s3, f3, r1, r2, r3, r4, r5⟩ :=
      release_lower_third base q n r k s2 hq hn1 hr (le_of_eq h3) q1 q2 q3 q4 q5 q6 q7 q8
    refine ⟨s1, s2, s3, f1, f2, f3, reach_two s3 base q r1 r3 r2, r4, by rw [r5, h3], ?_, ?_⟩
    · simp
    · rw [r5]; simp; omega
  · obtain ⟨t1, f1, p1, p2, p3, p4, p5, p6, p7⟩ :=
      release_lower_first base q n r k stC hq hn1 hr (le_of_eq h3) F0 Nb Nq Sb Sq Sc Sm Sa
    obtain ⟨t2, f2, q1, q2, q3, q4, q5, q6, q7, q8⟩ :=
      release_upper_after_lower base q n r k t1 hq hn1 hr p1 p2 p3 p4 p5 p6 p7
    obtain ⟨t3, f3, r1, r2, r3, r4, r5⟩ :=
      release_middle_last base q n r k t2 hq hn1 hr (le_of_eq h3) q1 q2 q3 q4 q5 q6 q7 q8
    refine ⟨t1, t2, t3, f1, f2, f3, reach_two t3 base q r1 r3 r2, r4, by rw [r5, h3], ?_, ?_⟩
    · simp
    · rw [r5]; simp; omega

/-- Witness for C6: 8-byte units, the sentinel at address 10 and `sbrk` granting
the span at address 100. -/
theorem scenario_three_blocks_witness :
    ∃ stA stB stC A B C,
      malloc 8 10 3 (fresh_state [some 100]) 16 = some (stA, A) ∧
      malloc 8 10 3 stA 16 = some (stB, B) ∧
      malloc 8 10 3 stB 16 = some (stC, C) ∧
      stC.size (A - 1) = nunits 8 16 ∧ stC.size (B - 1) = nunits 8 16 ∧
      stC.size (C - 1) = nunits 8 16 ∧
      (C - 1) + nunits 8 16 = B - 1 ∧ (B - 1) + nunits 8 16 = A - 1 ∧
      (∃ s1 s2 s3, free 3 stC B = some s1 ∧ free 3 s1 A = some s2 ∧
        free 3 s2 C = some s3 ∧ (∀ x, Reach s3 x ↔ (x = 10 ∨ x = 100)) ∧
        s3.size 10 = 0 ∧ s3.size 100 = 4096 ∧
        100 ≤ C - 1 ∧ (A - 1) + nunits 8 16 ≤ 100 + s3.size 100) ∧
      (∃ t1 t2 t3, free 3 stC C = some t1 ∧ free 3 t1 A = some t2 ∧
        free 3 t2 B = some t3 ∧ (∀ x, Reach t3 x ↔ (x = 10 ∨ x = 100)) ∧
        t3.size 10 = 0 ∧ t3.size 100 = 4096 ∧
        100 ≤ C - 1 ∧ (A - 1) + nunits 8 16 ≤ 100 + t3.size 100) :=
  scenario_three_blocks 8 10 100 3 [] (by decide) (by decide) (by decide) (by decide)
    (by decide)

/-- C11. Address-order invariant: after any non-empty legal sequence of `malloc` and
`free` calls (every `free` on a pointer currently allocated, `sbrk` answering with a
failure or with a fresh span: the bytes it was asked for, below `2^31`, inside the
32-bit address space), started on the untouched allocator or in a well-formed
state, the run returns and exactly
one node of the free list has a successor that is not above it (the wrap edge), so
every other link goes strictly upwards; the nodes reached from the cursor are those
of a strictly ascending list chained by `next` and closed at its first node. -/
theorem address_order (usz base fuel : Nat) (h2 : 2 ≤ usz) (c : Call) (cs : List Call)
    (st : State) (l al : List Nat) (h : WF usz base (init_base base st) l al)
    (hz : st.freelist = 0 → al = []) (hleg : Legal usz base fuel st al (c :: cs))
    (hf : 2 * (l.length + (c :: cs).length) + 2 ≤ fuel) :
    ∃ st' al', run usz base fuel st al (c :: cs) = some (st', al') ∧
      (∃ x, (Reach st' x ∧ st'.next x ≤ x) ∧ ∀ y, Reach st' y ∧ st'.next y ≤ y → y = x) ∧
      (∀ y, Reach st' y → ¬ st'.next y ≤ y → y < st'.next y) ∧
      ∃ l', l'.Pairwise (· < ·) ∧ (∀ x, Reach st' x ↔ x ∈ l') ∧
        Linked st'.next l' (l'.headD 0) := by
  obtain ⟨st', al', l', hr, hw⟩ := run_wf_init h2 c cs st l al h hz hleg hf
  exact ⟨st', al', hr, hw.wrap_edge, fun y _ hy => by omega, l', hw.sorted_walk⟩

/-- Witness for C11: release the middle block of the sample state, then ask for 16
bytes. -/
theorem address_order_witness :
    ∃ st' al', run 8 10 12 sample_state [4187, 4190, 4193] [Call.free 4191, Call.malloc 16]
        = some (st', al') ∧
      (∃ x, (Reach st' x ∧ st'.next x ≤ x) ∧ ∀ y, Reach st' y ∧ st'.next y ≤ y → y = x) ∧
      (∀ y, Reach st' y → ¬ st'.next y ≤ y → y < st'.next y) ∧
      ∃ l', l'.Pairwise (· < ·) ∧ (∀ x, Reach st' x ↔ x ∈ l') ∧
        Linked st'.next l' (l'.headD 0) :=
  address_order 8 10 12 (by decide) (Call.free 4191) [Call.malloc 16] sample_state [10, 100]
    [4187, 4190, 4193] sample_inv (by decide) sample_legal (by decide)

/-- C16 as stated fails: with 8-byte units and the sentinel at address 10,
`malloc(4294967288)` asks `sbrk` for `2^29 * 8 = 0` bytes and stamps `2^29` units on
the answer 100; after `free(101)` node 100 holds `2^29` units. `malloc(712)` needs 90
units: the tail address `100 + (2^29 - 90)` wraps to 10, the sentinel, whose size
becomes 90, and the pointer 11 just past the sentinel is returned. -/
theorem sentinel_permanence_counterexample :
    nunits 8 712 = 90 ∧
      (run 8 10 50 (fresh_state [some 100]) []
          [Call.malloc 4294967288, Call.free 101, Call.malloc 712]).map
        (fun r => [r.2, [r.1.size 10]]) = some [[10], [90]] ∧
      ((malloc 8 10 50 (fresh_state [some 100]) 4294967288).bind (fun r1 =>
        (free 50 r1.1 r1.2).bind (fun s2 =>
          (malloc 8 10 50 s2 712).map (fun r3 => [r1.2, s2.size 10, r3.2, r3.1.size 10]))))
        = some [101, 0, 11, 90] := by
  decide

/-- C16 (amended). Sentinel permanence: after any non-empty legal sequence of
`malloc` and `free` calls (every `free` on a pointer currently allocated, every
growth request that `sbrk` grants below `2^31` bytes and answered by a fresh span
inside the 32-bit address space), started on the untouched allocator or in a
well-formed state, the
sentinel `base` is reached from the cursor and has size 0, and no allocated block
is the sentinel: `malloc` never hands it out and `free` never absorbs it. -/
theorem sentinel_permanence (usz base fuel : Nat) (h2 : 2 ≤ usz) (c : Call) (cs : List Call)
    (st : State) (l al : List Nat) (h : WF usz base (init_base base st) l al)
    (hz : st.freelist = 0 → al = []) (hleg : Legal usz base fuel st al (c :: cs))
    (hf : 2 * (l.length + (c :: cs).length) + 2 ≤ fuel) :
    ∃ st' al', run usz base fuel st al (c :: cs) = some (st', al') ∧
      Reach st' base ∧ st'.size base = 0 ∧ (∀ a ∈ al', a ≠ base ∧ base < a) ∧
      ∀ x, Reach st' x → x ≠ base → ¬ (x ≤ base ∧ base < x + st'.size x) := by
  obtain ⟨st', al', l', hr, hw⟩ := run_wf_init h2 c cs st l al h hz hleg hf
  refine ⟨st', al', hr, (hw.reach_iff base).2 hw.base_mem, hw.base_size, ?_, ?_⟩
  · intro a ha
    have := hw.alow a ha
    exact ⟨by omega, this⟩
  · intro x hx hne
    rw [hw.reach_iff] at hx
    have := hw.base_le hx
    omega

/-- Witness for C16: release the middle block of the sample state, then ask for 16
bytes. -/
theorem sentinel_permanence_witness :
    ∃ st' al', run 8 10 12 sample_state [4187, 4190, 4193] [Call.free 4191, Call.malloc 16]
        = some (st', al') ∧
      Reach st' 10 ∧ st'.size 10 = 0 ∧ (∀ a ∈ al', a ≠ 10 ∧ 10 < a) ∧
      ∀ x, Reach st' x → x ≠ 10 → ¬ (x ≤ 10 ∧ 10 < x + st'.size x) :=
  sentinel_permanence 8 10 12 (by decide) (Call.free 4191) [Call.malloc 16] sample_state
    [10, 100] [4187, 4190, 4193] sample_inv (by decide) sample_legal (by decide)

/-- C19 as stated fails: with 8-byte units and `sbrk` answering 100 and 4196,
`malloc(16)` returns 4194; `malloc(4294967288)` asks `sbrk` for `2^29 * 8 = 0` bytes,
stamps `2^29` units at 4196 and returns 4197; after `free(4197)` the call
`malloc(16)` carves its tail from node 4196 at `4196 + (2^29 - 3)`, which wraps to
4193: the pointer 4194 is returned a second time while the first block at 4193 is
still allocated. -/
theorem no_overlap_counterexample :
    (run 8 10 50 (fresh_state [some 100, some 4196]) []
        [Call.malloc 16, Call.malloc 4294967288, Call.free 4197, Call.malloc 16]).map
      (fun r => r.2) = some [4193, 4193] ∧
    ((malloc 8 10 50 (fresh_state [some 100, some 4196]) 16).bind (fun r1 =>
      (malloc 8 10 50 r1.1 4294967288).bind (fun r2 =>
        (free 50 r2.1 r2.2).bind (fun s3 =>
          (malloc 8 10 50 s3 16).map (fun r4 => [r1.2, r2.2, r4.2])))))
      = some [4194, 4197, 4194] := by
  decide

/-- C19 (amended). No overlap: after any non-empty legal sequence of `malloc` and
`free` calls (every `free` on a pointer currently allocated, every growth request
that `sbrk` grants below `2^31` bytes and answered by a fresh span inside the 32-bit
address space), started on the untouched allocator or in a well-formed state, no
block is allocated twice, no allocated block is on the free list, every allocated
block and every free node other than the sentinel holds at least one unit, and the
unit spans `[hdr, hdr + size)` of the free-list nodes and of the allocated blocks
are pairwise disjoint. -/
theorem no_overlap (usz base fuel : Nat) (h2 : 2 ≤ usz) (c : Call) (cs : List Call)
    (st : State) (l al : List Nat) (h : WF usz base (init_base base st) l al)
    (hz : st.freelist = 0 → al = []) (hleg : Legal usz base fuel st al (c :: cs))
    (hf : 2 * (l.length + (c :: cs).length) + 2 ≤ fuel) :
    ∃ st' al', run usz base fuel st al (c :: cs) = some (st', al') ∧ al'.Nodup ∧
      (∀ a ∈ al', ¬ Reach st' a ∧ 1 ≤ st'.size a) ∧
      (∀ x, Reach st' x → x ≠ base → 1 ≤ st'.size x) ∧
      ∀ x y, (Reach st' x ∨ x ∈ al') → (Reach st' y ∨ y ∈ al') → x ≠ y →
        x + st'.size x ≤ y ∨ y + st'.size y ≤ x := by
  obtain ⟨st', al', l', hr, hw⟩ := run_wf_init h2 c cs st l al h hz hleg hf
  refine ⟨st', al', hr, hw.nodup_al, ?_, ?_, hw.disjoint⟩
  · intro a ha
    exact ⟨fun hx => hw.not_mem ha ((hw.reach_iff a).1 hx), hw.asize a ha⟩
  · intro x hx hne
    exact hw.fsize x ((hw.reach_iff x).1 hx) hne

/-- Witness for C19: release the middle block of the sample state, then ask for 16
bytes. -/
theorem no_overlap_witness :
    ∃ st' al', run 8 10 12 sample_state [4187, 4190, 4193] [Call.free 4191, Call.malloc 16]
        = some (st', al') ∧ al'.Nodup ∧
      (∀ a ∈ al', ¬ Reach st' a ∧ 1 ≤ st'.size a) ∧
      (∀ x, Reach st' x → x ≠ 10 → 1 ≤ st'.size x) ∧
      ∀ x y, (Reach st' x ∨ x ∈ al') → (Reach st' y ∨ y ∈ al') → x ≠ y →
        x + st'.size x ≤ y ∨ y + st'.size y ≤ x :=
  no_overlap 8 10 12 (by decide) (Call.free 4191) [Call.malloc 16] sample_state [10, 100]
    [4187, 4190, 4193] sample_inv (by decide) sample_legal (by decide)

/-- C12. Locate insertion point: on every circular free list `l` in strictly
ascending address order (closed from its last node to its first), for every address
`mem` that is not a node and every node `c` taken as cursor, the search loop of
`free` returns; the node `pred` it returns satisfies `pred < mem < pred.next`, or is
the wrap edge with `mem` above it or below its successor; it is the only node of the
list that does so, and it is the same for every cursor. -/
theorem locate_insertion_point (st : State) (mem h fuel : Nat) (l : List Nat)
    (hh : l.head? = some h) (hs : l.Pairwise (· < ·)) (hl : Linked st.next l h)
    (hm : mem ∉ l) (hf : l.length ≤ fuel) :
    ∃ pred, pred ∈ l ∧
      ((pred < mem ∧ mem < st.next pred) ∨
        (st.next pred ≤ pred ∧ (pred < mem ∨ mem < st.next pred))) ∧
      (∀ x ∈ l, ((x < mem ∧ mem < st.next x) ∨
        (st.next x ≤ x ∧ (x < mem ∨ mem < st.next x))) → x = pred) ∧
      (∀ c ∈ l, free_search st mem fuel c = some pred) ∧
      ∀ c ∈ l, free fuel (st.setCursor c) (mem + 1)
        = some (free_link (st.setCursor c) mem pred) := by
  obtain ⟨pred, hp, hstop, huniq⟩ := stop_unique st mem h l hh hs hl hm
  have hnd : l.Nodup := hs.imp (fun hab => Nat.ne_of_lt hab)
  have key : ∀ c ∈ l, free_search st mem fuel c = some pred := fun c hc =>
    free_search_from st mem h pred c l hh hnd hl hp hstop huniq hc fuel hf
  refine ⟨pred, hp, hstop, huniq, key, ?_⟩
  intro c hc
  unfold free
  simp only [Nat.add_sub_cancel, setCursor_freelist]
  rw [free_search_congr st (st.setCursor c) mem rfl, key c hc]
  rfl

/-- Witness for C12: the block at 4190 of the sample state belongs behind node 100,
the wrap edge, from either cursor position. -/
theorem locate_insertion_point_witness :
    ∃ pred, pred ∈ [10, 100] ∧
      ((pred < 4190 ∧ 4190 < sample_state.next pred) ∨
        (sample_state.next pred ≤ pred ∧ (pred < 4190 ∨ 4190 < sample_state.next pred))) ∧
      (∀ x ∈ [10, 100], ((x < 4190 ∧ 4190 < sample_state.next x) ∨
        (sample_state.next x ≤ x ∧ (x < 4190 ∨ 4190 < sample_state.next x))) → x = pred) ∧
      (∀ c ∈ [10, 100], free_search sample_state 4190 2 c = some pred) ∧
      ∀ c ∈ [10, 100], free 2 (sample_state.setCursor c) (4190 + 1)
        = some (free_link (sample_state.setCursor c) 4190 pred) :=
  locate_insertion_point sample_state 4190 10 2 [10, 100] rfl (by decide)
    (by simp [Linked, sample_state]) (by decide) (by decide)

/-- C15 as stated fails: with 8-byte units and `nu = 2^29` (the unit count of
`malloc(4294967288)`), the byte count `nu * 8` wraps to 0 in `uint` arithmetic:
`sbrk` is asked for 0 bytes while the header of the span it returns is stamped with
`2^29` units; with `nu = 2^28` the byte count `2^31` reaches `sbrk(int)` as the
negative number `-2^31`. -/
theorem growth_request_counterexample :
    nunits 8 4294967288 = 536870912 ∧
      (morecore 8 2 (init_base 10 (fresh_state [some 100])) 536870912).map
        (fun r => (r.1.requests, r.1.size 100)) = some ([0], 536870912) ∧
      max 536870912 4096 * 8 ≠ 0 ∧
      sbrk_bytes 8 268435456 = -2147483648 := by
  decide

/-- C15 (amended). Growth request size: for every unit count `nu` with
`max(nu, 4096) * unit_size < 2^31`, `morecore` asks `sbrk` for exactly
`max(nu, 4096) * unit_size` bytes; when `sbrk` fails it returns 0 after that one
request; when `sbrk` answers with a span at `p`, the header at `p` is stamped with
`max(nu, 4096)` units (so units times unit size is the byte count requested) and the
block is handed to `free`; whatever `morecore` returns, the request log has grown by
that one byte count. -/
theorem growth_request_size (usz fuel : Nat) (st : State) (nu : Nat)
    (hb : max nu 4096 * usz < 2 ^ 31) :
    sbrk_bytes usz nu = ((max nu 4096 * usz : Nat) : Int) ∧
      (st.script.head?.join = none →
        morecore usz fuel st nu
          = some ((sbrk st ((max nu 4096 * usz : Nat) : Int)).1, 0)) ∧
      (∀ p, st.script.head?.join = some p →
        morecore usz fuel st nu
          = (free fuel ((sbrk st ((max nu 4096 * usz : Nat) : Int)).1.setSize p
              (max nu 4096)) (p + 1)).map (fun st2 => (st2, st2.freelist)) ∧
        ((sbrk st ((max nu 4096 * usz : Nat) : Int)).1.setSize p (max nu 4096)).size p * usz
          = max nu 4096 * usz) ∧
      ∀ r, morecore usz fuel st nu = some r →
        r.1.requests = st.requests ++ [((max nu 4096 * usz : Nat) : Int)] := by
  have hlt : max nu 4096 * usz < UINT_MOD := by
    rw [uint_mod_eq]
    omega
  have hbytes : sbrk_bytes usz nu = ((max nu 4096 * usz : Nat) : Int) := by
    unfold sbrk_bytes to_int
    rw [grant_eq_max, Nat.mod_eq_of_lt hlt, if_pos hb]
  have hsome : ∀ p, st.script.head?.join = some p →
      morecore usz fuel st nu
        = (free fuel ((sbrk st ((max nu 4096 * usz : Nat) : Int)).1.setSize p
            (max nu 4096)) (p + 1)).map (fun st2 => (st2, st2.freelist)) := by
    intro p hp
    rw [morecore_some usz fuel st nu p hp, hbytes, grant_eq_max]
  have hnone : st.script.head?.join = none →
      morecore usz fuel st nu
        = some ((sbrk st ((max nu 4096 * usz : Nat) : Int)).1, 0) := by
    intro hn
    rw [morecore_fail usz fuel st nu hn, hbytes]
  refine ⟨hbytes, hnone, fun p hp => ⟨hsome p hp, by simp⟩, ?_⟩
  intro r hr
  cases hs : st.script.head?.join with
  | none =>
    rw [hnone hs] at hr
    cases hr
    rfl
  | some p =>
    rw [hsome p hs] at hr
    cases hfree : free fuel ((sbrk st ((max nu 4096 * usz : Nat) : Int)).1.setSize p
        (max nu 4096)) (p + 1) with
    | none => rw [hfree] at hr; simp at hr
    | some st2 =>
      rw [hfree] at hr
      simp only [Option.map_some', Option.some.injEq] at hr
      subst hr
      rw [(free_script hfree).2]
      rfl

/-- Witness for C15: the first growth of the allocator, asked for 3 units of 8
bytes. -/
theorem growth_request_size_witness :
    sbrk_bytes 8 3 = ((max 3 4096 * 8 : Nat) : Int) ∧
      ((init_base 10 (fresh_state [some 100])).script.head?.join = none →
        morecore 8 2 (init_base 10 (fresh_state [some 100])) 3
          = some ((sbrk (init_base 10 (fresh_state [some 100]))
              ((max 3 4096 * 8 : Nat) : Int)).1, 0)) ∧
      (∀ p, (init_base 10 (fresh_state [some 100])).script.head?.join = some p →
        morecore 8 2 (init_base 10 (fresh_state [some 100])) 3
          = (free 2 ((sbrk (init_base 10 (fresh_state [some 100]))
              ((max 3 4096 * 8 : Nat) : Int)).1.setSize p
              (max 3 4096)) (p + 1)).map (fun st2 => (st2, st2.freelist)) ∧
        ((sbrk (init_base 10 (fresh_state [some 100])) ((max 3 4096 * 8 : Nat) : Int)).1.setSize
          p (max 3 4096)).size p * 8 = max 3 4096 * 8) ∧
      ∀ r, morecore 8 2 (init_base 10 (fresh_state [some 100])) 3 = some r →
        r.1.requests = (init_base 10 (fresh_state [some 100])).requests
          ++ [((max 3 4096 * 8 : Nat) : Int)] :=
  growth_request_size 8 2 (init_base 10 (fresh_state [some 100])) 3 (by decide)

/-- C14. Next-fit selection: in a well-formed state in which some free node has at
least `units` units, `malloc` returns the block carved from the first node that is
large enough in list order starting at `cursor.next` and ending with the cursor
itself (the node `k + 1` links after the cursor, every node before it in that order
being too small), with the node scanned just before it as the new cursor, and it
makes no request to `sbrk`. -/
theorem next_fit_selection (usz base fuel : Nat) (st : State) (l al : List Nat) (nbytes : Nat)
    (h : WF usz base st l al) (hfit : ∃ x ∈ l, nunits usz nbytes ≤ st.size x)
    (hf : l.length ≤ fuel) :
    ∃ k, k < l.length ∧
      (∀ j, j < k → st.size (st.next^[j + 1] st.freelist) < nunits usz nbytes) ∧
      nunits usz nbytes ≤ st.size (st.next^[k + 1] st.freelist) ∧
      malloc usz base fuel st nbytes
        = some (carve usz st (nunits usz nbytes) (st.next^[k + 1] st.freelist)
            (st.next^[k] st.freelist)) ∧
      (carve usz st (nunits usz nbytes) (st.next^[k + 1] st.freelist)
        (st.next^[k] st.freelist)).1.requests = st.requests := by
  obtain ⟨k, hk, h1, h2, h3⟩ := scan_fit_index h (nunits usz nbytes) fuel fuel hfit hf
  refine ⟨k, hk, h1, h2, ?_, carve_requests _ _ _ _ _⟩
  unfold malloc
  simp only
  rw [init_base_of_wf h]
  exact h3

/-- Witness for C14: with the cursor at node 100, a 16-byte request is served from
node 200, the node after the cursor, although the lower node 100 is large enough
as well. -/
theorem next_fit_selection_witness :
    (malloc 8 10 3 next_fit_state 16).map (fun r => r.2) = some 248 ∧
      nunits 8 16 ≤ next_fit_state.size 100 ∧
      ∃ k, k < [10, 100, 200].length ∧
        (∀ j, j < k →
          next_fit_state.size (next_fit_state.next^[j + 1] next_fit_state.freelist)
            < nunits 8 16) ∧
        nunits 8 16 ≤ next_fit_state.size (next_fit_state.next^[k + 1] next_fit_state.freelist) ∧
        malloc 8 10 3 next_fit_state 16
          = some (carve 8 next_fit_state (nunits 8 16)
              (next_fit_state.next^[k + 1] next_fit_state.freelist)
              (next_fit_state.next^[k] next_fit_state.freelist)) ∧
        (carve 8 next_fit_state (nunits 8 16)
          (next_fit_state.next^[k + 1] next_fit_state.freelist)
          (next_fit_state.next^[k] next_fit_state.freelist)).1.requests
            = next_fit_state.requests :=
  ⟨by decide, by decide,
    next_fit_selection 8 10 3 next_fit_state [10, 100, 200] [] 16 next_fit_wf
      ⟨100, by decide, by decide⟩ (by decide)⟩

/-- C13. Exact fit: when `malloc(s)` returns a block in a well-formed state, it was
served from the first fitting node `f` of the free list (the list as it is, or as
`morecore` left it when nothing fitted); if the size of `f` equals `units(s)`, then
the next link of its predecessor `prev` becomes the former next link of `f`, the
node `f` is no longer reached from the cursor while every other node still is, the
returned pointer is `f + 1`, no header size changes (the header of `f` still holds
`units(s)`), and every next link other than that of `prev` is unchanged. -/
theorem exact_fit (usz base fuel : Nat) (st : State) (s : Nat) (l al : List Nat)
    (st' : State) (p : Nat)
    (h : WF usz base (init_base base st) l al) (h2 : 2 ≤ usz)
    (hok : SbrkOk usz base (init_base base st) l al (nunits usz s))
    (hf : 2 * l.length + 2 ≤ fuel)
    (hm : malloc usz base fuel st s = some (st', p)) (hp : p ≠ 0) :
    ∃ stc lc f prev, WF usz base stc lc al ∧
      (((∃ x ∈ l, nunits usz s ≤ (init_base base st).size x) ∧ stc = init_base base st ∧
          lc = l) ∨
        ((∀ x ∈ l, (init_base base st).size x < nunits usz s) ∧
          morecore usz fuel (init_base base st) (nunits usz s) = some (stc, stc.freelist))) ∧
      FirstFit stc lc (nunits usz s) f prev ∧ f ∈ lc ∧
      (stc.size f = nunits usz s →
        prev ∈ lc ∧ prev ≠ f ∧ stc.next prev = f ∧
        st'.next prev = stc.next f ∧
        (∀ x, x ≠ prev → st'.next x = stc.next x) ∧
        st'.size = stc.size ∧ st'.size f = nunits usz s ∧
        p = f + 1 ∧ st'.freelist = prev ∧
        ¬ Reach st' f ∧ (∀ x, Reach st' x ↔ (x ∈ lc ∧ x ≠ f)) ∧
        ∃ P Q, lc = P ++ prev :: f :: Q ∧ WF usz base st' (P ++ prev :: Q) (f :: al)) := by
  have hn := nunits_pos usz s h2
  have key : ∀ (stc : State) (lc : List Nat) (f prev : Nat), WF usz base stc lc al →
      FirstFit stc lc (nunits usz s) f prev → carve usz stc (nunits usz s) f prev = (st', p) →
      f ∈ lc ∧ (stc.size f = nunits usz s →
        prev ∈ lc ∧ prev ≠ f ∧ stc.next prev = f ∧
        st'.next prev = stc.next f ∧
        (∀ x, x ≠ prev → st'.next x = stc.next x) ∧
        st'.size = stc.size ∧ st'.size f = nunits usz s ∧
        p = f + 1 ∧ st'.freelist = prev ∧
        ¬ Reach st' f ∧ (∀ x, Reach st' x ↔ (x ∈ lc ∧ x ≠ f)) ∧
        ∃ P Q, lc = P ++ prev :: f :: Q ∧ WF usz base st' (P ++ prev :: Q) (f :: al)) := by
    intro stc lc f prev hw hff hc
    have hfm := hff.mem hw
    refine ⟨hfm, ?_⟩
    intro heq
    obtain ⟨_, _, _, _, _, _, _, _, _, hpm, hnx⟩ := hff
    subst hnx
    obtain ⟨P, Q, el, hw'⟩ := carve_exact_wf hw hn hpm heq
    have ec : carve usz stc (nunits usz s) (stc.next prev) prev =
        ((stc.setNext prev (stc.next (stc.next prev))).setCursor prev, stc.next prev + 1) :=
      hw.carve_exact prev hfm hn heq
    rw [ec] at hc
    simp only [Prod.mk.injEq] at hc
    obtain ⟨hc1, hc2⟩ := hc
    subst hc1
    have hnd := hw.nodup
    rw [el] at hnd
    have hnd' : (P ++ prev :: stc.next prev :: Q).Nodup := hnd
    rw [List.nodup_append] at hnd'
    obtain ⟨_, hnd2, hnd3⟩ := hnd'
    rw [List.nodup_cons] at hnd2
    obtain ⟨hpq, hnd4⟩ := hnd2
    rw [List.nodup_cons] at hnd4
    have hpf : prev ≠ stc.next prev := by
      intro e
      apply hpq
      rw [← e]
      exact List.mem_cons_self _ _
    have hfnot : stc.next prev ∉ P ++ prev :: Q := by
      intro hmem
      rcases List.mem_append.1 hmem with h1 | h1
      · exact hnd3 h1 (by simp)
      · rcases List.mem_cons.1 h1 with h1 | h1
        · exact hpf h1.symm
        · exact hnd4.1 h1
    refine ⟨hpm, hpf, rfl, by simp, ?_, rfl, heq, hc2.symm, rfl, ?_, ?_, P, Q, el, hw'⟩
    · intro x hx
      simp [hx]
    · rw [hw'.reach_iff]
      exact hfnot
    · intro x
      rw [hw'.reach_iff, el]
      constructor
      · intro hx
        refine ⟨?_, fun e => hfnot (e ▸ hx)⟩
        simp only [List.mem_append, List.mem_cons] at hx ⊢
        tauto
      · rintro ⟨hx, hne⟩
        simp only [List.mem_append, List.mem_cons] at hx ⊢
        tauto
  unfold malloc at hm
  simp only at hm
  rcases malloc_loop_served h (nunits usz s) fuel fuel hok hf (by omega) with
    ⟨hfit, f, prev, hff, hl⟩ | ⟨hno, hs, hl⟩ | ⟨hno, q, stc, lc, hs, hmc, hw, _, _, _, _, _,
      f, prev, hff, hl⟩
  · rw [hl] at hm
    have e := Option.some.inj hm
    obtain ⟨k1, k2⟩ := key _ l f prev h hff e
    exact ⟨_, l, f, prev, h, Or.inl ⟨hfit, rfl, rfl⟩, hff, k1, k2⟩
  · rw [hl] at hm
    have e := Option.some.inj hm
    simp only [Prod.mk.injEq] at e
    exact absurd e.2.symm hp
  · rw [hl] at hm
    have e := Option.some.inj hm
    obtain ⟨k1, k2⟩ := key stc lc f prev hw hff e
    exact ⟨stc, lc, f, prev, hw, Or.inr ⟨hno, hmc⟩, hff, k1, k2⟩

/-- Witness for C13: a request of 392 bytes needs 50 units of 8 bytes, exactly the
size of node 200, the node after the cursor of the second sample state. -/
theorem exact_fit_witness :
    ∃ st' p, malloc 8 10 8 next_fit_state 392 = some (st', p) ∧ p = 201 ∧
      ∃ stc lc f prev, WF 8 10 stc lc [] ∧
        (((∃ x ∈ [10, 100, 200], nunits 8 392 ≤ (init_base 10 next_fit_state).size x) ∧
            stc = init_base 10 next_fit_state ∧ lc = [10, 100, 200]) ∨
          ((∀ x ∈ [10, 100, 200], (init_base 10 next_fit_state).size x < nunits 8 392) ∧
            morecore 8 8 (init_base 10 next_fit_state) (nunits 8 392)
              = some (stc, stc.freelist))) ∧
        FirstFit stc lc (nunits 8 392) f prev ∧ f ∈ lc ∧
        (stc.size f = nunits 8 392 →
          prev ∈ lc ∧ prev ≠ f ∧ stc.next prev = f ∧
          st'.next prev = stc.next f ∧
          (∀ x, x ≠ prev → st'.next x = stc.next x) ∧
          st'.size = stc.size ∧ st'.size f = nunits 8 392 ∧
          p = f + 1 ∧ st'.freelist = prev ∧
          ¬ Reach st' f ∧ (∀ x, Reach st' x ↔ (x ∈ lc ∧ x ≠ f)) ∧
          ∃ P Q, lc = P ++ prev :: f :: Q ∧ WF 8 10 st' (P ++ prev :: Q) (f :: [])) := by
  have h : (malloc 8 10 8 next_fit_state 392).map (fun r => r.2) = some 201 := by decide
  cases hm : malloc 8 10 8 next_fit_state 392 with
  | none => rw [hm] at h; simp at h
  | some v =>
    obtain ⟨st', p⟩ := v
    rw [hm] at h
    simp only [Option.map_some', Option.some.injEq] at h
    exact ⟨st', p, rfl, h, exact_fit 8 10 8 next_fit_state 392 [10, 100, 200] [] st' p
      (by rw [init_base_of_wf next_fit_wf]; exact next_fit_wf)
      (by decide) (by intro q hq; simp [next_fit_state, init_base] at hq)
      (by decide) hm (by omega)⟩

/-- C18. Bounded scan: in a well-formed state whose free list has `k = l.length`
nodes, with one loop iteration per node examined: if some node fits, `malloc`'s loop
returns a block within `k` iterations and asks `sbrk` for nothing; if none fits, it
calls `morecore` in iteration `k`; when `sbrk` then fails it returns 0 at once; when
`sbrk` grants a span, a block is returned within one pass over the grown list (at
most `k + 1` nodes) with exactly one request logged; so `malloc` returns whenever
it is given `2 * k + 1` iterations, having asked `sbrk` at most once. -/
theorem bounded_scan (usz base ffuel : Nat) (st : State) (l al : List Nat) (nbytes : Nat)
    (h : WF usz base st l al) (h2 : 2 ≤ usz) (hok : SbrkOk usz base st l al (nunits usz nbytes))
    (hff : l.length ≤ ffuel) :
    ((∃ x ∈ l, nunits usz nbytes ≤ st.size x) → ∀ m, ∃ st' p,
        malloc_loop usz (nunits usz nbytes) ffuel (m + l.length) st (st.next st.freelist)
          st.freelist = some (st', p) ∧ p ≠ 0 ∧ st'.requests = st.requests) ∧
      ((∀ x ∈ l, st.size x < nunits usz nbytes) → ∀ m,
        malloc_loop usz (nunits usz nbytes) ffuel (m + l.length) st (st.next st.freelist)
            st.freelist
          = (morecore usz ffuel st (nunits usz nbytes)).bind (fun r =>
              if r.2 = 0 then some (r.1, 0)
              else malloc_loop usz (nunits usz nbytes) ffuel m r.1 (r.1.next r.2) r.2)) ∧
      ((∀ x ∈ l, st.size x < nunits usz nbytes) → st.script.head?.join = none → ∀ m,
        malloc_loop usz (nunits usz nbytes) ffuel (m + l.length) st (st.next st.freelist)
          st.freelist = some ((sbrk st (sbrk_bytes usz (nunits usz nbytes))).1, 0)) ∧
      ((∀ x ∈ l, st.size x < nunits usz nbytes) → ∀ q, st.script.head?.join = some q →
        ∃ stc lc, morecore usz ffuel st (nunits usz nbytes) = some (stc, stc.freelist) ∧
          WF usz base stc lc al ∧ lc.length ≤ l.length + 1 ∧
          stc.requests = st.requests ++ [sbrk_bytes usz (nunits usz nbytes)] ∧
          ∀ m, ∃ st' p,
            malloc_loop usz (nunits usz nbytes) ffuel (m + lc.length) stc
              (stc.next stc.freelist) stc.freelist = some (st', p) ∧
            malloc_loop usz (nunits usz nbytes) ffuel (m + lc.length + l.length) st
              (st.next st.freelist) st.freelist = some (st', p) ∧
            p ≠ 0 ∧ st'.requests = st.requests ++ [sbrk_bytes usz (nunits usz nbytes)]) ∧
      ∀ fuel, 2 * l.length + 1 ≤ fuel → ∃ st' p,
        malloc usz base fuel st nbytes = some (st', p) ∧
        (st'.requests = st.requests ∨
          st'.requests = st.requests ++ [sbrk_bytes usz (nunits usz nbytes)]) := by
  have hn := nunits_pos usz nbytes h2
  obtain ⟨k1, k2, k3⟩ := malloc_loop_bounded h (nunits usz nbytes) ffuel hn hok hff
  refine ⟨k1, fun hno m => scan_reaches_morecore h _ ffuel m hno, k2, k3, ?_⟩
  intro fuel hfuel
  obtain ⟨j1, j2, j3⟩ := malloc_loop_bounded h (nunits usz nbytes) fuel hn hok (by omega)
  unfold malloc
  simp only
  rw [init_base_of_wf h]
  by_cases hfit : ∃ x ∈ l, nunits usz nbytes ≤ st.size x
  · obtain ⟨st', p, hl, _, hrq⟩ := j1 hfit (fuel - l.length)
    rw [Nat.sub_add_cancel (by omega)] at hl
    exact ⟨st', p, hl, Or.inl hrq⟩
  · have hno : ∀ x ∈ l, st.size x < nunits usz nbytes := by
      intro x hx
      by_contra hc
      exact hfit ⟨x, hx, by omega⟩
    cases hs : st.script.head?.join with
    | none =>
      have hl := j2 hno hs (fuel - l.length)
      rw [Nat.sub_add_cancel (by omega)] at hl
      exact ⟨_, 0, hl, Or.inr rfl⟩
    | some q =>
      obtain ⟨stc, lc, _, _, hlen, _, hall⟩ := j3 hno q hs
      obtain ⟨st', p, _, hl, _, hrq⟩ := hall (fuel - lc.length - l.length)
      have e : fuel - lc.length - l.length + lc.length + l.length = fuel := by omega
      rw [e] at hl
      exact ⟨st', p, hl, Or.inr hrq⟩

/-- Witness for C18: the second sample state, whose free list has three nodes, and
a 16-byte request. -/
theorem bounded_scan_witness :
    ((∃ x ∈ [10, 100, 200], nunits 8 16 ≤ next_fit_state.size x) → ∀ m, ∃ st' p,
        malloc_loop 8 (nunits 8 16) 3 (m + [10, 100, 200].length) next_fit_state
          (next_fit_state.next next_fit_state.freelist) next_fit_state.freelist
            = some (st', p) ∧ p ≠ 0 ∧ st'.requests = next_fit_state.requests) ∧
      ((∀ x ∈ [10, 100, 200], next_fit_state.size x < nunits 8 16) → ∀ m,
        malloc_loop 8 (nunits 8 16) 3 (m + [10, 100, 200].length) next_fit_state
            (next_fit_state.next next_fit_state.freelist) next_fit_state.freelist
          = (morecore 8 3 next_fit_state (nunits 8 16)).bind (fun r =>
              if r.2 = 0 then some (r.1, 0)
              else malloc_loop 8 (nunits 8 16) 3 m r.1 (r.1.next r.2) r.2)) ∧
      ((∀ x ∈ [10, 100, 200], next_fit_state.size x < nunits 8 16) →
        next_fit_state.script.head?.join = none → ∀ m,
        malloc_loop 8 (nunits 8 16) 3 (m + [10, 100, 200].length) next_fit_state
          (next_fit_state.next next_fit_state.freelist) next_fit_state.freelist
            = some ((sbrk next_fit_state (sbrk_bytes 8 (nunits 8 16))).1, 0)) ∧
      ((∀ x ∈ [10, 100, 200], next_fit_state.size x < nunits 8 16) →
        ∀ q, next_fit_state.script.head?.join = some q →
        ∃ stc lc, morecore 8 3 next_fit_state (nunits 8 16) = some (stc, stc.freelist) ∧
          WF 8 10 stc lc [] ∧ lc.length ≤ [10, 100, 200].length + 1 ∧
          stc.requests = next_fit_state.requests ++ [sbrk_bytes 8 (nunits 8 16)] ∧
          ∀ m, ∃ st' p,
            malloc_loop 8 (nunits 8 16) 3 (m + lc.length) stc
              (stc.next stc.freelist) stc.freelist = some (st', p) ∧
            malloc_loop 8 (nunits 8 16) 3 (m + lc.length + [10, 100, 200].length)
              next_fit_state (next_fit_state.next next_fit_state.freelist)
              next_fit_state.freelist = some (st', p) ∧
            p ≠ 0 ∧
            st'.requests = next_fit_state.requests ++ [sbrk_bytes 8 (nunits 8 16)]) ∧
      ∀ fuel, 2 * [10, 100, 200].length + 1 ≤ fuel → ∃ st' p,
        malloc 8 10 fuel next_fit_state 16 = some (st', p) ∧
        (st'.requests = next_fit_state.requests ∨
          st'.requests = next_fit_state.requests ++ [sbrk_bytes 8 (nunits 8 16)]) :=
  bounded_scan 8 10 3 next_fit_state [10, 100, 200] [] 16 next_fit_wf (by decide)
    (by intro q hq; simp [next_fit_state] at hq) (by decide)

/-- C17 as stated fails: on the untouched allocator with 8-byte units, after
`malloc(16)` and the release of that block the free list is `10 -> 100 -> 10` with
4096 units at node 100; a request of 5001 units then reaches `morecore`, `sbrk`
answers with the span at 4196, which node 100 absorbs (it ends there); `morecore`
returns node 100 and the node examined next is its successor, the sentinel 10 of
size 0, while the span lies inside node 100, now 9097 units long; `malloc(40000)`
ends up carving its block at 4196 from node 100. -/
theorem scan_resume_counterexample :
    nunits 8 40000 = 5001 ∧
      ((malloc 8 10 50 (fresh_state [some 100, some 4196]) 16).bind (fun r1 =>
        (free 50 r1.1 r1.2).bind (fun s2 =>
          (morecore 8 50 s2 5001).bind (fun r3 =>
            (malloc 8 10 50 s2 40000).map (fun r4 =>
              [s2.next 10, s2.next 100, s2.size 100, r3.2, r3.1.next r3.2,
                r3.1.size (r3.1.next r3.2), r3.1.size r3.2, r4.2])))))
        = some [100, 10, 4096, 100, 10, 0, 9097, 4197] ∧
      ¬ (10 ≤ 4196 ∧ 4196 < 10 + 0) ∧ (100 ≤ 4196 ∧ 4196 + 5001 ≤ 100 + 9097) := by
  decide

/-- C17 (amended). Scan resumes after the new cursor: in a well-formed state in
which no free node holds `n` units, when `sbrk` grants a fresh span at `q`, `malloc`
calls `morecore` in iteration `l.length`; `morecore` returns the cursor `r` left by
`free`, the free node preceding the span, and the node examined next is the
successor of `r`. If `r` did not end exactly at `q`, that successor is the newly
linked block at `q`, holding at least the granted units, and the request is served
from it at once. If `r` ended at `q`, the span was absorbed by `r`: no node at `q`
exists, the span lies inside `r`, the node examined next does not contain it, every
node other than `r` is too small, and the merged node `r` is reached at the end of
that pass: the scan passes over the `lc.length - 1` other nodes, comes back to `r`
after `lc.length` links and serves the request from `r`. -/
theorem scan_resume (usz base ffuel m : Nat) (st : State) (l al : List Nat) (n q : Nat)
    (h : WF usz base st l al) (hno : ∀ x ∈ l, st.size x < n)
    (hs : st.script.head?.join = some q) (hfr : Fresh usz base st l al q (grant n))
    (hff : l.length ≤ ffuel) :
    ∃ stc lc r, morecore usz ffuel st n = some (stc, r) ∧ r = stc.freelist ∧ r ≠ 0 ∧
      WF usz base stc lc al ∧ r ∈ l ∧ r ∈ lc ∧
      malloc_loop usz n ffuel (m + l.length) st (st.next st.freelist) st.freelist
        = malloc_loop usz n ffuel m stc (stc.next r) r ∧
      (r + st.size r ≠ q → stc.next r = q ∧ q ∈ lc ∧ grant n ≤ stc.size q ∧
        malloc_loop usz n ffuel (m + 1) stc (stc.next r) r = some (carve usz stc n q r)) ∧
      (r + st.size r = q → q ∉ lc ∧ r < q ∧ q + grant n ≤ r + stc.size r ∧
        ¬ (stc.next r ≤ q ∧ q < stc.next r + stc.size (stc.next r)) ∧
        (∀ x ∈ lc, x ≠ r → stc.size x < n) ∧ n ≤ stc.size r ∧
        (∀ j, j + 1 < lc.length → stc.size (stc.next^[j + 1] r) < n) ∧
        stc.next^[lc.length] r = r ∧
        malloc_loop usz n ffuel (m + lc.length) stc (stc.next r) r
          = some (carve usz stc n r (stc.next^[lc.length - 1] r))) := by
  have hg := grant_ge n
  obtain ⟨hw, hql, hqa⟩ :=
    @stamp_wf usz base st (sbrk st (sbrk_bytes usz n)).1 l al q (grant n) h hfr (by omega)
      rfl rfl rfl
  obtain ⟨l1, pred, l2, l2', l', el, hlow, hpq, hhigh, hfree, hw', hsz, hnx, hsucc, hpredc⟩ :=
    free_shape hw (List.mem_cons_self q al) ffuel hff
  rw [List.erase_cons_head] at hw'
  have hm : morecore usz ffuel st n
      = some (free_link ((sbrk st (sbrk_bytes usz n)).1.setSize q (grant n)) q pred, pred) := by
    rw [morecore_some usz ffuel st n q hs, hfree]
    rfl
  have hpl : pred ∈ l := by rw [el]; simp
  have hne : pred ≠ q := by omega
  have hsp : ((sbrk st (sbrk_bytes usz n)).1.setSize q (grant n)).size pred = st.size pred := by
    simp [hne]
  have hsq : ((sbrk st (sbrk_bytes usz n)).1.setSize q (grant n)).size q = grant n := by
    simp
  have hr0 : pred ≠ 0 := by
    have := h.base_le hpl
    have := h.base_pos
    omega
  have hbig : grant n ≤
      (link_next ((sbrk st (sbrk_bytes usz n)).1.setSize q (grant n)) q pred).size q := by
    rcases hsucc with ⟨_, _, e⟩ | ⟨_, _, e⟩
    · rw [e, hsq]
    · rw [e, hsq]
      omega
  have hl2 : ∀ x ∈ l2', x ∈ l2 := by
    intro x hx
    rcases hsucc with ⟨e3, _⟩ | ⟨e3, _⟩
    · rw [← e3]; exact hx
    · rw [e3]; simp [hx]
  refine ⟨_, l', pred, hm, rfl, hr0, hw', hpl, ?_, ?_, ?_, ?_⟩
  · rcases hpredc with ⟨e, _⟩ | ⟨e, _⟩ <;> rw [e] <;> simp
  · rw [scan_reaches_morecore h n ffuel m hno, hm]
    simp only [Option.some_bind, if_neg hr0]
  · intro hnm
    rcases hpredc with ⟨e, _, _, e2⟩ | ⟨_, e, _⟩
    · have hnq : (free_link ((sbrk st (sbrk_bytes usz n)).1.setSize q (grant n)) q pred).next pred
          = q := by
        rw [free_link_next_pred _ q pred (Ne.symm hne), if_neg (by rw [hsp]; exact hnm)]
      refine ⟨hnq, by rw [e]; simp, by rw [e2]; exact hbig, ?_⟩
      rw [hnq]
      exact malloc_loop_fit usz n ffuel m _ q pred (by rw [e2]; omega)
    · rw [hsp] at e
      exact absurd e hnm
  · intro hmg
    rcases hpredc with ⟨_, e, _⟩ | ⟨e, _, e2⟩
    · rw [hsp] at e
      exact absurd hmg e
    · have hql2 : q ∉ l2' := by
        intro hq
        apply hql
        rw [el]
        simp [hl2 q hq]
      have hql1 : q ∉ l1 := by
        intro hq
        apply hql
        rw [el]
        simp [hq]
      have hqn : q ∉ l' := by rw [e]; simp [hql1, hql2, Ne.symm hne]
      have hsmall : ∀ x ∈ l', x ≠ pred →
          (free_link ((sbrk st (sbrk_bytes usz n)).1.setSize q (grant n)) q pred).size x < n := by
        intro x hx hxp
        have hxq : x ≠ q := fun e3 => hqn (e3 ▸ hx)
        have hxl : x ∈ l := by
          rw [e] at hx
          rw [el]
          simp only [List.mem_append, List.mem_cons] at hx ⊢
          rcases hx with hx | hx | hx
          · exact Or.inl hx
          · exact absurd hx hxp
          · exact Or.inr (Or.inr (hl2 x hx))
        rw [hsz x hxq hxp]
        have : ((sbrk st (sbrk_bytes usz n)).1.setSize q (grant n)).size x = st.size x := by
          simp [hxq]
        rw [this]
        exact hno x hxl
      have hnr : n ≤
          (free_link ((sbrk st (sbrk_bytes usz n)).1.setSize q (grant n)) q pred).size pred := by
        rw [e2]
        omega
      have hlen : l'.length ≤ m + l'.length := by omega
      obtain ⟨k1, k2, k3⟩ := scan_cursor_last hw' n ffuel (m + l'.length) hsmall hnr hlen
      refine ⟨hqn, hpq, ?_, ?_, hsmall, hnr, k1, k2, k3⟩
      · rw [e2, hsp]
        omega
      · rw [e] at hw'
        rw [hw'.next_pred]
        have hgap := hw'.gap
        rw [List.pairwise_append] at hgap
        have hgap2 := hgap.2.1
        rw [List.pairwise_cons] at hgap2
        cases l2' with
        | nil =>
          simp only [List.headD_nil]
          rw [hw'.base_size]
          omega
        | cons y r =>
          simp only [List.headD_cons]
          have := hgap2.1 y (List.mem_cons_self _ _)
          rw [e2, hsp] at this
          omega

/-- Witness for C17: in the third sample state a request of 5001 units makes
`sbrk` answer with the span at 4196, which node 100 absorbs. -/
theorem scan_resume_witness :
    ∃ stc lc r, morecore 8 2 abutting_state 5001 = some (stc, r) ∧ r = stc.freelist ∧ r ≠ 0 ∧
      WF 8 10 stc lc [] ∧ r ∈ [10, 100] ∧ r ∈ lc ∧
      malloc_loop 8 5001 2 (2 + [10, 100].length) abutting_state
          (abutting_state.next abutting_state.freelist) abutting_state.freelist
        = malloc_loop 8 5001 2 2 stc (stc.next r) r ∧
      (r + abutting_state.size r ≠ 4196 →
        stc.next r = 4196 ∧ 4196 ∈ lc ∧ grant 5001 ≤ stc.size 4196 ∧
        malloc_loop 8 5001 2 (2 + 1) stc (stc.next r) r = some (carve 8 stc 5001 4196 r)) ∧
      (r + abutting_state.size r = 4196 → 4196 ∉ lc ∧ r < 4196 ∧
        4196 + grant 5001 ≤ r + stc.size r ∧
        ¬ (stc.next r ≤ 4196 ∧ 4196 < stc.next r + stc.size (stc.next r)) ∧
        (∀ x ∈ lc, x ≠ r → stc.size x < 5001) ∧ 5001 ≤ stc.size r ∧
        (∀ j, j + 1 < lc.length → stc.size (stc.next^[j + 1] r) < 5001) ∧
        stc.next^[lc.length] r = r ∧
        malloc_loop 8 5001 2 (2 + lc.length) stc (stc.next r) r
          = some (carve 8 stc 5001 r (stc.next^[lc.length - 1] r))) :=
  scan_resume 8 10 2 2 abutting_state [10, 100] [] 5001 4196 abutting_wf
    (by simp [abutting_state]) rfl
    (by simp [Fresh, abutting_state, grant, uint_mod_eq]) (by decide)

/-- C20 as stated fails: with 8-byte units, `malloc(4294967288)` (`sbrk` asked for
`2^29 * 8 = 0` bytes, answer 100 stamped with `2^29` units) and `free(101)` leave the
free list `10 -> 100 -> 10`, circular, address-ordered and without adjacent blocks.
`malloc(16)` is served from node 100 without growth, its tail address
`100 + (2^29 - 3)` wrapping to 97; `free(98)` then merges node 100 into the block at
97: the free list is `10 -> 97 -> 10`, node 100 is gone and keeps `2^29 - 3` units. -/
theorem round_trip_counterexample :
    ((malloc 8 10 50 (fresh_state [some 100]) 4294967288).bind (fun r1 =>
      (free 50 r1.1 r1.2).bind (fun s2 =>
        (malloc 8 10 50 s2 16).bind (fun r3 =>
          (free 50 r3.1 r3.2).map (fun s4 =>
            ([s2.freelist, s2.next 10, s2.next 100, s2.size 10, s2.size 100, r3.2,
              s4.next 10, s4.next 97, s4.size 97, s4.size 100],
             s2.requests, r3.1.requests))))))
      = some ([10, 100, 10, 0, 536870912, 98, 97, 10, 536870912, 536870909], [0], [0]) := by
  decide

/-- C20 (amended). Allocate/release round trip: in a well-formed state (free list
circular, address-ordered, no two free blocks adjacent, every block inside the
32-bit address space) in which some free node holds the
request, `malloc` returns a block without asking `sbrk`, `free` on the returned
pointer returns, and afterwards the free list has the same nodes, each with the size
and next link it had before the `malloc` call, whether the block was split off a
larger node or was a whole node; only the cursor may differ. -/
theorem alloc_release_round_trip (usz base fuel : Nat) (st : State) (l al : List Nat)
    (nbytes : Nat) (h : WF usz base st l al) (h2 : 2 ≤ usz)
    (hfit : ∃ x ∈ l, nunits usz nbytes ≤ st.size x) (hf : l.length ≤ fuel) :
    ∃ st1 p st2, malloc usz base fuel st nbytes = some (st1, p) ∧ p ≠ 0 ∧
      st1.requests = st.requests ∧ free fuel st1 p = some st2 ∧
      (∀ x, Reach st2 x ↔ Reach st x) ∧
      (∀ x, Reach st x → st2.size x = st.size x ∧ st2.next x = st.next x) ∧
      WF usz base st2 l al := by
  obtain ⟨st1, p, st2, hm, hp, hrq, hfree, hsame, hw2, _⟩ :=
    malloc_free_round_trip h (nunits usz nbytes) fuel (nunits_pos usz nbytes h2) hfit hf
  refine ⟨st1, p, st2, ?_, hp, hrq, hfree, ?_, ?_, hw2⟩
  · unfold malloc
    simp only
    rw [init_base_of_wf h]
    exact hm
  · intro x
    rw [hw2.reach_iff, h.reach_iff]
  · intro x hx
    exact hsame x ((h.reach_iff x).1 hx)

/-- Witness for C20: in the second sample state, a 16-byte request is split off
node 200 and a 392-byte request takes node 200 whole; releasing the block restores
the free list in both cases. -/
theorem alloc_release_round_trip_witness :
    (∃ st1 p st2, malloc 8 10 3 next_fit_state 16 = some (st1, p) ∧ p ≠ 0 ∧
      st1.requests = next_fit_state.requests ∧ free 3 st1 p = some st2 ∧
      (∀ x, Reach st2 x ↔ Reach next_fit_state x) ∧
      (∀ x, Reach next_fit_state x →
        st2.size x = next_fit_state.size x ∧ st2.next x = next_fit_state.next x) ∧
      WF 8 10 st2 [10, 100, 200] []) ∧
    (∃ st1 p st2, malloc 8 10 3 next_fit_state 392 = some (st1, p) ∧ p ≠ 0 ∧
      st1.requests = next_fit_state.requests ∧ free 3 st1 p = some st2 ∧
      (∀ x, Reach st2 x ↔ Reach next_fit_state x) ∧
      (∀ x, Reach next_fit_state x →
        st2.size x = next_fit_state.size x ∧ st2.next x = next_fit_state.next x) ∧
      WF 8 10 st2 [10, 100, 200] []) :=
  ⟨alloc_release_round_trip 8 10 3 next_fit_state [10, 100, 200] [] 16 next_fit_wf (by decide)
      ⟨200, by decide, by decide⟩ (by decide),
    alloc_release_round_trip 8 10 3 next_fit_state [10, 100, 200] [] 392 next_fit_wf (by decide)
      ⟨200, by decide, by decide⟩ (by decide)⟩

end Umalloc
